import Mathlib

set_option linter.dupNamespace false
set_option linter.unusedVariables false

/-!
Verification of the maxlang register-machine core (compiler, bytecode, VM).

The development shallowly embeds the Rust sources under src/:
  src/src/opcode.rs, src/src/value.rs, src/src/native_function.rs,
  src/src/frame.rs, src/src/vm.rs, src/src/compiler.rs.

The repository is mid-rewrite and contains two coexisting iterations of the
virtual machine:
  - a "new" iteration (frame.rs `Frame` with per-frame register vectors and
    `Placeholder` cells, vm.rs `run_tail_call` / `run_return` /
    `run_create_closure`), and
  - an "old" iteration (vm.rs `tail_call`, `vm_return`, `pop_frame`,
    `transform_last_frame_for_tail_call`, `call_native_function`,
    `jump_to_position_if_false`), which keeps all registers in a single
    VM-owned storage vector indexed through each frame's `register_offset`.
Both are embedded, in the namespaces `Maxlang` (new) and `Maxlang.Old`.

Machine integers (u8/i16/usize) are modelled as Nat/Int with the explicit
wrap-arounds performed at the places where the source casts.  Rust f64
numbers are modelled as rationals.  Rust panics (unwrap / out-of-bounds
indexing / unreachable) are modelled as an explicit `panicked` outcome.
-/

namespace Maxlang

/-- Modelled from the spec: the newtype index wrappers
(`RegisterIndex(u8)`, `ConstantIndex(u8)`, `CaptureIndex(u8)`,
`FunctionIndex(u8)`) used by compiler.rs, frame.rs and vm.rs are imported
from the opcode module, whose current revision in src/ is an older generic
iteration that no longer declares them; their shape is fixed by every use
site and by spec section 4.2. -/
structure RegisterIndex where
  val : Nat
deriving DecidableEq

structure ConstantIndex where
  val : Nat
deriving DecidableEq

structure CaptureIndex where
  val : Nat
deriving DecidableEq

structure FunctionIndex where
  val : Nat
deriving DecidableEq

/-- Truncating cast to u8, as performed by the source's `as u8` casts. -/
def toU8 (n : Nat) : Nat := n % 256

/-- Truncating cast from usize to i16, as performed by the source's
`as i16` casts on backpatched jump distances. -/
def toI16 (n : Nat) : Int :=
  let m := n % 65536
  if m < 32768 then (m : Int) else (m : Int) - 65536

/-- The native-function enumeration of native_function.rs. -/
inductive NativeFunction where
  | LessThan
  | GreaterThan
  | Equal
  | GreaterThanEqual
  | LessThanEqual
  | Sum
  | Difference
  | Multiply
  | Quotient
  | Print
  | Index
  | Push
  | Set
deriving DecidableEq

/-- Modelled from the spec: the `ValueIndex` operand union (register /
constant / capture, spec section 4.2) used by compiler.rs and frame.rs;
its declaration lives in the opcode module revision missing from src/. -/
inductive ValueIndex where
  | Register (r : RegisterIndex)
  | Constant (c : ConstantIndex)
  | Capture (c : CaptureIndex)
deriving DecidableEq

/-- Modelled from the spec: the opcode enumeration of spec section 4.2, as
consumed by compiler.rs, frame.rs and vm.rs.  The opcode.rs revision in
src/ is an older generic iteration lacking `DeclareRecursive`,
`FillRecursive` and the `ValueIndex` operands; every variant below is
pinned down by its construction and match sites in the other files. -/
inductive OpCode where
  | Call (f : ValueIndex) (result : RegisterIndex)
  | TailCall (f : ValueIndex)
  | CallArgument (v : ValueIndex)
  | DeclareRecursive (r : RegisterIndex)
  | FillRecursive (v : ValueIndex) (r : RegisterIndex)
  | Return (v : ValueIndex)
  | Jump (offset : Int)
  | JumpToPositionIfFalse (cond : ValueIndex) (offset : Int)
  | CopyValue (source : ValueIndex) (target : RegisterIndex)
  | CloseValue (r : RegisterIndex)
  | CreateClosure (f : FunctionIndex) (result : RegisterIndex)
  | CaptureValue (v : ValueIndex)
  | InsertNativeFunction (nf : NativeFunction) (r : RegisterIndex)
  | Crash
deriving DecidableEq

/-- The value-level error enumeration of value.rs. -/
inductive ValueError where
  | NotANumber
  | NotAClosure
  | NotAList
  | TooManyArguments
  | NoNativeSymbol
deriving DecidableEq

/-- The runtime error enumeration of vm.rs.  The `Wrapped` variant models
the conversion applied by the source's question-mark operator to the
`ValueError`s raised inside native functions; spec section 7 lists these
wrapped `ValueError`s among the runtime errors (the `From` impl itself is
part of the code missing from src/). -/
inductive RuntimeError where
  | NoMoreOpCodes
  | NotAFunction
  | NotABoolean
  | NoLastFrame
  | ValueNotSet
  | TooManyArguments
  | NotEnoughArguments
  | Wrapped (e : ValueError)
deriving DecidableEq

/- The value model of value.rs.  `Rc<RefCell<Value>>` placeholder cells are
modelled by integer identifiers into an explicit cell store, so that the
sharing between a register slot and a closure capture is observable.
Rust f64 payloads are modelled as rationals. -/
mutual

inductive Value where
  | Number (n : Rat)
  | Bool (b : Bool)
  | Nil
  | Uninit
  | List (l : List Value)
  | NativeFunction (nf : NativeFunction)
  | Object (o : Object)

inductive Object where
  | Closure (c : Closure)
  | String (s : String)

inductive Closure where
  | mk (function : ClosureType) (captures : List Placeholder) (arguments : List Value)

inductive Placeholder where
  | Placeholder (cell : Nat)
  | Value (v : Value)

inductive ClosureType where
  | Function (f : Function)
  | NativeFunction (nf : NativeFunction)

inductive Function where
  | mk (opcodes : List OpCode) (constants : List Value) (functions : List Function)
      (arity : Nat) (num_captures : Nat) (num_registers : Nat)

end

def Closure.function : Closure → ClosureType
  | .mk f _ _ => f

def Closure.captures : Closure → List Placeholder
  | .mk _ c _ => c

def Closure.arguments : Closure → List Value
  | .mk _ _ a => a

def Function.opcodes : Function → List OpCode
  | .mk o _ _ _ _ _ => o

def Function.constants : Function → List Value
  | .mk _ c _ _ _ _ => c

def Function.functions : Function → List Function
  | .mk _ _ f _ _ _ => f

def Function.arity : Function → Nat
  | .mk _ _ _ a _ _ => a

def Function.num_captures : Function → Nat
  | .mk _ _ _ _ n _ => n

def Function.num_registers : Function → Nat
  | .mk _ _ _ _ _ n => n

/-- ClosureType::arity from value.rs. -/
def ClosureType.arity : ClosureType → Nat
  | .Function f => f.arity
  | .NativeFunction nf =>
      match nf with
      | .Set => 3
      | .Print => 1
      | _ => 2

/-- NativeFunction::arguments from native_function.rs (fixed arities). -/
def NativeFunction.arguments : NativeFunction → Nat
  | .Set => 3
  | .Print => 1
  | _ => 2

/-- NativeFunction::resolve_symbol from native_function.rs. -/
def NativeFunction.resolve_symbol (symbol : String) : Option NativeFunction :=
  match symbol with
  | "+" => some .Sum
  | "lt" => some .LessThan
  | "lte" => some .LessThanEqual
  | "gt" => some .GreaterThan
  | "gte" => some .GreaterThanEqual
  | "=" => some .Equal
  | "/" => some .Quotient
  | "*" => some .Multiply
  | "-" => some .Difference
  | "print" => some .Print
  | "ind" => some .Index
  | "push" => some .Push
  | "set" => some .Set
  | _ => none

/-- Value::number from value.rs. -/
def Value.number : Value → Except ValueError Rat
  | .Number n => .ok n
  | _ => .error .NotANumber

/-- Abbreviation for lists of runtime values (needed because inside the
`Value` namespace the name `List` refers to the `Value.List` constructor). -/
abbrev ValueList := List Value

/-- Value::list from value.rs. -/
def Value.list : Value → Except ValueError ValueList
  | .List l => .ok l
  | _ => .error .NotAList

/-- Value::closure from value.rs. -/
def Value.closure : Value → Except ValueError Closure
  | .Object (.Closure c) => .ok c
  | _ => .error .NotAClosure

/-- Closure::arguments_needed from value.rs (usize subtraction). -/
def Closure.arguments_needed (c : Closure) : Nat :=
  c.function.arity - c.arguments.length

/-- Closure::add_arguments from value.rs. -/
def Closure.add_arguments (c : Closure) (args : List Value) : Except ValueError Closure :=
  if args.length + c.arguments.length > c.function.arity then
    .error .TooManyArguments
  else
    .ok (.mk c.function c.captures (c.arguments ++ args))

/- Structural equality on values, mirroring the derived PartialEq
instances of value.rs (note: the Rust PartialEq on a placeholder cell
compares the cells' current contents; here two placeholder cells compare
equal when they are the same cell, which is the only use the embedded
operations make of it). -/
mutual

def Value.beq : Value → Value → Bool
  | .Number a, .Number b => a == b
  | .Bool a, .Bool b => a == b
  | .Nil, .Nil => true
  | .Uninit, .Uninit => true
  | .List a, .List b => valueListBeq a b
  | .NativeFunction a, .NativeFunction b => a == b
  | .Object a, .Object b => Object.beq a b
  | _, _ => false

def valueListBeq : List Value → List Value → Bool
  | [], [] => true
  | x :: xs, y :: ys => Value.beq x y && valueListBeq xs ys
  | _, _ => false

def Object.beq : Object → Object → Bool
  | .Closure a, .Closure b => Closure.beq a b
  | .String a, .String b => a == b
  | _, _ => false

def Closure.beq : Closure → Closure → Bool
  | .mk f1 c1 a1, .mk f2 c2 a2 =>
      ClosureType.beq f1 f2 && placeholderListBeq c1 c2 && valueListBeq a1 a2

def placeholderListBeq : List Placeholder → List Placeholder → Bool
  | [], [] => true
  | x :: xs, y :: ys => Placeholder.beq x y && placeholderListBeq xs ys
  | _, _ => false

def Placeholder.beq : Placeholder → Placeholder → Bool
  | .Placeholder a, .Placeholder b => a == b
  | .Value a, .Value b => Value.beq a b
  | _, _ => false

def ClosureType.beq : ClosureType → ClosureType → Bool
  | .Function a, .Function b => Function.beq a b
  | .NativeFunction a, .NativeFunction b => a == b
  | _, _ => false

def Function.beq : Function → Function → Bool
  | .mk o1 c1 f1 a1 n1 r1, .mk o2 c2 f2 a2 n2 r2 =>
      o1 == o2 && valueListBeq c1 c2 && functionListBeq f1 f2 &&
        a1 == a2 && n1 == n2 && r1 == r2

def functionListBeq : List Function → List Function → Bool
  | [], [] => true
  | x :: xs, y :: ys => Function.beq x y && functionListBeq xs ys
  | _, _ => false

end

/-- Faults raised by embedded code: a typed runtime error returned through
`Result`, or a Rust panic (unwrap on None, out-of-bounds indexing,
unreachable code, debug assertion). -/
inductive Fault where
  | runtime (e : RuntimeError)
  | panicked
deriving DecidableEq

abbrev VRes (α : Type) := Except Fault α

/-- The question-mark conversion from a `ValueError` to a wrapped
`RuntimeError` (spec section 7). -/
def liftValue : Except ValueError α → VRes α
  | .ok a => .ok a
  | .error e => .error (.runtime (.Wrapped e))

/-- Rust slice indexing `args[i]`: panics when out of bounds. -/
def argAt (args : List Value) (i : Nat) : VRes Value :=
  match args.get? i with
  | some v => .ok v
  | none => .error .panicked

/-- The source's `as usize` cast of an f64, on the rational model: Rust
float-to-integer casts truncate toward zero and saturate, so a negative
number maps to 0; for rationals this is exactly `floor` clamped at 0. -/
def ratToUsize (q : Rat) : Nat := q.floor.toNat

/-- NativeFunction::call from native_function.rs.  The `print` side effect
on stdout is not modelled (the call still returns its argument). -/
def NativeFunction.call (nf : NativeFunction) (args : List Value) : VRes Value :=
  match nf with
  | .LessThan => do
      let a ← argAt args 0
      let x ← liftValue a.number
      let b ← argAt args 1
      let y ← liftValue b.number
      .ok (.Bool (decide (x < y)))
  | .Sum => do
      let a ← argAt args 0
      let x ← liftValue a.number
      let b ← argAt args 1
      let y ← liftValue b.number
      .ok (.Number (x + y))
  | .Difference => do
      let a ← argAt args 0
      let x ← liftValue a.number
      let b ← argAt args 1
      let y ← liftValue b.number
      .ok (.Number (x - y))
  | .GreaterThan => do
      let a ← argAt args 0
      let x ← liftValue a.number
      let b ← argAt args 1
      let y ← liftValue b.number
      .ok (.Bool (decide (x > y)))
  | .Equal => do
      let a ← argAt args 0
      let b ← argAt args 1
      .ok (.Bool (Value.beq a b))
  | .GreaterThanEqual => do
      let a ← argAt args 0
      let x ← liftValue a.number
      let b ← argAt args 1
      let y ← liftValue b.number
      .ok (.Bool (decide (x ≥ y)))
  | .LessThanEqual => do
      let a ← argAt args 0
      let x ← liftValue a.number
      let b ← argAt args 1
      let y ← liftValue b.number
      .ok (.Bool (decide (x ≤ y)))
  | .Multiply => do
      let a ← argAt args 0
      let x ← liftValue a.number
      let b ← argAt args 1
      let y ← liftValue b.number
      .ok (.Number (x * y))
  | .Quotient => do
      let a ← argAt args 0
      let x ← liftValue a.number
      let b ← argAt args 1
      let y ← liftValue b.number
      .ok (.Number (x / y))
  | .Print => do
      let a ← argAt args 0
      .ok a
  | .Index => do
      let a ← argAt args 0
      let l ← liftValue a.list
      let b ← argAt args 1
      let n ← liftValue b.number
      match l.get? (ratToUsize n) with
      | some v => .ok v
      | none => .error .panicked
  | .Push => do
      let a ← argAt args 0
      let l ← liftValue a.list
      let b ← argAt args 1
      .ok (.List (l ++ [b]))
  | .Set => do
      let a ← argAt args 0
      let l ← liftValue a.list
      let b ← argAt args 1
      let n ← liftValue b.number
      let c ← argAt args 2
      if ratToUsize n < l.length then
        .ok (.List (l.set (ratToUsize n) c))
      else
        .error .panicked

/-- NativeFunction::to_closure from native_function.rs (its debug
assertion is compiled out in release builds and is not modelled). -/
def NativeFunction.to_closure (nf : NativeFunction) (args : List Value) : Closure :=
  .mk (.NativeFunction nf) [] args

/-- NativeFunction::call_or_curry from native_function.rs, including the
source's comparison of `args.len()` against itself (the `Greater` arm is
`unreachable!()` in the source). -/
def NativeFunction.call_or_curry (nf : NativeFunction) (args : List Value) :
    VRes Placeholder :=
  match compare args.length args.length with
  | .lt => .ok (.Value (.Object (.Closure (nf.to_closure args))))
  | .eq => do
      let v ← nf.call args
      .ok (.Value v)
  | .gt => .error .panicked

/-- Alias needed because inside the `Placeholder` namespace the names
`Placeholder` and `Value` refer to constructors. -/
abbrev PlaceholderT := Placeholder

abbrev ValueT := Value

/-- Reading a placeholder as a value: Placeholder::unwrap from value.rs
(a placeholder cell is read through the cell store; dereferencing an `Rc`
cannot fail, so an absent identifier — which the embedded operations never
create — is modelled as a panic). -/
def Placeholder.unwrapIn (p : PlaceholderT) (cells : List ValueT) : VRes ValueT :=
  match p with
  | .Placeholder id =>
      match cells.get? id with
      | some v => .ok v
      | none => .error .panicked
  | .Value v => .ok v

/-- Consecutive indexed assignments `regs[base + i] = vals[i]`, panicking
when an index is out of bounds, as Rust's index-assignment does. -/
def writeRun (regs : List Placeholder) (base : Nat) : List Placeholder → VRes (List Placeholder)
  | [] => .ok regs
  | v :: rest =>
      if base < regs.length then
        writeRun (regs.set base v) (base + 1) rest
      else
        .error .panicked

/-- One runtime activation record of the new iteration (frame.rs). -/
structure Frame where
  pointer : Nat
  inside_call : Option (ValueIndex × Option RegisterIndex)
  registers : List Placeholder
  function : Function
  captures : List Value
  return_position : Nat

/-- Frame::opcode from frame.rs. -/
def Frame.opcode (f : Frame) : Option OpCode :=
  f.function.opcodes.get? f.pointer

/-- Frame::get_value_index from frame.rs (register, constant and capture
indexing panics when out of bounds, as the source's slice indexing does). -/
def Frame.get_value_index (f : Frame) (value_index : ValueIndex) : VRes Placeholder :=
  match value_index with
  | .Register reg =>
      match f.registers.get? reg.val with
      | some p => .ok p
      | none => .error .panicked
  | .Constant con =>
      match f.function.constants.get? con.val with
      | some v => .ok (.Value v)
      | none => .error .panicked
  | .Capture cap =>
      match f.captures.get? cap.val with
      | some v => .ok (.Value v)
      | none => .error .panicked

/-- Helper collecting closure captures as plain values: in
Frame::new_from_closure the source maps over `closure.captures` and hits
`unreachable!()` on any placeholder. -/
def capturesToValues : List Placeholder → VRes (List Value)
  | [] => .ok []
  | .Placeholder _ :: _ => .error .panicked
  | .Value v :: rest => do
      let vs ← capturesToValues rest
      .ok (v :: vs)

/-- Frame::new_from_closure from frame.rs.  `Vec::splice(0..arity, args)`
replaces the first `arity` placeholder slots by the (possibly fewer)
stored arguments.  A closure over a native function hits `unreachable!()`. -/
def Frame.new_from_closure (closure : Closure) (return_position : Nat) : VRes Frame :=
  match closure.function with
  | .Function func => do
      let registers :=
        closure.arguments.map Placeholder.Value ++
          (List.replicate func.num_registers (Placeholder.Value Value.Uninit)).drop func.arity
      let caps ← capturesToValues closure.captures
      .ok { pointer := 0
            inside_call := none
            registers := registers
            function := func
            captures := caps
            return_position := return_position }
  | .NativeFunction _ => .error .panicked

/-- Frame::register_range from frame.rs (start and past-the-end index). -/
def Frame.register_range (f : Frame) : Nat × Nat :=
  (f.function.arity, f.function.arity + f.function.num_registers)

/-- Frame::run_declare_recursive from frame.rs: the register is seeded
with a fresh shared cell (`Rc<RefCell<Value::Uninit>>` in the source; a
fresh identifier into the cell store here). -/
def Frame.run_declare_recursive (f : Frame) (cells : List Value) (index : RegisterIndex) :
    VRes (Frame × List Value) :=
  if index.val < f.registers.length then
    .ok ({ f with registers := f.registers.set index.val (.Placeholder cells.length),
                  pointer := f.pointer + 1 },
         cells ++ [.Uninit])
  else
    .error .panicked

/-- Frame::run_fill_recursive from frame.rs: the register slot is
overwritten with the resolved value; note that the shared cell planted by
`run_declare_recursive` is not written through. -/
def Frame.run_fill_recursive (f : Frame) (value_index : ValueIndex)
    (register_index : RegisterIndex) : VRes Frame := do
  let p ← f.get_value_index value_index
  if register_index.val < f.registers.length then
    .ok { f with registers := f.registers.set register_index.val p,
                 pointer := f.pointer + 1 }
  else
    .error .panicked

/-- Frame::run_jump from frame.rs.  The source computes
`self.pointer.saturating_add_signed(offset)` but discards the result
instead of assigning it, so the frame is returned unchanged. -/
def Frame.run_jump (f : Frame) (offset : Int) : Frame :=
  f

/-- Frame::run_jump_to_position_if_false from frame.rs: the checked value
is read through Placeholder::unwrap; a true boolean invokes `run_jump`, a
false one leaves the frame as is, anything else is `NotABoolean`. -/
def Frame.run_jump_to_position_if_false (f : Frame) (cells : List Value)
    (check_index : ValueIndex) (offset : Int) : VRes Frame := do
  let p ← f.get_value_index check_index
  let v ← p.unwrapIn cells
  match v with
  | .Bool b => if b then .ok (f.run_jump offset) else .ok f
  | _ => .error (.runtime .NotABoolean)

/-- Frame::run_copy_value from frame.rs. -/
def Frame.run_copy_value (f : Frame) (from_index : ValueIndex) (to_index : RegisterIndex) :
    VRes Frame := do
  let p ← f.get_value_index from_index
  if to_index.val < f.registers.length then
    .ok { f with registers := f.registers.set to_index.val p,
                 pointer := f.pointer + 1 }
  else
    .error .panicked

/-- Frame::run_close_value from frame.rs. -/
def Frame.run_close_value (f : Frame) (index : RegisterIndex) : VRes Frame :=
  if index.val < f.registers.length then
    .ok { f with registers := f.registers.set index.val (.Value .Uninit),
                 pointer := f.pointer + 1 }
  else
    .error .panicked

/-- Frame::run_insert_native_function from frame.rs. -/
def Frame.run_insert_native_function (f : Frame) (native_function : NativeFunction)
    (index : RegisterIndex) : VRes Frame :=
  if index.val < f.registers.length then
    .ok { f with registers := f.registers.set index.val (.Value (.NativeFunction native_function)),
                 pointer := f.pointer + 1 }
  else
    .error .panicked

/-- The new-iteration virtual machine (vm.rs `struct VM`), extended with
the explicit store backing the `Rc<RefCell<_>>` placeholder cells. -/
structure VM where
  frames : List Frame
  cells : List Value

def VM.last_frame (vm : VM) : VRes Frame :=
  match vm.frames.getLast? with
  | some f => .ok f
  | none => .error (.runtime .NoLastFrame)

/-- Replace the last frame (the result of mutation through
`last_frame_mut`); panics when there is no frame, matching the source's
`unwrap()` call sites. -/
def VM.set_last_frame (vm : VM) (f : Frame) : VRes VM :=
  if vm.frames.isEmpty then
    .error .panicked
  else
    .ok { vm with frames := vm.frames.dropLast ++ [f] }

/-- VM::increase_pointer from vm.rs (`last_frame_mut().unwrap()`). -/
def VM.increase_pointer (vm : VM) (amount : Nat) : VRes VM := do
  let f ← match vm.frames.getLast? with
          | some f => Except.ok f
          | none => Except.error Fault.panicked
  vm.set_last_frame { f with pointer := f.pointer + amount }

/-- VM::pop_frame in the new iteration: each frame owns its registers, so
popping the frame discards them (the old storage-based `pop_frame`, which
also blanks the popped register window, is embedded separately in the
`Old` namespace). -/
def VM.pop_frame (vm : VM) : VM :=
  { vm with frames := vm.frames.dropLast }

/-- The body of the argument-collection loop of VM::get_call_arguments:
scan forward while the current opcode is a `CallArgument`, reading each
operand (through Placeholder::unwrap, the conversion this iteration uses
to turn a `Placeholder` into a `Value`) and advancing the pointer.  Each
iteration advances the pointer by one, so the loop runs at most
`opcodes.length - pointer` times; the wrapper below passes that bound as
a structural counter (when it reaches 0 the pointer is already past the
opcode list, the current opcode is `none`, and the loop stops in either
formulation). -/
def Frame.collect_call_arguments_go (cells : List Value) (limit : Option Nat) :
    Nat → Frame → List Value → VRes (List Value × Frame)
  | 0, f, acc => .ok (acc, f)
  | k + 1, f, acc =>
    match f.opcode with
    | some (.CallArgument index) =>
        if (limit.map (fun l => decide (acc.length ≥ l))).getD false then
          .ok (acc, f)
        else do
          let p ← f.get_value_index index
          let v ← p.unwrapIn cells
          Frame.collect_call_arguments_go cells limit k
            { f with pointer := f.pointer + 1 } (acc ++ [v])
    | _ => .ok (acc, f)

/-- The argument-collection loop of VM::get_call_arguments. -/
def Frame.collect_call_arguments (f : Frame) (cells : List Value) (limit : Option Nat)
    (acc : List Value) : VRes (List Value × Frame) :=
  Frame.collect_call_arguments_go cells limit (f.function.opcodes.length - f.pointer) f acc

/-- VM::get_call_arguments from vm.rs. -/
def VM.get_call_arguments (vm : VM) (limit : Option Nat) : VRes (List Value × VM) := do
  let f ← vm.last_frame
  let (args, f1) ← f.collect_call_arguments vm.cells limit []
  let vm1 ← vm.set_last_frame f1
  .ok (args, vm1)

/-- The body of the CaptureValue-collection loop of
VM::run_create_closure: scan forward while the current opcode is a
`CaptureValue`, pushing the operand placeholder (the structural counter
bounds the loop exactly as in `collect_call_arguments_go`). -/
def Frame.collect_capture_values_go :
    Nat → Frame → List Placeholder → VRes (List Placeholder × Frame)
  | 0, f, acc => .ok (acc, f)
  | k + 1, f, acc =>
    match f.opcode with
    | some (.CaptureValue value_index) => do
        let f1 : Frame := { f with pointer := f.pointer + 1 }
        let p ← f1.get_value_index value_index
        Frame.collect_capture_values_go k f1 (acc ++ [p])
    | _ => .ok (acc, f)

/-- The CaptureValue-collection loop of VM::run_create_closure. -/
def Frame.collect_capture_values (f : Frame) (acc : List Placeholder) :
    VRes (List Placeholder × Frame) :=
  Frame.collect_capture_values_go (f.function.opcodes.length - f.pointer) f acc

/-- VM::run_create_closure from vm.rs: look up the nested function, step
past the CreateClosure opcode, consume the trailing run of `CaptureValue`
opcodes (the debug assertion comparing the count against
`func.num_captures` is compiled out in release builds), and store the new
closure in the result register. -/
def VM.run_create_closure (vm : VM) (function_index : FunctionIndex)
    (register : RegisterIndex) : VRes VM := do
  let frame ← vm.last_frame
  let func ← match frame.function.functions.get? function_index.val with
             | some f => Except.ok f
             | none => Except.error Fault.panicked
  let frame1 : Frame := { frame with pointer := frame.pointer + 1 }
  let (captures, frame2) ← frame1.collect_capture_values []
  let closure_value : Placeholder :=
    .Value (.Object (.Closure (.mk (.Function func) captures [])))
  if register.val < frame2.registers.length then
    vm.set_last_frame
      { frame2 with registers := frame2.registers.set register.val closure_value }
  else
    .error .panicked

/-- VM::run_return from vm.rs (the new iteration): reads the return value,
pops the frame, and writes the value into the new top frame's recorded
return-target register; with no remaining frame it fails with
`NoLastFrame` (this iteration cannot yet surface a program result). -/
def VM.run_return (vm : VM) (return_value_index : ValueIndex) : VRes VM := do
  let lf ← vm.last_frame
  let value ← lf.get_value_index return_value_index
  let return_pos := lf.return_position
  let vm1 := vm.pop_frame
  let lf1 ← vm1.last_frame
  if return_pos < lf1.registers.length then
    vm1.set_last_frame { lf1 with registers := lf1.registers.set return_pos value }
  else
    .error .panicked

/-- VM::transform_last_frame_for_tail_call, translated to the new
iteration's per-frame registers: the source (written against the old
storage-based state) collects the pending `CallArgument` values into
temporary storage, grows the register window to the callee's
`num_registers` (`Storage::ensure_filled`, whose implementation is missing
from src/ and which per spec section 4.3 pads with `Uninit`), writes the
closure's captures into the low registers and the collected arguments
right after them, and finally points the frame at the callee function with
the instruction pointer reset to 0.  The frame itself is reused: nothing
is pushed or popped.  Its debug assertion on the argument count is
compiled out in release builds.  A native-function closure cannot provide
the `Function` the source assigns into the frame (ill-typed in the new
iteration), which is modelled as a panic. -/
def VM.transform_last_frame_for_tail_call (vm : VM) (closure : Closure) : VRes VM := do
  let frame ← match vm.frames.getLast? with
              | some f => Except.ok f
              | none => Except.error Fault.panicked
  let (temp, frame1) ← frame.collect_call_arguments vm.cells none []
  match closure.function with
  | .Function func => do
      let regs0 := frame1.registers ++
        List.replicate (func.num_registers - frame1.registers.length) (Placeholder.Value Value.Uninit)
      let regs1 ← writeRun regs0 0 closure.captures
      let regs2 ← writeRun regs1 closure.captures.length (temp.map Placeholder.Value)
      vm.set_last_frame { frame1 with registers := regs2, function := func, pointer := 0 }
  | .NativeFunction _ => .error .panicked

/-- VM::create_and_push_new_frame from vm.rs, tail-call branch: advance
past the call opcode and transform the current frame in place.  The
non-tail branch is written against the old storage-based state and the
helper `create_new_frame` missing from src/; it is never invoked by the
embedded new-iteration operations and is modelled as unreachable. -/
def VM.create_and_push_new_frame (vm : VM) (closure : Closure) (result_slot : Nat)
    (tail_call : Bool) : VRes VM := do
  let vm1 ← vm.increase_pointer 1
  if tail_call then
    vm1.transform_last_frame_for_tail_call closure
  else
    .error .panicked

/-- VM::run_tail_call from vm.rs: collect the pending arguments, read the
callee, remember the current frame's return target, pop the current
frame, and then either transform the (now) last frame in place for a
saturated closure, fail with `NotEnoughArguments` for an unsaturated one,
call a native function directly, or fail with `ValueNotSet` /
`NotAFunction`.  The source's match arms are ill-typed work in progress
(the closure arm yields `()` and the native arm a bare `Value`); they are
completed with `Ok(None)` and `Ok(Some(result))` respectively, following
the spec's tail-call contract. -/
def VM.run_tail_call (vm : VM) (function_index : ValueIndex) :
    VRes (Option Value × VM) := do
  let (args, vm1) ← vm.get_call_arguments none
  let lf ← vm1.last_frame
  let function ← lf.get_value_index function_index
  let position := lf.return_position
  let vm2 := vm1.pop_frame
  match function with
  | .Value (.Object (.Closure closure)) => do
      let new_closure ← liftValue (closure.add_arguments args)
      if new_closure.arguments.length = new_closure.function.arity then do
        let vm3 ← vm2.create_and_push_new_frame new_closure position true
        .ok (none, vm3)
      else
        .error (.runtime .NotEnoughArguments)
  | .Value (.NativeFunction nf) => do
      let v ← nf.call args
      .ok (some v, vm2)
  | .Placeholder _ => .error (.runtime .ValueNotSet)
  | _ => .error (.runtime .NotAFunction)

/- ===================================================================
The old storage-based VM iteration (the lower portion of vm.rs):
`tail_call`, `transform_last_frame_for_tail_call`, `call_native_function`,
`pop_frame`, `vm_return`, `jump`, `jump_to_position_if_false`.  All
registers live in one VM-owned storage vector; each frame addresses its
window through `register_offset`.
=================================================================== -/
namespace Old

/-- The opcode enumeration of opcode.rs (the older generic iteration that
the storage-based VM consumes), with operands instantiated the way the old
dispatch uses them after `.into()`: register and vector indices as usize,
jump offsets as i16. -/
inductive OpCode where
  | Call (f : Nat) (result : Nat)
  | TailCall (f : Nat)
  | CallArgument (r : Nat)
  | Return (r : Nat)
  | Jump (position : Int)
  | JumpToPositionIfFalse (r : Nat) (position : Int)
  | CopyValue (source : Nat) (target : Nat)
  | LoadConstant (c : Nat) (target : Nat)
  | CloseValue (r : Nat)
  | CreateClosure (f : Nat) (result : Nat)
  | CaptureValue (r : Nat)
  | Crash
  | InsertNativeFunction (nf : NativeFunction) (r : Nat)
deriving DecidableEq

/-- Modelled from the spec: the old iteration's compiled-function record
(superseded in src/ by value.rs's Function, which lacks the
`capture_offset` field this iteration reads).  Only the fields the
embedded old operations use are kept.  Per spec section 4.3 the captures
occupy the low registers of a frame and the arguments follow, so
`capture_offset` is the number of captures. -/
structure Function where
  opcodes : List OpCode
  arity : Nat
  num_registers : Nat
  capture_offset : Nat
deriving DecidableEq

/- The old iteration's value model: closures hold their function together
with plain captured values (this iteration predates the placeholder
cells). -/
mutual

inductive Value where
  | Number (n : Rat)
  | Bool (b : Bool)
  | Nil
  | Uninit
  | List (l : List Value)
  | NativeFunction (nf : NativeFunction)
  | Object (o : Object)

inductive Object where
  | Closure (c : Closure)
  | String (s : String)

inductive Closure where
  | mk (function : Function) (captures : List Value) (arguments : List Value)

end

def Closure.function : Closure → Function
  | .mk f _ _ => f

def Closure.captures : Closure → List Value
  | .mk _ c _ => c

def Closure.arguments : Closure → List Value
  | .mk _ _ a => a

/- Structural equality mirroring the derived PartialEq, for the `=`
native. -/
mutual

def Value.beq : Value → Value → Bool
  | .Number a, .Number b => a == b
  | .Bool a, .Bool b => a == b
  | .Nil, .Nil => true
  | .Uninit, .Uninit => true
  | .List a, .List b => valueListBeq a b
  | .NativeFunction a, .NativeFunction b => a == b
  | .Object a, .Object b => Object.beq a b
  | _, _ => false

def valueListBeq : List Value → List Value → Bool
  | [], [] => true
  | x :: xs, y :: ys => Value.beq x y && valueListBeq xs ys
  | _, _ => false

def Object.beq : Object → Object → Bool
  | .Closure a, .Closure b => Closure.beq a b
  | .String a, .String b => a == b
  | _, _ => false

def Closure.beq : Closure → Closure → Bool
  | .mk f1 c1 a1, .mk f2 c2 a2 =>
      f1 == f2 && valueListBeq c1 c2 && valueListBeq a1 a2

end

/-- Value::number on the old value model. -/
def Value.number : Value → Except ValueError Rat
  | .Number n => .ok n
  | _ => .error .NotANumber

abbrev OldValueList := List Value

/-- Value::list on the old value model. -/
def Value.list : Value → Except ValueError OldValueList
  | .List l => .ok l
  | _ => .error .NotAList

/-- Rust slice indexing on the old value model. -/
def argAt (args : List Value) (i : Nat) : VRes Value :=
  match args.get? i with
  | some v => .ok v
  | none => .error .panicked

/-- NativeFunction::call over the old value model (the same
native_function.rs code, reached from the old iteration's
`call_native_function`). -/
def callNative (nf : NativeFunction) (args : List Value) : VRes Value :=
  match nf with
  | .LessThan => do
      let a ← argAt args 0
      let x ← liftValue a.number
      let b ← argAt args 1
      let y ← liftValue b.number
      .ok (.Bool (decide (x < y)))
  | .Sum => do
      let a ← argAt args 0
      let x ← liftValue a.number
      let b ← argAt args 1
      let y ← liftValue b.number
      .ok (.Number (x + y))
  | .Difference => do
      let a ← argAt args 0
      let x ← liftValue a.number
      let b ← argAt args 1
      let y ← liftValue b.number
      .ok (.Number (x - y))
  | .GreaterThan => do
      let a ← argAt args 0
      let x ← liftValue a.number
      let b ← argAt args 1
      let y ← liftValue b.number
      .ok (.Bool (decide (x > y)))
  | .Equal => do
      let a ← argAt args 0
      let b ← argAt args 1
      .ok (.Bool (Value.beq a b))
  | .GreaterThanEqual => do
      let a ← argAt args 0
      let x ← liftValue a.number
      let b ← argAt args 1
      let y ← liftValue b.number
      .ok (.Bool (decide (x ≥ y)))
  | .LessThanEqual => do
      let a ← argAt args 0
      let x ← liftValue a.number
      let b ← argAt args 1
      let y ← liftValue b.number
      .ok (.Bool (decide (x ≤ y)))
  | .Multiply => do
      let a ← argAt args 0
      let x ← liftValue a.number
      let b ← argAt args 1
      let y ← liftValue b.number
      .ok (.Number (x * y))
  | .Quotient => do
      let a ← argAt args 0
      let x ← liftValue a.number
      let b ← argAt args 1
      let y ← liftValue b.number
      .ok (.Number (x / y))
  | .Print => do
      let a ← argAt args 0
      .ok a
  | .Index => do
      let a ← argAt args 0
      let l ← liftValue a.list
      let b ← argAt args 1
      let n ← liftValue b.number
      match l.get? (ratToUsize n) with
      | some v => .ok v
      | none => .error .panicked
  | .Push => do
      let a ← argAt args 0
      let l ← liftValue a.list
      let b ← argAt args 1
      .ok (.List (l ++ [b]))
  | .Set => do
      let a ← argAt args 0
      let l ← liftValue a.list
      let b ← argAt args 1
      let n ← liftValue b.number
      let c ← argAt args 2
      if ratToUsize n < l.length then
        .ok (.List (l.set (ratToUsize n) c))
      else
        .error .panicked

/-- The VM-owned register and temporary storage of the old iteration. -/
structure Storage where
  register_storage : List Value
  temporary_storage : List Value

/-- Modelled from the spec: Storage::ensure_filled (its implementation is
missing from src/); grows the register storage to the requested length so
that the subsequent indexed writes land in allocated slots, padding with
`Uninit` (the blank-register representation of spec section 3). -/
def Storage.ensure_filled (s : Storage) (n : Nat) : Storage :=
  { s with register_storage :=
      s.register_storage ++ List.replicate (n - s.register_storage.length) Value.Uninit }

/-- Modelled from the spec: the old iteration's activation record (its
declaration was superseded by frame.rs); the embedded operations read the
instruction pointer, the offset of the frame's register window inside the
VM-owned storage, the return-target register in the parent frame, and the
running function. -/
structure Frame where
  pointer : Nat
  register_offset : Nat
  return_position : Nat
  function : Function

/-- Frame::opcode on the old model. -/
def Frame.opcode (f : Frame) : Option OpCode :=
  f.function.opcodes.get? f.pointer

/-- Frame::register_range, exactly as frame.rs computes it: the bounds are
`arity .. arity + num_registers`, built from the function alone (the
frame's register offset is not added). -/
def Frame.register_range (f : Frame) : Nat × Nat :=
  (f.function.arity, f.function.arity + f.function.num_registers)

/-- The old iteration's VM state: the frame stack plus the storage. -/
structure VM where
  frames : List Frame
  storage : Storage

/-- VM::last_frame (question-mark variant yielding `NoLastFrame`). -/
def VM.last_frame (vm : VM) : VRes Frame :=
  match vm.frames.getLast? with
  | some f => .ok f
  | none => .error (.runtime .NoLastFrame)

/-- VM::last_frame_mut(...).unwrap() — panics on an empty frame stack. -/
def VM.last_frame_unwrap (vm : VM) : VRes Frame :=
  match vm.frames.getLast? with
  | some f => .ok f
  | none => .error .panicked

def VM.set_last_frame (vm : VM) (f : Frame) : VRes VM :=
  if vm.frames.isEmpty then
    .error .panicked
  else
    .ok { vm with frames := vm.frames.dropLast ++ [f] }

/-- VM::increase_pointer from the old iteration
(`last_frame_mut().unwrap()`). -/
def VM.increase_pointer (vm : VM) (amount : Nat) : VRes VM := do
  let f ← vm.last_frame_unwrap
  vm.set_last_frame { f with pointer := f.pointer + amount }

/-- VM::value_in_last_frame (read): the storage slot at
`register_offset + position`; both unwraps panic. -/
def VM.value_in_last_frame (vm : VM) (position : Nat) : VRes Value := do
  let f ← vm.last_frame_unwrap
  match vm.storage.register_storage.get? (f.register_offset + position) with
  | some v => .ok v
  | none => .error .panicked

/-- Assignment through VM::value_in_last_frame. -/
def VM.set_value_in_last_frame (vm : VM) (position : Nat) (v : Value) : VRes VM := do
  let f ← vm.last_frame_unwrap
  let pos := f.register_offset + position
  if pos < vm.storage.register_storage.length then
    .ok { vm with storage :=
            { vm.storage with register_storage := vm.storage.register_storage.set pos v } }
  else
    .error .panicked

/-- Saturating addition of a signed offset to a usize
(`usize::saturating_add_signed`): clamps at zero from below. -/
def saturatingAddSigned (n : Nat) (i : Int) : Nat :=
  ((n : Int) + i).toNat

/-- VM::jump from the old iteration of vm.rs: this iteration does assign
the recomputed pointer. -/
def VM.jump (vm : VM) (position : Int) : VRes VM := do
  let f ← vm.last_frame
  vm.set_last_frame { f with pointer := saturatingAddSigned f.pointer position }

/-- VM::jump_to_position_if_false from the old iteration of vm.rs: a true
boolean falls through (pointer + 1), a false one jumps by the relative
offset, anything else is `NotABoolean`. -/
def VM.jump_to_position_if_false (vm : VM) (boolean_register : Nat) (position : Int) :
    VRes VM := do
  let v ← vm.value_in_last_frame boolean_register
  match v with
  | .Bool b => if b then vm.increase_pointer 1 else vm.jump position
  | _ => .error (.runtime .NotABoolean)

/-- The argument-collection loop shared by the old
`transform_last_frame_for_tail_call` and `call_native_function`: while the
current opcode is a `CallArgument`, clone the register it names into the
temporary storage and advance the pointer. -/
def Frame.collect_arguments_into_temp_go : Nat → Frame → Storage → VRes (Frame × Storage)
  | 0, f, s => .ok (f, s)
  | k + 1, f, s =>
    match f.opcode with
    | some (.CallArgument argument_register) =>
        match s.register_storage.get? (f.register_offset + argument_register) with
        | some value =>
            Frame.collect_arguments_into_temp_go k { f with pointer := f.pointer + 1 }
              { s with temporary_storage := s.temporary_storage ++ [value] }
        | none => .error .panicked
    | _ => .ok (f, s)

def Frame.collect_arguments_into_temp (f : Frame) (s : Storage) : VRes (Frame × Storage) :=
  Frame.collect_arguments_into_temp_go (f.function.opcodes.length - f.pointer) f s

/-- Consecutive indexed assignments into the register storage, panicking
on an out-of-bounds index as Rust's index-assignment does. -/
def writeRunV (regs : List Value) (base : Nat) : List Value → VRes (List Value)
  | [] => .ok regs
  | v :: rest =>
      if base < regs.length then
        writeRunV (regs.set base v) (base + 1) rest
      else
        .error .panicked

/-- VM::transform_last_frame_for_tail_call from vm.rs: collect the pending
`CallArgument` values into temporary storage (the debug assertion on the
argument count is compiled out in release builds), grow the register
storage up to the callee's register window, write the closure's captures
into the window's low slots and the collected arguments right after them,
point the frame at the callee function with the pointer reset to 0, and
clear the temporary storage.  The frame stack itself is untouched: the
last frame is reused in place. -/
def VM.transform_last_frame_for_tail_call (vm : VM) (closure : Closure) : VRes VM := do
  let f ← vm.last_frame_unwrap
  let (f1, s1) ← f.collect_arguments_into_temp vm.storage
  let s2 := s1.ensure_filled (f1.register_offset + closure.function.num_registers)
  let regs1 ← writeRunV s2.register_storage f1.register_offset closure.captures
  let regs2 ← writeRunV regs1 (f1.register_offset + closure.captures.length)
                s2.temporary_storage
  let f2 : Frame := { f1 with function := closure.function, pointer := 0 }
  let vm1 : VM := { vm with storage := { register_storage := regs2, temporary_storage := [] } }
  vm1.set_last_frame f2

/-- VM::create_and_push_new_frame from vm.rs, tail branch: advance the
pointer past the call opcode, then transform the last frame in place.  The
non-tail branch depends on the helper `create_new_frame`, which is missing
from src/; it is not invoked by any embedded operation and is modelled as
unreachable. -/
def VM.create_and_push_new_frame (vm : VM) (closure : Closure) (result_slot : Nat)
    (tail_call : Bool) : VRes VM := do
  let vm1 ← vm.increase_pointer 1
  if tail_call then
    vm1.transform_last_frame_for_tail_call closure
  else
    .error .panicked

/-- VM::call_native_function (the old argument-collecting variant at the
bottom of vm.rs): advance past the call opcode, collect the `CallArgument`
registers into temporary storage, call the native function on the
collected arguments, and clear the temporary storage. -/
def VM.call_native_function (vm : VM) (function : NativeFunction) : VRes (Value × VM) := do
  let vm1 ← vm.increase_pointer 1
  let f ← vm1.last_frame
  let (f1, s1) ← f.collect_arguments_into_temp vm1.storage
  let result ← callNative function s1.temporary_storage
  let vm2 ← vm1.set_last_frame f1
  .ok (result, { vm2 with storage := { s1 with temporary_storage := [] } })

/-- VM::pop_frame from vm.rs: blank the popped frame's register range
(exactly the range frame.rs computes: `arity .. arity + num_registers`,
taken as absolute storage indices) with `Uninit`, then pop the frame.
Rust's slice indexing with the range panics when it exceeds the storage. -/
def VM.pop_frame (vm : VM) : VRes VM := do
  let f ← vm.last_frame_unwrap
  let (lo, hi) := f.register_range
  if hi ≤ vm.storage.register_storage.length then
    let filled := vm.storage.register_storage.mapIdx
      (fun i v => if lo ≤ i ∧ i < hi then Value.Uninit else v)
    .ok { frames := vm.frames.dropLast,
          storage := { vm.storage with register_storage := filled } }
  else
    .error .panicked

/-- VM::tail_call from vm.rs: a native callee is called at once; if no
caller frame remains underneath, its result is the program's final value,
otherwise the current frame is popped and the result routed to the
inherited return target.  A closure callee transforms the current frame in
place (`create_and_push_new_frame` with the tail flag).  Anything else is
`NotAFunction`. -/
def VM.tail_call (vm : VM) (function_register : Nat) : VRes (Option Value × VM) := do
  let v ← vm.value_in_last_frame function_register
  match v with
  | .NativeFunction native_function => do
      let (value, vm1) ← vm.call_native_function native_function
      if vm1.frames.length ≤ 1 then
        .ok (some value, vm1)
      else do
        let lf ← vm1.last_frame
        let return_position := lf.return_position
        if vm1.frames.isEmpty then
          .error .panicked
        else do
          let vm2 : VM := { vm1 with frames := vm1.frames.dropLast }
          let vm3 ← vm2.set_value_in_last_frame return_position value
          .ok (none, vm3)
  | .Object (.Closure closure) => do
      let lf ← vm.last_frame
      let vm1 ← vm.create_and_push_new_frame closure lf.return_position true
      .ok (none, vm1)
  | _ => .error (.runtime .NotAFunction)

/-- VM::vm_return from vm.rs: read the returned value, remember the
current frame's return target, pop the frame; with no frame left the value
is the program's result (`Ok(Some(value))`), otherwise it is written into
the new top frame's return-target register and execution continues
(`Ok(None)`). -/
def VM.vm_return (vm : VM) (return_value_position : Nat) : VRes (Option Value × VM) := do
  let value ← vm.value_in_last_frame return_value_position
  let lf ← vm.last_frame
  let return_position := lf.return_position
  let vm1 ← vm.pop_frame
  if vm1.frames.isEmpty then
    .ok (some value, vm1)
  else do
    let vm2 ← vm1.set_value_in_last_frame return_position value
    .ok (none, vm2)

/-- VM::close_value from vm.rs (old iteration). -/
def VM.close_value (vm : VM) (register_position : Nat) : VRes VM := do
  let vm1 ← vm.set_value_in_last_frame register_position .Uninit
  vm1.increase_pointer 1

end Old

/- ===================================================================
The compiler (compiler.rs): scope and register allocation, symbol and
capture resolution, code generation.
=================================================================== -/

/-- The compiler error enumeration of compiler.rs, extended with the two
faults of the embedding: `Panicked` models Rust panics (unwraps,
`unreachable!()`, `todo!()`, out-of-bounds indexing), and `OutOfFuel`
exhaustion of the recursion fuel threaded through the mutually recursive
compilation functions (the Rust recursion is structural on the expression,
so any sufficiently large fuel is enough). -/
inductive CErr where
  | NoFrames
  | NoElementsInLet
  | NoNativeSymbol
  | Panicked
  | OutOfFuel
deriving DecidableEq

abbrev CRes (α : Type) := Except CErr α

/- The expression model of expression.rs.  Source locations are carried
for diagnostics only and never read by the compiler, so they are not
modelled; the `Let` and `Block` records are inlined into their variants;
`Symbol` is a string wrapper and is modelled as a string. -/
mutual

inductive Expression where
  | Condition (clauses : List (Expression × Expression)) (otherwise : Expression)
  | Call (function : Expression) (arguments : List Expression)
  | Let (recursive : Bool) (pairs : List (String × Expression))
  | Function (params : List String) (body : Expression)
  | Block (scope_introducing : Bool) (ignored : List Expression) (last : Expression)
  | Literal (l : Literal)
  | Symbol (s : String)

inductive Literal where
  | Number (n : Rat)
  | Nil
  | Bool (b : Bool)
  | String (s : String)
  | Quoted (s : String)
  | List (elems : List Expression)
  | Dictionary (pairs : List (Expression × Expression))

end

/- From<Literal> for Value (value.rs): string, quoted and dictionary
literals are `todo!()`, and a list literal panics on any non-literal
element. -/
mutual

def valueFromLiteral : Literal → CRes Value
  | .Number n => .ok (.Number n)
  | .Nil => .ok .Nil
  | .Bool b => .ok (.Bool b)
  | .String _ => .error .Panicked
  | .Quoted _ => .error .Panicked
  | .List l => do
      let vs ← literalListValues l
      .ok (.List vs)
  | .Dictionary _ => .error .Panicked

def literalListValues : List Expression → CRes (List Value)
  | [] => .ok []
  | .Literal l :: rest => do
      let v ← valueFromLiteral l
      let vs ← literalListValues rest
      .ok (v :: vs)
  | _ :: _ => .error .Panicked

end

/-- The register-slot states of compiler.rs (`enum Local`). -/
inductive Local where
  | Reserved
  | ToClear
  | None
deriving DecidableEq

/-- One compiler frame (compiler.rs `struct CompilerFrame`).  The name
table `HashMap<(usize, Symbol), ValueIndex>` is modelled as an association
list with replace-on-insert; hash iteration order is only observed through
`max_by_key`, whose key (the depth) is unique per symbol because the map
is keyed by the (depth, symbol) pair. -/
structure CompilerFrame where
  names : List ((Nat × String) × ValueIndex)
  locals : List Local
  captures : List ValueIndex
  depth : Nat
  opcodes : List OpCode
  constants : List Value
  functions : List Function

/-- HashMap::insert on the association-list model: replace the value of an
existing key, append otherwise. -/
def namesInsert (names : List ((Nat × String) × ValueIndex)) (key : Nat × String)
    (v : ValueIndex) : List ((Nat × String) × ValueIndex) :=
  if names.any (fun e => e.1 == key) then
    names.map (fun e => if e.1 == key then (key, v) else e)
  else
    names ++ [(key, v)]

/-- One comparison step of Iterator::max_by_key (which keeps the later
element when keys are equal). -/
def maxByKeyStep (key : α → Nat) (best : Option α) (x : α) : Option α :=
  match best with
  | Option.none => some x
  | some b => if key x ≥ key b then some x else some b

/-- Iterator::max_by_key, which returns the last maximal element. -/
def maxByKeyLast (l : List α) (key : α → Nat) : Option α :=
  l.foldl (maxByKeyStep key) Option.none

/-- CompilerFrame::to_function from compiler.rs. -/
def CompilerFrame.to_function (f : CompilerFrame) (arity : Nat) : Function :=
  .mk f.opcodes f.constants f.functions arity f.captures.length f.locals.length

/-- CompilerFrame::increase_scope from compiler.rs. -/
def CompilerFrame.increase_scope (f : CompilerFrame) : CompilerFrame :=
  { f with depth := f.depth + 1 }

/-- CompilerFrame::reduce_scope from compiler.rs: decrement the depth
(the compiler only reduces scopes it has increased, so the usize
subtraction is modelled as truncated subtraction) and drop every name
recorded at a greater depth.  Note that the register slots and the opcode
list are untouched. -/
def CompilerFrame.reduce_scope (f : CompilerFrame) : CompilerFrame :=
  { f with depth := f.depth - 1,
           names := f.names.filter (fun e => decide (e.1.1 ≤ f.depth - 1)) }

/-- CompilerFrame::assign_name from compiler.rs. -/
def CompilerFrame.assign_name (f : CompilerFrame) (name : String) (register : ValueIndex) :
    CompilerFrame :=
  { f with names := namesInsert f.names (f.depth, name) register }

/-- CompilerFrame::clear_unused_locals from compiler.rs: every `ToClear`
slot no name-table entry points at becomes `None`.  The source's
`CloseValue` emission at this point is commented out, so no opcode is
pushed. -/
def CompilerFrame.clear_unused_locals (f : CompilerFrame) : CompilerFrame :=
  let cleared := f.locals.mapIdx (fun i l =>
    if l == Local.ToClear &&
        !(f.names.any (fun e => e.2 == ValueIndex.Register ⟨toU8 i⟩)) then
      Local.None
    else
      l)
  { f with locals := cleared }

/-- CompilerFrame::new from compiler.rs: one `ToClear` slot and one name
at the given depth per parameter, child depth one greater. -/
def CompilerFrame.new (arguments : List String) (depth : Nat) : CompilerFrame :=
  { locals := List.replicate arguments.length Local.ToClear,
    names := arguments.enum.foldl
      (fun m is => namesInsert m (depth, is.2) (ValueIndex.Register ⟨toU8 is.1⟩)) [],
    captures := [],
    depth := depth + 1,
    opcodes := [],
    constants := [],
    functions := [] }

/-- CompilerFrame::find_local from compiler.rs: among the entries for the
symbol, take the one at the greatest depth (its debug assertion that all
recorded depths are at most the current depth is compiled out). -/
def CompilerFrame.find_local (f : CompilerFrame) (symbol : String) : Option ValueIndex :=
  (maxByKeyLast (f.names.filter (fun e => e.1.2 == symbol)) (fun e => e.1.1)).map (fun e => e.2)

/-- CompilerFrame::resolve_capture from compiler.rs: position of the first
occurrence, or push and return the fresh position. -/
def CompilerFrame.resolve_capture (f : CompilerFrame) (index : ValueIndex) :
    CaptureIndex × CompilerFrame :=
  match f.captures.findIdx? (fun c => c == index) with
  | some p => (⟨toU8 p⟩, f)
  | Option.none => (⟨toU8 f.captures.length⟩, { f with captures := f.captures ++ [index] })

/-- CompilerFrame::reserve_next_free_register from compiler.rs: first
`None` slot, or a fresh slot appended; either way marked `Reserved`. -/
def CompilerFrame.reserve_next_free_register (f : CompilerFrame) :
    RegisterIndex × CompilerFrame :=
  match f.locals.findIdx? (fun l => l == Local.None) with
  | some i => (⟨toU8 i⟩, { f with locals := f.locals.set i Local.Reserved })
  | Option.none => (⟨toU8 f.locals.length⟩, { f with locals := f.locals ++ [Local.Reserved] })

/-- CompilerFrame::add_literal from compiler.rs. -/
def CompilerFrame.add_literal (f : CompilerFrame) (literal : Literal) :
    CRes (ConstantIndex × CompilerFrame) := do
  let v ← valueFromLiteral literal
  .ok (⟨toU8 f.constants.length⟩, { f with constants := f.constants ++ [v] })

/-- CompilerFrame::compile_literal from compiler.rs. -/
def CompilerFrame.compile_literal (f : CompilerFrame) (position : Option RegisterIndex)
    (literal : Literal) : CRes (ValueIndex × CompilerFrame) := do
  let (lit_pos, f1) ← f.add_literal literal
  match position with
  | some p =>
      .ok (ValueIndex.Register p,
           { f1 with opcodes := f1.opcodes ++ [.CopyValue (.Constant lit_pos) p] })
  | Option.none => .ok (.Constant lit_pos, f1)

/-- The compiler (compiler.rs `struct Compiler`): a stack of frames, the
parent of a frame being its predecessor. -/
structure Compiler where
  frames : List CompilerFrame

/-- The frames.last_mut().unwrap() access pattern. -/
def Compiler.last_frame_unwrap (c : Compiler) : CRes CompilerFrame :=
  match c.frames.getLast? with
  | some f => .ok f
  | Option.none => .error .Panicked

/-- The frames.last_mut().ok_or(CompilerError::NoFrames) access pattern. -/
def Compiler.last_frame_or_no_frames (c : Compiler) : CRes CompilerFrame :=
  match c.frames.getLast? with
  | some f => .ok f
  | Option.none => .error .NoFrames

def Compiler.set_last_frame (c : Compiler) (f : CompilerFrame) : CRes Compiler :=
  if c.frames.isEmpty then
    .error .Panicked
  else
    .ok { frames := c.frames.dropLast ++ [f] }

/-- Compiler::clear_unused_locals from compiler.rs. -/
def Compiler.clear_unused_locals (c : Compiler) : CRes Compiler := do
  let f ← c.last_frame_or_no_frames
  c.set_last_frame f.clear_unused_locals

/-- Compiler::drop_register from compiler.rs: a `Reserved` register slot
becomes `ToClear`; constants, captures and non-reserved slots are left
alone.  The slot read `ls[i]` panics when out of bounds. -/
def Compiler.drop_register (c : Compiler) (index : ValueIndex) : CRes Compiler :=
  match index with
  | .Register r => do
      let f ← c.last_frame_unwrap
      match f.locals.get? r.val with
      | some l =>
          if l == Local.Reserved then
            c.set_last_frame { f with locals := f.locals.set r.val Local.ToClear }
          else
            .ok c
      | Option.none => .error .Panicked
  | _ => .ok c

/-- Compiler::reserve_next_free_register from compiler.rs. -/
def Compiler.reserve_next_free_register (c : Compiler) : CRes (RegisterIndex × Compiler) := do
  let f ← c.last_frame_or_no_frames
  let (r, f1) := f.reserve_next_free_register
  let c1 ← c.set_last_frame f1
  .ok (r, c1)

/-- Compiler::find_local_symbol from compiler.rs. -/
def Compiler.find_local_symbol (c : Compiler) (frame_index : Nat) (symbol : String) :
    Option ValueIndex := do
  let f ← c.frames.get? frame_index
  f.find_local symbol

/-- Compiler::push_opcode from compiler.rs: returns the opcode's position. -/
def Compiler.push_opcode (c : Compiler) (opcode : OpCode) : CRes (Nat × Compiler) := do
  let f ← c.last_frame_unwrap
  let c1 ← c.set_last_frame { f with opcodes := f.opcodes ++ [opcode] }
  .ok (f.opcodes.length, c1)

/-- The backpatch assignment `frames.last_mut().unwrap().opcodes[p] = op`
(panics when the position is out of bounds). -/
def Compiler.patch_opcode (c : Compiler) (p : Nat) (opcode : OpCode) : CRes Compiler := do
  let f ← c.last_frame_unwrap
  if p < f.opcodes.length then
    c.set_last_frame { f with opcodes := f.opcodes.set p opcode }
  else
    .error .Panicked

/-- Compiler::increase_scope from compiler.rs. -/
def Compiler.increase_scope (c : Compiler) : CRes Compiler := do
  let f ← c.last_frame_unwrap
  c.set_last_frame f.increase_scope

/-- Compiler::reduce_scope from compiler.rs. -/
def Compiler.reduce_scope (c : Compiler) : CRes Compiler := do
  let f ← c.last_frame_unwrap
  c.set_last_frame f.reduce_scope

/-- Compiler::assign_name from compiler.rs. -/
def Compiler.assign_name (c : Compiler) (symbol : String) (register : ValueIndex) :
    CRes Compiler := do
  let f ← c.last_frame_or_no_frames
  c.set_last_frame (f.assign_name symbol register)

/-- The tail of Compiler::find_nonlocal_symbol: wrap a found enclosing
index as a capture of the frame at `frame_index`
(`frames.get_mut(frame)?.resolve_capture(i)`; an absent frame makes the
whole lookup yield None while keeping any mutations already made). -/
def Compiler.resolve_capture_at (c : Compiler) (frame_index : Nat) (i : ValueIndex) :
    Option ValueIndex × Compiler :=
  match c.frames.get? frame_index with
  | some f =>
      let (ci, f1) := f.resolve_capture i
      (some (.Capture ci), { frames := c.frames.set frame_index f1 })
  | Option.none => (Option.none, c)

/-- Compiler::find_nonlocal_symbol from compiler.rs: look the symbol up in
the parent frame (locally, then recursively as the parent's capture), and
thread the found index through `resolve_capture` of the current frame. -/
def Compiler.find_nonlocal_symbol (c : Compiler) (frame : Nat) (symbol : String) :
    Option ValueIndex × Compiler :=
  match frame with
  | 0 => (Option.none, c)
  | parent_index + 1 =>
    match c.find_local_symbol parent_index symbol with
    | some i => c.resolve_capture_at (parent_index + 1) i
    | Option.none =>
        match c.find_nonlocal_symbol parent_index symbol with
        | (some i, c1) => c1.resolve_capture_at (parent_index + 1) i
        | (Option.none, c1) => (Option.none, c1)

/-- Compiler::resolve_symbol from compiler.rs. -/
def Compiler.resolve_symbol (c : Compiler) (symbol : String) : Option ValueIndex × Compiler :=
  let last_frame_index := c.frames.length - 1
  match c.find_local_symbol last_frame_index symbol with
  | some i => (some i, c)
  | Option.none => c.find_nonlocal_symbol last_frame_index symbol

/-- Compiler::compile_literal from compiler.rs
(`frames.last_mut().unwrap()`). -/
def Compiler.compile_literal (c : Compiler) (position : Option RegisterIndex)
    (literal : Literal) : CRes (ValueIndex × Compiler) := do
  let f ← c.last_frame_unwrap
  let (vi, f1) ← f.compile_literal position literal
  let c1 ← c.set_last_frame f1
  .ok (vi, c1)

/-- Result::unwrap on a compiler result: any error value is a panic. -/
def unwrapC : CRes α → CRes α
  | .ok a => .ok a
  | .error _ => .error .Panicked

/-- Compiler::resolve_native_symbol from compiler.rs (the register
reservation inside `unwrap_or_else` is unwrapped, and the result of the
opcode push is discarded by the source, whose only failure mode is the
internal unwrap). -/
def Compiler.resolve_native_symbol (c : Compiler) (position : Option RegisterIndex)
    (symbol : String) : CRes (RegisterIndex × Compiler) := do
  match NativeFunction.resolve_symbol symbol with
  | Option.none => .error .NoNativeSymbol
  | some func => do
      let (register, c1) ←
        match position with
        | some p => Except.ok (p, c)
        | Option.none => unwrapC c.reserve_next_free_register
      let (_, c2) ← c1.push_opcode (.InsertNativeFunction func register)
      .ok (register, c2)

/-- Compiler::compile_symbol from compiler.rs: a resolvable symbol yields
its index (with a copy emitted when a different target register was
requested); otherwise fall back to the native-function table. -/
def Compiler.compile_symbol (c : Compiler) (position : Option RegisterIndex)
    (symbol : String) : CRes (ValueIndex × Compiler) := do
  match c.resolve_symbol symbol with
  | (some i, c1) =>
      match position with
      | some p =>
          if i == ValueIndex.Register p then
            .ok (i, c1)
          else do
            let (_, c2) ← c1.push_opcode (.CopyValue i p)
            .ok (i, c2)
      | Option.none => .ok (i, c1)
  | (Option.none, c1) => do
      let (r, c2) ← c1.resolve_native_symbol position symbol
      .ok (ValueIndex.Register r, c2)

/-- Compiler::declare_recursive_symbol from compiler.rs: reserve (or take)
the register, emit `DeclareRecursive`, bind the name (the source unwraps
each internal result). -/
def Compiler.declare_recursive_symbol (c : Compiler) (position : Option RegisterIndex)
    (symbol : String) : CRes (RegisterIndex × Compiler) := do
  let (i, c1) ←
    match position with
    | some p => Except.ok (p, c)
    | Option.none => unwrapC c.reserve_next_free_register
  let (_, c2) ← c1.push_opcode (.DeclareRecursive i)
  let c3 ← unwrapC (c2.assign_name symbol (.Register i))
  .ok (i, c3)

/-- The mapped declaration pass at the start of compile_recursive_let. -/
def Compiler.declare_recursive_symbols (c : Compiler) (symbols : List String) :
    CRes (List RegisterIndex × Compiler) :=
  match symbols with
  | [] => .ok ([], c)
  | s :: rest => do
      let (r, c1) ← c.declare_recursive_symbol Option.none s
      let (rs, c2) ← c1.declare_recursive_symbols rest
      .ok (r :: rs, c2)

/-- Emission of one `CallArgument` per collected operand index. -/
def Compiler.push_call_arguments (c : Compiler) (indices : List ValueIndex) : CRes Compiler :=
  match indices with
  | [] => .ok c
  | i :: rest => do
      let (_, c1) ← c.push_opcode (.CallArgument i)
      c1.push_call_arguments rest

/-- Emission of one `CaptureValue` per capture-list entry
(compile_function's trailing for_each). -/
def Compiler.push_capture_values (c : Compiler) (captures : List ValueIndex) : CRes Compiler :=
  match captures with
  | [] => .ok c
  | i :: rest => do
      let (_, c1) ← c.push_opcode (.CaptureValue i)
      c1.push_capture_values rest

/-- The drop loop over the collected operand indices in compile_call. -/
def Compiler.drop_registers (c : Compiler) (indices : List ValueIndex) : CRes Compiler :=
  match indices with
  | [] => .ok c
  | i :: rest => do
      let c1 ← c.drop_register i
      c1.drop_registers rest

/-- The backpatch loop at the end of compile_condition: every recorded
end-of-clause position receives a `Jump` to the position one past the
fallback (the distance is recomputed against the current opcode count,
which patching does not change). -/
def Compiler.patch_end_jumps (c : Compiler) (positions : List Nat) : CRes Compiler :=
  match positions with
  | [] => .ok c
  | p :: rest => do
      let f ← c.last_frame_unwrap
      let c1 ← c.patch_opcode p (.Jump (toI16 (f.opcodes.length - p)))
      c1.patch_end_jumps rest

/- The mutually recursive compilation functions of compiler.rs.  Each
takes a fuel argument consumed once per call; the Rust recursion is
structural on the expression tree, so every terminating run is reproduced
by any sufficiently large fuel, and `OutOfFuel` occurs in no other case. -/
mutual

/-- Compiler::compile_expression from compiler.rs: dispatch on the
expression, then append a `Return` when an index was produced in tail
position. -/
def compile_expression (fuel : Nat) (c : Compiler) (position : Option RegisterIndex)
    (expression : Expression) (tail_position : Bool) : CRes (Option ValueIndex × Compiler) :=
  match fuel with
  | 0 => .error .OutOfFuel
  | fuel + 1 => do
    let (expression_result, c1) ←
      match expression with
      | .Condition clauses otherwise =>
          compile_condition fuel c position clauses otherwise tail_position
      | .Call function arguments =>
          compile_call fuel c position function arguments tail_position
      | .Let recursive pairs =>
          compile_let fuel c recursive position pairs tail_position
      | .Function arguments body => do
          let (vi, cf) ← compile_function fuel c position arguments body
          Except.ok (some vi, cf)
      | .Block scope_introducing ignored last =>
          compile_block fuel c scope_introducing position ignored last tail_position
      | .Literal literal => do
          let (vi, cf) ← c.compile_literal position literal
          Except.ok (some vi, cf)
      | .Symbol symbol => do
          let (vi, cf) ← c.compile_symbol position symbol
          Except.ok (some vi, cf)
    match expression_result with
    | some index =>
        if tail_position then do
          let (_, c2) ← c1.push_opcode (.Return index)
          .ok (Option.none, c2)
        else
          .ok (some index, c1)
    | Option.none => .ok (Option.none, c1)

/-- The argument loop of Compiler::compile_call: compile each argument
expression into its own index, left to right (each result is unwrapped). -/
def compile_arguments (fuel : Nat) (c : Compiler) (arguments : List Expression) :
    CRes (List ValueIndex × Compiler) :=
  match fuel with
  | 0 => .error .OutOfFuel
  | fuel + 1 =>
    match arguments with
    | [] => .ok ([], c)
    | arg :: rest => do
        let (io, c1) ← compile_expression fuel c Option.none arg false
        let i ← match io with
                | some i => Except.ok i
                | Option.none => Except.error CErr.Panicked
        let (rest_indices, c2) ← compile_arguments fuel c1 rest
        .ok (i :: rest_indices, c2)

/-- Compiler::compile_call from compiler.rs: compile the callee and the
arguments, then either emit `TailCall` plus one `CallArgument` per
operand (tail position), or allocate/take the result register, emit
`Call` plus the `CallArgument`s, drop every operand register and run the
clear pass. -/
def compile_call (fuel : Nat) (c : Compiler) (position : Option RegisterIndex)
    (function : Expression) (arguments : List Expression) (tail_position : Bool) :
    CRes (Option ValueIndex × Compiler) :=
  match fuel with
  | 0 => .error .OutOfFuel
  | fuel + 1 => do
    let (fo, c1) ← compile_expression fuel c Option.none function false
    let function_index ← match fo with
                         | some i => Except.ok i
                         | Option.none => Except.error CErr.Panicked
    let (arg_indices, c2) ← compile_arguments fuel c1 arguments
    if tail_position then do
      let (_, c3) ← c2.push_opcode (.TailCall function_index)
      let c4 ← c3.push_call_arguments arg_indices
      .ok (Option.none, c4)
    else do
      let (result_pos, c3) ←
        match position with
        | some p => Except.ok (p, c2)
        | Option.none => unwrapC c2.reserve_next_free_register
      let (_, c4) ← c3.push_opcode (.Call function_index result_pos)
      let c5 ← c4.push_call_arguments arg_indices
      let c6 ← c5.drop_registers (arg_indices ++ [function_index])
      let c7 ← c6.clear_unused_locals
      .ok (some (.Register result_pos), c7)

/-- Compiler::compile_function from compiler.rs: push a child frame seeded
with the parameters, compile the body in tail position, pop the child,
fold it into the parent's function table, emit `CreateClosure` followed by
one `CaptureValue` per entry of the child's capture list, in order. -/
def compile_function (fuel : Nat) (c : Compiler) (position : Option RegisterIndex)
    (args : List String) (body : Expression) : CRes (ValueIndex × Compiler) :=
  match fuel with
  | 0 => .error .OutOfFuel
  | fuel + 1 => do
    let parent ← c.last_frame_unwrap
    let c1 : Compiler := { frames := c.frames ++ [CompilerFrame.new args (parent.depth + 1)] }
    let c2 ← c1.increase_scope
    let (_, c3) ← compile_expression fuel c2 Option.none body true
    let new_frame ← match c3.frames.getLast? with
                    | some f => Except.ok f
                    | Option.none => Except.error CErr.Panicked
    let c4 : Compiler := { frames := c3.frames.dropLast }
    let captures := new_frame.captures
    let frame ← c4.last_frame_unwrap
    let frame1 := { frame with functions := frame.functions ++ [new_frame.to_function args.length] }
    let function_index := toU8 (frame1.functions.length - 1)
    let (closure_index, frame2) :=
      match position with
      | some p => (p, frame1)
      | Option.none => frame1.reserve_next_free_register
    let frame3 := { frame2 with opcodes := frame2.opcodes ++ [OpCode.CreateClosure ⟨function_index⟩ closure_index] }
    let c5 ← c4.set_last_frame frame3
    let c6 ← c5.push_capture_values captures
    .ok (.Register closure_index, c6)

/-- The clause loop of Compiler::compile_condition: per clause, compile
the test, push a placeholder `Crash`, compile the clause result into the
shared result register inside its own scope, drop and sweep the test
register, push the end-of-clause placeholder `Crash` (recorded for the
final backpatch), and overwrite the first placeholder with a
`JumpToPositionIfFalse` whose distance reaches one past the second one. -/
def compile_condition_clauses (fuel : Nat) (c : Compiler) (result_pos : RegisterIndex)
    (clauses : List (Expression × Expression)) (tail_position : Bool)
    (jump_end_pos : List Nat) : CRes (List Nat × Compiler) :=
  match fuel with
  | 0 => .error .OutOfFuel
  | fuel + 1 =>
    match clauses with
    | [] => .ok (jump_end_pos, c)
    | (clause, result) :: rest => do
        let (cio, c1) ← compile_expression fuel c Option.none clause false
        let clause_index ← match cio with
                           | some i => Except.ok i
                           | Option.none => Except.error CErr.Panicked
        let (prev_op_pos, c2) ← c1.push_opcode .Crash
        let c3 ← c2.increase_scope
        let (_, c4) ← compile_expression fuel c3 (some result_pos) result tail_position
        let c5 ← c4.reduce_scope
        let c6 ← c5.drop_register clause_index
        let c7 ← c6.clear_unused_locals
        let (endp, c8) ← c7.push_opcode .Crash
        let f ← c8.last_frame_unwrap
        let c9 ← c8.patch_opcode prev_op_pos
                   (.JumpToPositionIfFalse clause_index (toI16 (f.opcodes.length - prev_op_pos)))
        compile_condition_clauses fuel c9 result_pos rest tail_position (jump_end_pos ++ [endp])

/-- Compiler::compile_condition from compiler.rs: open a scope, fix the
shared result register, run the clause loop, compile the fallback into
the result register, close the scope, and backpatch every recorded
end-of-clause position with a `Jump` past the fallback. -/
def compile_condition (fuel : Nat) (c : Compiler) (position : Option RegisterIndex)
    (clauses : List (Expression × Expression)) (otherwise : Expression)
    (tail_position : Bool) : CRes (Option ValueIndex × Compiler) :=
  match fuel with
  | 0 => .error .OutOfFuel
  | fuel + 1 => do
    let c1 ← c.increase_scope
    let (result_pos, c2) ←
      match position with
      | some p => Except.ok (p, c1)
      | Option.none => unwrapC c1.reserve_next_free_register
    let (jump_end_pos, c3) ← compile_condition_clauses fuel c2 result_pos clauses tail_position []
    let (_, c4) ← compile_expression fuel c3 (some result_pos) otherwise tail_position
    let c5 ← c4.reduce_scope
    let c6 ← c5.patch_end_jumps jump_end_pos
    if tail_position then
      .ok (Option.none, c6)
    else
      .ok (some (.Register result_pos), c6)

/-- The binding loop of Compiler::compile_recursive_let: compile each
non-final binding's expression, emit `FillRecursive` into its
pre-declared register, and run the clear pass. -/
def compile_rec_bindings (fuel : Nat) (c : Compiler)
    (items : List (RegisterIndex × String × Expression)) : CRes Compiler :=
  match fuel with
  | 0 => .error .OutOfFuel
  | fuel + 1 =>
    match items with
    | [] => .ok c
    | (p, _, e) :: rest => do
        let (po, c1) ← compile_expression fuel c Option.none e false
        let pos ← match po with
                  | some i => Except.ok i
                  | Option.none => Except.error CErr.Panicked
        let (_, c2) ← c1.push_opcode (.FillRecursive pos p)
        let c3 ← c2.clear_unused_locals
        compile_rec_bindings fuel c3 rest

/-- Compiler::compile_recursive_let from compiler.rs: pre-declare every
bound name (the last one into the requested position), then fill each
binding after compiling its expression; the final binding is compiled in
the surrounding tail position and filled when it yields an index. -/
def compile_recursive_let (fuel : Nat) (c : Compiler) (position : Option RegisterIndex)
    (pairs : List (String × Expression)) (tail_position : Bool) :
    CRes (Option ValueIndex × Compiler) :=
  match fuel with
  | 0 => .error .OutOfFuel
  | fuel + 1 =>
    match pairs.getLast? with
    | Option.none => .error .NoElementsInLet
    | some (last_symbol, last_exp) => do
        let ignored := pairs.dropLast
        let (ignored_pointers, c1) ← c.declare_recursive_symbols (ignored.map (fun pr => pr.1))
        let (last_pointer, c2) ← c1.declare_recursive_symbol position last_symbol
        let c3 ← compile_rec_bindings fuel c2 (ignored_pointers.zip ignored)
        let (po, c4) ← compile_expression fuel c3 Option.none last_exp tail_position
        match po with
        | some p => do
            let (_, c5) ← c4.push_opcode (.FillRecursive p last_pointer)
            .ok (some p, c5)
        | Option.none => .ok (Option.none, c4)

/-- The binding loop of Compiler::compile_non_recursive_let: compile each
non-final binding and bind its name (a binding that yields no index is
`unreachable!()`). -/
def compile_nonrec_ignored (fuel : Nat) (c : Compiler)
    (pairs : List (String × Expression)) : CRes Compiler :=
  match fuel with
  | 0 => .error .OutOfFuel
  | fuel + 1 =>
    match pairs with
    | [] => .ok c
    | (symbol, exp) :: rest => do
        let (io, c1) ← compile_expression fuel c Option.none exp false
        match io with
        | some i => do
            let c2 ← c1.assign_name symbol i
            compile_nonrec_ignored fuel c2 rest
        | Option.none => .error .Panicked

/-- Compiler::compile_non_recursive_let from compiler.rs. -/
def compile_non_recursive_let (fuel : Nat) (c : Compiler) (position : Option RegisterIndex)
    (pairs : List (String × Expression)) (tail_position : Bool) :
    CRes (Option ValueIndex × Compiler) :=
  match fuel with
  | 0 => .error .OutOfFuel
  | fuel + 1 =>
    match pairs.getLast? with
    | Option.none => .error .NoElementsInLet
    | some (last_symbol, last_expression) => do
        let c1 ← compile_nonrec_ignored fuel c pairs.dropLast
        let (io, c2) ← compile_expression fuel c1 position last_expression tail_position
        match io with
        | some i => do
            let c3 ← unwrapC (c2.assign_name last_symbol i)
            .ok (some i, c3)
        | Option.none => .ok (Option.none, c2)

/-- Compiler::compile_let from compiler.rs. -/
def compile_let (fuel : Nat) (c : Compiler) (recursive : Bool)
    (position : Option RegisterIndex) (pairs : List (String × Expression))
    (tail_position : Bool) : CRes (Option ValueIndex × Compiler) :=
  match fuel with
  | 0 => .error .OutOfFuel
  | fuel + 1 =>
    if recursive then
      compile_recursive_let fuel c position pairs tail_position
    else
      compile_non_recursive_let fuel c position pairs tail_position

/-- Compiler::compile_and_ignore_expressions from compiler.rs: compile
each expression, drop its register, run the clear pass. -/
def compile_and_ignore_expressions (fuel : Nat) (c : Compiler)
    (expressions : List Expression) : CRes Compiler :=
  match fuel with
  | 0 => .error .OutOfFuel
  | fuel + 1 =>
    match expressions with
    | [] => .ok c
    | e :: rest => do
        let (io, c1) ← compile_expression fuel c Option.none e false
        let index ← match io with
                    | some i => Except.ok i
                    | Option.none => Except.error CErr.Panicked
        let c2 ← c1.drop_register index
        let c3 ← c2.clear_unused_locals
        compile_and_ignore_expressions fuel c3 rest

/-- Compiler::compile_block from compiler.rs. -/
def compile_block (fuel : Nat) (c : Compiler) (scope_introducing : Bool)
    (position : Option RegisterIndex) (ignored : List Expression) (last : Expression)
    (tail_position : Bool) : CRes (Option ValueIndex × Compiler) :=
  match fuel with
  | 0 => .error .OutOfFuel
  | fuel + 1 => do
    let c1 ← if scope_introducing then c.increase_scope else pure c
    let c2 ← compile_and_ignore_expressions fuel c1 ignored
    let (res, c3) ← compile_expression fuel c2 position last tail_position
    let c4 ← if scope_introducing then c3.reduce_scope else pure c3
    .ok (res, c4)

end

/-- Compiler::new from compiler.rs. -/
def Compiler.new : Compiler :=
  { frames := [CompilerFrame.new [] 0] }

/-- Compiler::frame_to_function from compiler.rs. -/
def Compiler.frame_to_function (c : Compiler) : CRes (Function × Compiler) := do
  let f ← c.last_frame_unwrap
  .ok (f.to_function 0, { frames := c.frames.dropLast })

/- ===================================================================
Claim theorems.
=================================================================== -/

/-- C10: the native Index function (`ind`) performs unchecked list access:
for every List first argument and Number second argument whose truncation
to usize is within bounds, the call returns the element at that position;
an out-of-bounds index panics (process abort, modelled as the `panicked`
fault) instead of returning any RuntimeError value to the embedder. -/
theorem C10_native_index_is_unchecked (l : List Value) (q : Rat) :
    (∀ v, l[ratToUsize q]? = some v →
        NativeFunction.call .Index [.List l, .Number q] = .ok v) ∧
    (l.length ≤ ratToUsize q →
        NativeFunction.call .Index [.List l, .Number q] = .error .panicked) := by
  constructor
  · intro v hv
    simp [NativeFunction.call, argAt, liftValue, Value.list, Value.number,
      Bind.bind, Except.bind, hv]
  · intro hlen
    simp [NativeFunction.call, argAt, liftValue, Value.list, Value.number,
      Bind.bind, Except.bind, List.getElem?_eq_none hlen]

/-- Witness for C10: indexing the one-element list `[7]` at 0 yields 7,
and at 2 panics. -/
theorem C10_native_index_is_unchecked_witness :
    NativeFunction.call .Index [.List [.Number 7], .Number 0] = .ok (.Number 7) ∧
    NativeFunction.call .Index [.List [.Number 7], .Number 2] = .error .panicked :=
  ⟨(C10_native_index_is_unchecked [.Number 7] 0).1 (.Number 7) rfl,
   (C10_native_index_is_unchecked [.Number 7] 2).2 (by decide)⟩

/-- C2 (code-bug evidence): an under-applied call does not produce a
curried closure anywhere in the current code.  Native path:
`call_or_curry` compares `args.len()` against itself, therefore takes the
call branch even for the 1-argument application of the 2-ary `+`, and
panics indexing the missing second argument.  Closure path: a 1-argument
tail call of a 2-ary closure is rejected with `NotEnoughArguments` by
`run_tail_call` instead of storing a partial application. -/
theorem C2_underapplied_call_never_curries :
    NativeFunction.call_or_curry .Sum [.Number 1] = .error .panicked ∧
    VM.run_tail_call
      { frames := [{ pointer := 0, inside_call := Option.none,
                     registers := [.Value (.Object (.Closure
                       (.mk (.Function (.mk [] [] [] 2 0 2)) [] [])))],
                     function := .mk [.CallArgument (.Constant ⟨0⟩)] [.Number 1] [] 0 0 1,
                     captures := [], return_position := 0 }],
        cells := [] }
      (.Register ⟨0⟩) = .error (.runtime .NotEnoughArguments) :=
  ⟨rfl, rfl⟩

/-- The frame used by the C3 evidence: one register holding the condition
value, the current opcode being `JumpToPositionIfFalse(r0, 3)`. -/
def c3_frame (cond : Value) : Frame :=
  { pointer := 0,
    inside_call := Option.none,
    registers := [.Value cond],
    function := .mk [.JumpToPositionIfFalse (.Register ⟨0⟩) 3, .Crash, .Crash, .Crash, .Crash]
      [] [] 0 0 1,
    captures := [],
    return_position := 0 }

/-- C3 (code-bug evidence): frame.rs's JumpToPositionIfFalse is inverted
and inert.  With a false condition the instruction pointer does not move
by the offset (the returned frame is unchanged, pointer still 0, where the
claim expects a jump by 3); with a true condition the pointer does not
advance to the next instruction either (`run_jump` is invoked but its
recomputed pointer is discarded); only the NotABoolean error for a
non-boolean value agrees with the claim. -/
theorem C3_jump_if_false_inverted_and_inert :
    Frame.run_jump_to_position_if_false (c3_frame (.Bool false)) [] (.Register ⟨0⟩) 3 =
      .ok (c3_frame (.Bool false)) ∧
    Frame.run_jump_to_position_if_false (c3_frame (.Bool true)) [] (.Register ⟨0⟩) 3 =
      .ok (c3_frame (.Bool true)) ∧
    Frame.run_jump_to_position_if_false (c3_frame .Nil) [] (.Register ⟨0⟩) 3 =
      .error (.runtime .NotABoolean) :=
  ⟨rfl, rfl, rfl⟩

/-- The nested function of the C4 scenario: no opcode, one capture. -/
def c4_inner : Function := .mk [] [] [] 0 1 0

/-- The main function of the C4 scenario: declare register 0 as a
recursive placeholder, create a closure (into register 1) capturing
register 0, then fill register 0 with constant 0 (the number 5). -/
def c4_main : Function :=
  .mk [.DeclareRecursive ⟨0⟩, .CreateClosure ⟨0⟩ ⟨1⟩, .CaptureValue (.Register ⟨0⟩),
       .FillRecursive (.Constant ⟨0⟩) ⟨0⟩]
      [.Number 5] [c4_inner] 0 0 2

/-- Executing the three C4 steps from a fresh frame: DeclareRecursive,
CreateClosure (capturing the placeholder), FillRecursive. -/
def c4_run : VRes VM := do
  let f0 : Frame :=
    { pointer := 0, inside_call := Option.none,
      registers := [.Value .Uninit, .Value .Uninit],
      function := c4_main, captures := [], return_position := 0 }
  let (f1, cells1) ← f0.run_declare_recursive [] ⟨0⟩
  let vm1 ← VM.run_create_closure { frames := [f1], cells := cells1 } ⟨0⟩ ⟨1⟩
  let ftop ← vm1.last_frame
  let f2 ← ftop.run_fill_recursive (.Constant ⟨0⟩) ⟨0⟩
  vm1.set_last_frame f2

/-- C4 (code-bug evidence): a closure capturing a recursive binding's
register between DeclareRecursive and FillRecursive still observes
`Uninit` after the fill.  The run ends with register 0 holding the filled
value 5, but the closure's stored capture is placeholder cell 0 and the
cell store still holds `Uninit` — FillRecursive overwrote the register
slot without writing through the shared cell — so reading the capture
(Placeholder::unwrap) yields `Uninit`, not 5. -/
theorem C4_recursive_capture_observes_stale_uninit :
    c4_run = .ok
      { frames := [{ pointer := 4, inside_call := Option.none,
                     registers := [.Value (.Number 5),
                       .Value (.Object (.Closure (.mk (.Function c4_inner) [.Placeholder 0] [])))],
                     function := c4_main, captures := [], return_position := 0 }],
        cells := [.Uninit] } ∧
    Placeholder.unwrapIn (.Placeholder 0) [.Uninit] = .ok .Uninit :=
  ⟨rfl, rfl⟩

/-- C6 (code-bug evidence): freeing a register emits no `CloseValue`.
The clear pass turns an unnamed `ToClear` slot into `None` but pushes no
opcode (the emission in the source is commented out, against the
function's own doc comment); and `reduce_scope` drops the out-of-scope
name-table entry while leaving the register slot and the opcode list
untouched. -/
theorem C6_register_free_emits_no_close_value :
    CompilerFrame.clear_unused_locals
      { names := [], locals := [Local.ToClear], captures := [], depth := 1,
        opcodes := [], constants := [], functions := [] } =
      { names := [], locals := [Local.None], captures := [], depth := 1,
        opcodes := [], constants := [], functions := [] } ∧
    CompilerFrame.reduce_scope
      { names := [((2, "x"), .Register ⟨0⟩)], locals := [Local.Reserved], captures := [],
        depth := 2, opcodes := [], constants := [], functions := [] } =
      { names := [], locals := [Local.Reserved], captures := [],
        depth := 1, opcodes := [], constants := [], functions := [] } :=
  ⟨rfl, rfl⟩

/-- Helper for reasoning about `maxByKeyLast`: a fold step result is an
element of the scanned list or the start accumulator, and its key bounds
every scanned key and the accumulator's key. -/
theorem maxByKeyLast_go (key : α → Nat) :
    ∀ (l : List α) (acc : Option α) (m : α),
      l.foldl (maxByKeyStep key) acc = some m →
      (m ∈ l ∨ acc = some m) ∧ (∀ y ∈ l, key y ≤ key m) ∧
        (∀ b, acc = some b → key b ≤ key m) := by
  intro l
  induction l with
  | nil =>
      intro acc m h
      simp only [List.foldl_nil] at h
      exact ⟨Or.inr h, by simp, fun b hb => by rw [hb] at h; cases h; exact le_refl _⟩
  | cons x xs ih =>
      intro acc m h
      simp only [List.foldl_cons] at h
      cases acc with
      | none =>
          simp only [maxByKeyStep] at h
          obtain ⟨hm, hall, hb⟩ := ih (some x) m h
          refine ⟨?_, ?_, ?_⟩
          · rcases hm with hm | hm
            · exact Or.inl (List.mem_cons_of_mem _ hm)
            · exact Or.inl (by simp at hm; simp [hm])
          · intro y hy
            rcases List.mem_cons.mp hy with rfl | hy
            · exact hb y rfl
            · exact hall y hy
          · intro b hb2; cases hb2
      | some b0 =>
          simp only [maxByKeyStep] at h
          by_cases hcmp : key x ≥ key b0
          · rw [if_pos hcmp] at h
            obtain ⟨hm, hall, hb⟩ := ih (some x) m h
            refine ⟨?_, ?_, ?_⟩
            · rcases hm with hm | hm
              · exact Or.inl (List.mem_cons_of_mem _ hm)
              · exact Or.inl (by simp at hm; simp [hm])
            · intro y hy
              rcases List.mem_cons.mp hy with rfl | hy
              · exact hb y rfl
              · exact hall y hy
            · intro b hb2
              cases hb2
              exact le_trans hcmp (hb x rfl)
          · rw [if_neg hcmp] at h
            obtain ⟨hm, hall, hb⟩ := ih (some b0) m h
            refine ⟨?_, ?_, ?_⟩
            · rcases hm with hm | hm
              · exact Or.inl (List.mem_cons_of_mem _ hm)
              · exact Or.inr (by rw [← hm])
            · intro y hy
              rcases List.mem_cons.mp hy with rfl | hy
              · exact le_trans (le_of_not_le hcmp) (hb b0 rfl)
              · exact hall y hy
            · intro b hb2
              cases hb2
              exact hb _ rfl

/-- The result of `maxByKeyLast` is an element whose key bounds every key
in the list. -/
theorem maxByKeyLast_spec (key : α → Nat) (l : List α) (m : α)
    (h : maxByKeyLast l key = some m) : m ∈ l ∧ ∀ y ∈ l, key y ≤ key m := by
  obtain ⟨hm, hall, _⟩ := maxByKeyLast_go key l Option.none m h
  rcases hm with hm | hm
  · exact ⟨hm, hall⟩
  · cases hm

theorem maxByKeyLast_go_isSome (key : α → Nat) :
    ∀ (l : List α) (b : α),
      ∃ m, l.foldl (maxByKeyStep key) (some b) = some m := by
  intro l
  induction l with
  | nil => intro b; exact ⟨b, rfl⟩
  | cons x xs ih =>
      intro b
      simp only [List.foldl_cons, maxByKeyStep]
      by_cases hcmp : key x ≥ key b
      · rw [if_pos hcmp]; exact ih x
      · rw [if_neg hcmp]; exact ih b

/-- `maxByKeyLast` returns an element whenever the list is inhabited. -/
theorem maxByKeyLast_some_of_mem (key : α → Nat) (l : List α) (x : α) (hx : x ∈ l) :
    ∃ m, maxByKeyLast l key = some m := by
  match l, hx with
  | y :: ys, _ =>
      unfold maxByKeyLast
      simp only [List.foldl_cons, maxByKeyStep]
      exact maxByKeyLast_go_isSome key ys y

/-- Membership after a map insert: the inserted pair is present, and every
other member is an old member whose key differs from the inserted key. -/
theorem namesInsert_mem_iff (names : List ((Nat × String) × ValueIndex))
    (k : Nat × String) (v : ValueIndex) (e : (Nat × String) × ValueIndex) :
    e ∈ namesInsert names k v ↔ (e = (k, v) ∨ (e ∈ names ∧ e.1 ≠ k)) := by
  unfold namesInsert
  by_cases hany : names.any (fun e => e.1 == k)
  · rw [if_pos hany]
    constructor
    · intro he
      rcases List.mem_map.mp he with ⟨e0, he0, heq⟩
      by_cases hk : e0.1 = k
      · simp only [hk, beq_self_eq_true, if_true] at heq
        exact Or.inl heq.symm
      · simp only [beq_eq_false_iff_ne.mpr hk, Bool.false_eq_true, if_false] at heq
        subst heq
        exact Or.inr ⟨he0, hk⟩
    · intro h
      rcases h with rfl | ⟨he, hk⟩
      · rcases List.any_eq_true.mp hany with ⟨e0, he0, hk0⟩
        exact List.mem_map.mpr ⟨e0, he0, by simp [hk0]⟩
      · exact List.mem_map.mpr ⟨e, he, by simp [beq_eq_false_iff_ne.mpr hk]⟩
  · rw [if_neg hany]
    constructor
    · intro he
      rcases List.mem_append.mp he with he | he
      · refine Or.inr ⟨he, fun hk => ?_⟩
        exact hany (List.any_eq_true.mpr ⟨e, he, by simp [hk]⟩)
      · exact Or.inl (by simpa using he)
    · intro h
      rcases h with rfl | ⟨he, _⟩
      · exact List.mem_append.mpr (Or.inr (by simp))
      · exact List.mem_append.mpr (Or.inl he)

/-- C8: symbol resolution in the current compiler frame returns the
binding recorded at the greatest depth (which, under the frame's invariant
that every recorded depth is at most the current depth — the source's
debug assertion — is a depth ≤ the current one and ≥ the depth of every
other binding of the symbol); and re-binding a name at the same depth
replaces the previous binding, so resolving the symbol afterwards yields
the second register. -/
theorem C8_shadowing_by_depth_and_rebinding (f : CompilerFrame) (symbol : String)
    (hdep : ∀ e ∈ f.names, e.1.1 ≤ f.depth) :
    (∀ e ∈ f.names, e.1.2 = symbol →
        ∃ d r, f.find_local symbol = some r ∧ ((d, symbol), r) ∈ f.names ∧
          d ≤ f.depth ∧ e.1.1 ≤ d) ∧
    (∀ r1 r2, ((f.assign_name symbol r1).assign_name symbol r2).find_local symbol
        = some r2) := by
  constructor
  · intro e he hsym
    have hef : e ∈ f.names.filter (fun e => e.1.2 == symbol) :=
      List.mem_filter.mpr ⟨he, by simp [hsym]⟩
    obtain ⟨m, hm⟩ := maxByKeyLast_some_of_mem (fun e => e.1.1) _ e hef
    obtain ⟨hmem, hmax⟩ := maxByKeyLast_spec (fun e => e.1.1) _ m hm
    have hmn : m ∈ f.names := (List.mem_filter.mp hmem).1
    have hms : m.1.2 = symbol := by
      have := (List.mem_filter.mp hmem).2
      simpa using this
    refine ⟨m.1.1, m.2, ?_, ?_, hdep m hmn, hmax e hef⟩
    · unfold CompilerFrame.find_local
      rw [hm]
      rfl
    · have hme : ((m.1.1, symbol), m.2) = m := by
        rw [← hms]
      rw [hme]
      exact hmn
  · intro r1 r2
    have hself : ((f.depth, symbol), r2) ∈
        ((f.assign_name symbol r1).assign_name symbol r2).names :=
      (namesInsert_mem_iff _ _ _ _).mpr (Or.inl rfl)
    have hselff : ((f.depth, symbol), r2) ∈
        (((f.assign_name symbol r1).assign_name symbol r2).names.filter
          (fun e => e.1.2 == symbol)) :=
      List.mem_filter.mpr ⟨hself, by simp⟩
    obtain ⟨m, hm⟩ := maxByKeyLast_some_of_mem (fun e => e.1.1) _ _ hselff
    obtain ⟨hmem, hmax⟩ := maxByKeyLast_spec (fun e => e.1.1) _ m hm
    have hmn2 : m ∈ ((f.assign_name symbol r1).assign_name symbol r2).names :=
      (List.mem_filter.mp hmem).1
    have hms : m.1.2 = symbol := by
      have := (List.mem_filter.mp hmem).2
      simpa using this
    have hfind : ((f.assign_name symbol r1).assign_name symbol r2).find_local symbol
        = some m.2 := by
      unfold CompilerFrame.find_local
      rw [hm]
      rfl
    rcases (namesInsert_mem_iff _ _ _ _).mp hmn2 with heq | ⟨hm1, hne⟩
    · rw [hfind, heq]
    · rcases (namesInsert_mem_iff _ _ _ _).mp hm1 with heq | ⟨hm0, _⟩
      · exact absurd (show m.1 = _ from heq ▸ rfl) hne
      · have h1 : m.1.1 ≤ f.depth := hdep m hm0
        have h2 : f.depth ≤ m.1.1 := hmax ((f.depth, symbol), r2) hselff
        have hk : m.1 = (f.depth, symbol) := by
          have hd : m.1.1 = f.depth := le_antisymm h1 h2
          exact Prod.ext hd hms
        exact absurd hk hne

/-- Witness for C8: in a frame with `x` bound at depth 0 and current depth
1, binding `x` twice more at depth 1 resolves to the register of the
second of those bindings. -/
theorem C8_shadowing_by_depth_and_rebinding_witness :
    ((({ names := [((0, "x"), .Register ⟨0⟩)], locals := [], captures := [], depth := 1,
         opcodes := [], constants := [], functions := [] } : CompilerFrame).assign_name "x"
        (.Register ⟨5⟩)).assign_name "x" (.Register ⟨6⟩)).find_local "x" =
      some (.Register ⟨6⟩) :=
  (C8_shadowing_by_depth_and_rebinding
    { names := [((0, "x"), .Register ⟨0⟩)], locals := [], captures := [], depth := 1,
      opcodes := [], constants := [], functions := [] } "x" (by decide)).2
    (.Register ⟨5⟩) (.Register ⟨6⟩)

namespace Old

/-- Writing through `value_in_last_frame` leaves the frame stack unchanged
and makes reading the same position yield the written value. -/
theorem set_value_in_last_frame_spec (vm : VM) (pos : Nat) (v : Value) (vm' : VM)
    (h : vm.set_value_in_last_frame pos v = .ok vm') :
    vm'.frames = vm.frames ∧ vm'.value_in_last_frame pos = .ok v := by
  unfold VM.set_value_in_last_frame at h
  cases hlf : vm.last_frame_unwrap with
  | error e => rw [hlf] at h; simp [Bind.bind, Except.bind] at h
  | ok f =>
  rw [hlf] at h
  simp only [Bind.bind, Except.bind] at h
  split at h
  · cases h
    constructor
    · rfl
    · unfold VM.value_in_last_frame VM.last_frame_unwrap
      unfold VM.last_frame_unwrap at hlf
      simp only
      cases hgl : vm.frames.getLast? with
      | none => rw [hgl] at hlf; cases hlf
      | some f0 =>
          rw [hgl] at hlf
          cases hlf
          simp only [Bind.bind, Except.bind]
          rw [List.get?_eq_getElem?, List.getElem?_set_eq_of_lt]
          · assumption
  · cases h

/-- C5: vm_return reads the value at the given index, pops the current
frame, and — when frames remain — writes the value into the popped
frame's recorded return-target register in the new top frame, yielding
`Ok(None)`; when no frame remains it yields `Ok(Some(value))`, the
program's completed result, not an error. -/
theorem C5_return_pops_frame_and_routes_value (vm : VM) (ret : Nat)
    (res : Option Value × VM) (h : vm.vm_return ret = .ok res) :
    ∃ value rest popped,
      vm.frames = rest ++ [popped] ∧
      vm.value_in_last_frame ret = .ok value ∧
      res.2.frames = rest ∧
      (rest = [] → res.1 = some value) ∧
      (rest ≠ [] →
        res.1 = Option.none ∧
        res.2.value_in_last_frame popped.return_position = .ok value) := by
  unfold VM.vm_return at h
  cases hv : vm.value_in_last_frame ret with
  | error e => rw [hv] at h; simp [Bind.bind, Except.bind] at h
  | ok value =>
  rw [hv] at h
  cases hlf : vm.last_frame with
  | error e => rw [hlf] at h; simp [Bind.bind, Except.bind] at h
  | ok lf =>
  rw [hlf] at h
  cases hpop : vm.pop_frame with
  | error e => rw [hpop] at h; simp [Bind.bind, Except.bind] at h
  | ok vm1 =>
  rw [hpop] at h
  simp only [Bind.bind, Except.bind] at h
  have hne : vm.frames ≠ [] := by
    intro hnil
    unfold VM.last_frame at hlf
    rw [hnil] at hlf
    simp at hlf
  have hlast : vm.frames.getLast? = some lf := by
    unfold VM.last_frame at hlf
    cases hgl : vm.frames.getLast? with
    | none => rw [hgl] at hlf; simp at hlf
    | some f => rw [hgl] at hlf; simp at hlf; rw [hlf]
  have hsplit : vm.frames = vm.frames.dropLast ++ [lf] := by
    have h2 := List.dropLast_append_getLast hne
    rw [List.getLast?_eq_getLast _ hne] at hlast
    rw [Option.some_inj.mp hlast] at h2
    exact h2.symm
  have hpop1 : vm1.frames = vm.frames.dropLast := by
    unfold VM.pop_frame VM.last_frame_unwrap at hpop
    rw [hlast] at hpop
    dsimp only at hpop
    simp only [Bind.bind, Except.bind] at hpop
    split at hpop
    · cases hpop; rfl
    · cases hpop
  refine ⟨value, vm.frames.dropLast, lf, hsplit, rfl, ?_⟩
  by_cases hemp : vm1.frames.isEmpty
  · rw [if_pos hemp] at h
    obtain rfl := Except.ok.inj h
    refine ⟨hpop1.symm ▸ rfl, fun _ => rfl, fun hrest => ?_⟩
    exact absurd (hpop1 ▸ List.isEmpty_iff.mp hemp) hrest
  · rw [if_neg hemp] at h
    cases hset : vm1.set_value_in_last_frame lf.return_position value with
    | error e => rw [hset] at h; simp at h
    | ok vm2 =>
        rw [hset] at h
        obtain rfl := Except.ok.inj h
        obtain ⟨hfr, hread⟩ := set_value_in_last_frame_spec vm1 lf.return_position value vm2 hset
        refine ⟨by rw [hfr, hpop1], fun hrest => ?_, fun _ => ⟨rfl, hread⟩⟩
        exact absurd (List.isEmpty_iff.mpr (hpop1 ▸ hrest)) hemp

/-- The single-frame program of the C5 witness: one register holding 9,
about to return it. -/
def c5_vm : VM :=
  { frames := [{ pointer := 0, register_offset := 0, return_position := 0,
                 function := { opcodes := [.Return 0], arity := 0, num_registers := 1,
                               capture_offset := 0 } }],
    storage := { register_storage := [.Number 9], temporary_storage := [] } }

/-- Witness for C5: returning register 0 of the last remaining frame pops
it and yields `Ok(Some(9))`. -/
theorem C5_return_pops_frame_and_routes_value_witness :
    ∃ value rest popped,
      c5_vm.frames = rest ++ [popped] ∧
      c5_vm.value_in_last_frame 0 = .ok value ∧
      ((some (Value.Number 9),
        ({ frames := [],
           storage := { register_storage := [.Uninit], temporary_storage := [] } } : VM)) :
          Option Value × VM).2.frames = rest ∧
      (rest = [] → ((some (Value.Number 9),
        ({ frames := [],
           storage := { register_storage := [.Uninit], temporary_storage := [] } } : VM)) :
          Option Value × VM).1 = some value) ∧
      (rest ≠ [] → ((some (Value.Number 9),
        ({ frames := [],
           storage := { register_storage := [.Uninit], temporary_storage := [] } } : VM)) :
          Option Value × VM).1 = Option.none ∧
        ((some (Value.Number 9),
        ({ frames := [],
           storage := { register_storage := [.Uninit], temporary_storage := [] } } : VM)) :
          Option Value × VM).2.value_in_last_frame popped.return_position = .ok value) :=
  C5_return_pops_frame_and_routes_value c5_vm 0
    (some (.Number 9),
      { frames := [], storage := { register_storage := [.Uninit], temporary_storage := [] } })
    rfl

end Old

theorem set_last_frame_length (vm : VM) (f : Frame) (vm' : VM)
    (h : vm.set_last_frame f = .ok vm') : vm'.frames.length = vm.frames.length := by
  unfold VM.set_last_frame at h
  split at h
  · cases h
  · cases h
    rename_i hemp
    have hne : vm.frames.length ≠ 0 := by
      intro h0
      exact hemp (by simpa [List.isEmpty_iff, List.length_eq_zero] using h0)
    simp only [List.length_append, List.length_dropLast, List.length_singleton]
    omega

theorem increase_pointer_length (vm : VM) (n : Nat) (vm' : VM)
    (h : vm.increase_pointer n = .ok vm') : vm'.frames.length = vm.frames.length := by
  unfold VM.increase_pointer at h
  cases hgl : vm.frames.getLast? with
  | none => rw [hgl] at h; simp [Bind.bind, Except.bind] at h
  | some f =>
      rw [hgl] at h
      simp only [Bind.bind, Except.bind] at h
      exact set_last_frame_length _ _ _ h

theorem get_call_arguments_length (vm : VM) (limit : Option Nat) (args : List Value) (vm' : VM)
    (h : vm.get_call_arguments limit = .ok (args, vm')) :
    vm'.frames.length = vm.frames.length := by
  unfold VM.get_call_arguments at h
  cases hlf : vm.last_frame with
  | error e => rw [hlf] at h; simp [Bind.bind, Except.bind] at h
  | ok f =>
  rw [hlf] at h
  simp only [Bind.bind, Except.bind] at h
  cases hc : f.collect_call_arguments vm.cells limit [] with
  | error e => rw [hc] at h; simp at h
  | ok p =>
      rw [hc] at h
      dsimp only at h
      cases hs : vm.set_last_frame p.2 with
      | error e => rw [hs] at h; simp at h
      | ok vm1 =>
          rw [hs] at h
          simp at h
          rw [← h.2]
          exact set_last_frame_length _ _ _ hs

theorem transform_tail_length (vm : VM) (closure : Closure) (vm' : VM)
    (h : vm.transform_last_frame_for_tail_call closure = .ok vm') :
    vm'.frames.length = vm.frames.length := by
  unfold VM.transform_last_frame_for_tail_call at h
  cases hgl : vm.frames.getLast? with
  | none => rw [hgl] at h; simp [Bind.bind, Except.bind] at h
  | some f =>
  rw [hgl] at h
  simp only [Bind.bind, Except.bind] at h
  cases hc : f.collect_call_arguments vm.cells Option.none [] with
  | error e => rw [hc] at h; simp at h
  | ok p =>
  rw [hc] at h
  simp only at h
  cases hcf : closure.function with
  | Function func =>
      rw [hcf] at h
      simp only [Bind.bind, Except.bind] at h
      cases hw1 : writeRun (p.2.registers ++ List.replicate (func.num_registers - p.2.registers.length) (Placeholder.Value Value.Uninit)) 0 closure.captures with
      | error e => rw [hw1] at h; simp at h
      | ok regs1 =>
      rw [hw1] at h
      simp only at h
      cases hw2 : writeRun regs1 closure.captures.length (List.map Placeholder.Value p.1) with
      | error e => rw [hw2] at h; simp at h
      | ok regs2 =>
      rw [hw2] at h
      simp only at h
      exact set_last_frame_length _ _ _ h
  | NativeFunction nf => rw [hcf] at h; simp at h

end Maxlang

namespace Maxlang

theorem create_and_push_tail_length (vm : VM) (closure : Closure) (slot : Nat) (vm' : VM)
    (h : vm.create_and_push_new_frame closure slot true = .ok vm') :
    vm'.frames.length = vm.frames.length := by
  unfold VM.create_and_push_new_frame at h
  cases hip : vm.increase_pointer 1 with
  | error e => rw [hip] at h; simp [Bind.bind, Except.bind] at h
  | ok vm1 =>
      rw [hip] at h
      simp only [Bind.bind, Except.bind, if_true] at h
      rw [← increase_pointer_length vm 1 vm1 hip]
      exact transform_tail_length _ _ _ h

theorem run_tail_call_never_grows (vm : VM) (vi : ValueIndex) (res : Option Value × VM)
    (h : vm.run_tail_call vi = .ok res) : res.2.frames.length ≤ vm.frames.length := by
  unfold VM.run_tail_call at h
  cases hga : vm.get_call_arguments Option.none with
  | error e => rw [hga] at h; simp [Bind.bind, Except.bind] at h
  | ok p =>
  rw [hga] at h
  dsimp only at h
  simp only [Bind.bind, Except.bind] at h
  cases hlf : p.2.last_frame with
  | error e => rw [hlf] at h; simp at h
  | ok lf =>
  rw [hlf] at h
  dsimp only at h
  have hlen : p.2.frames.length = vm.frames.length := by
    obtain ⟨a, b⟩ := p
    exact get_call_arguments_length vm Option.none a b hga
  have hpop : p.2.pop_frame.frames.length ≤ vm.frames.length := by
    unfold VM.pop_frame
    simp only [List.length_dropLast]
    omega
  cases hgv : lf.get_value_index vi with
  | error e => rw [hgv] at h; simp at h
  | ok pv =>
  rw [hgv] at h
  dsimp only at h
  cases pv with
  | Placeholder cell => simp at h
  | Value v =>
      cases v with
      | Object o =>
          cases o with
          | Closure closure =>
              simp only [Bind.bind, Except.bind] at h
              cases hadd : liftValue (closure.add_arguments p.1) with
              | error e => rw [hadd] at h; simp at h
              | ok nc =>
              rw [hadd] at h
              dsimp only at h
              split at h
              · cases hcp : (p.2.pop_frame).create_and_push_new_frame nc lf.return_position true with
                | error e => rw [hcp] at h; simp at h
                | ok vm3 =>
                    rw [hcp] at h
                    simp at h
                    rw [← h]
                    calc vm3.frames.length = p.2.pop_frame.frames.length :=
                          create_and_push_tail_length _ _ _ _ hcp
                    _ ≤ vm.frames.length := hpop
              · simp at h
          | String s => simp at h
      | NativeFunction nf =>
          simp only [Bind.bind, Except.bind] at h
          cases hcall : nf.call p.1 with
          | error e => rw [hcall] at h; simp at h
          | ok v2 =>
              rw [hcall] at h
              simp at h
              rw [← h]
              exact hpop
      | Number n => simp at h
      | Bool b => simp at h
      | Nil => simp at h
      | Uninit => simp at h
      | List l => simp at h

end Maxlang

namespace Maxlang
namespace Old

theorem old_set_last_frame_length (vm : VM) (f : Frame) (vm' : VM)
    (h : vm.set_last_frame f = .ok vm') : vm'.frames.length = vm.frames.length := by
  unfold VM.set_last_frame at h
  split at h
  · cases h
  · cases h
    rename_i hemp
    have hne : vm.frames.length ≠ 0 := by
      intro h0
      exact hemp (by simpa [List.isEmpty_iff, List.length_eq_zero] using h0)
    simp only [List.length_append, List.length_dropLast, List.length_singleton]
    omega

theorem old_increase_pointer_length (vm : VM) (n : Nat) (vm' : VM)
    (h : vm.increase_pointer n = .ok vm') : vm'.frames.length = vm.frames.length := by
  unfold VM.increase_pointer VM.last_frame_unwrap at h
  cases hgl : vm.frames.getLast? with
  | none => rw [hgl] at h; simp [Bind.bind, Except.bind] at h
  | some f =>
      rw [hgl] at h
      simp only [Bind.bind, Except.bind] at h
      exact old_set_last_frame_length _ _ _ h

theorem old_transform_tail_length (vm : VM) (closure : Closure) (vm' : VM)
    (h : vm.transform_last_frame_for_tail_call closure = .ok vm') :
    vm'.frames.length = vm.frames.length := by
  unfold VM.transform_last_frame_for_tail_call VM.last_frame_unwrap at h
  cases hgl : vm.frames.getLast? with
  | none => rw [hgl] at h; simp [Bind.bind, Except.bind] at h
  | some f =>
  rw [hgl] at h
  simp only [Bind.bind, Except.bind] at h
  cases hc : f.collect_arguments_into_temp vm.storage with
  | error e => rw [hc] at h; simp at h
  | ok p =>
  rw [hc] at h
  dsimp only at h
  cases hw1 : writeRunV (p.2.ensure_filled (p.1.register_offset + closure.function.num_registers)).register_storage p.1.register_offset closure.captures with
  | error e => rw [hw1] at h; simp at h
  | ok regs1 =>
  rw [hw1] at h
  dsimp only at h
  cases hw2 : writeRunV regs1 (p.1.register_offset + closure.captures.length) (p.2.ensure_filled (p.1.register_offset + closure.function.num_registers)).temporary_storage with
  | error e => rw [hw2] at h; simp at h
  | ok regs2 =>
  rw [hw2] at h
  dsimp only at h
  have := old_set_last_frame_length _ _ _ h
  simpa using this

theorem old_create_and_push_tail_length (vm : VM) (closure : Closure) (slot : Nat) (vm' : VM)
    (h : vm.create_and_push_new_frame closure slot true = .ok vm') :
    vm'.frames.length = vm.frames.length := by
  unfold VM.create_and_push_new_frame at h
  cases hip : vm.increase_pointer 1 with
  | error e => rw [hip] at h; simp [Bind.bind, Except.bind] at h
  | ok vm1 =>
      rw [hip] at h
      simp only [Bind.bind, Except.bind, if_true] at h
      rw [← old_increase_pointer_length vm 1 vm1 hip]
      exact old_transform_tail_length _ _ _ h

theorem call_native_function_length (vm : VM) (nf : NativeFunction) (v : Value) (vm' : VM)
    (h : vm.call_native_function nf = .ok (v, vm')) :
    vm'.frames.length = vm.frames.length := by
  unfold VM.call_native_function at h
  cases hip : vm.increase_pointer 1 with
  | error e => rw [hip] at h; simp [Bind.bind, Except.bind] at h
  | ok vm1 =>
  rw [hip] at h
  simp only [Bind.bind, Except.bind] at h
  cases hlf : vm1.last_frame with
  | error e => rw [hlf] at h; simp at h
  | ok f =>
  rw [hlf] at h
  dsimp only at h
  cases hc : f.collect_arguments_into_temp vm1.storage with
  | error e => rw [hc] at h; simp at h
  | ok p =>
  rw [hc] at h
  dsimp only at h
  cases hcall : callNative nf p.2.temporary_storage with
  | error e => rw [hcall] at h; simp at h
  | ok result =>
  rw [hcall] at h
  dsimp only at h
  cases hs : vm1.set_last_frame p.1 with
  | error e => rw [hs] at h; simp at h
  | ok vm2 =>
      rw [hs] at h
      simp at h
      have h1 := old_set_last_frame_length _ _ _ hs
      have h2 := old_increase_pointer_length _ _ _ hip
      rw [← h.2]
      simp only []
      omega

theorem tail_call_never_grows (vm : VM) (r : Nat) (res : Option Value × VM)
    (h : vm.tail_call r = .ok res) : res.2.frames.length ≤ vm.frames.length := by
  unfold VM.tail_call at h
  cases hv : vm.value_in_last_frame r with
  | error e => rw [hv] at h; simp [Bind.bind, Except.bind] at h
  | ok v =>
  rw [hv] at h
  simp only [Bind.bind, Except.bind] at h
  cases v with
  | NativeFunction native_function =>
      dsimp only at h
      cases hc : vm.call_native_function native_function with
      | error e => rw [hc] at h; simp at h
      | ok p =>
      rw [hc] at h
      dsimp only at h
      have hlen : p.2.frames.length = vm.frames.length := by
        obtain ⟨a, b⟩ := p
        exact call_native_function_length vm native_function a b hc
      split at h
      · obtain rfl := Except.ok.inj h
        exact hlen.le
      · cases hlf : p.2.last_frame with
        | error e => rw [hlf] at h; simp at h
        | ok lf =>
        rw [hlf] at h
        dsimp only at h
        split at h
        · cases h
        · cases hsv : (({ frames := p.2.frames.dropLast, storage := p.2.storage } : VM)).set_value_in_last_frame lf.return_position p.1 with
          | error e => rw [hsv] at h; simp at h
          | ok vm3 =>
              rw [hsv] at h
              simp at h
              rw [← h]
              have hf := (set_value_in_last_frame_spec _ _ _ _ hsv).1
              rw [hf]
              simp only [List.length_dropLast]
              omega
  | Object o =>
      cases o with
      | Closure closure =>
          dsimp only at h
          cases hlf : vm.last_frame with
          | error e => rw [hlf] at h; simp at h
          | ok lf =>
          rw [hlf] at h
          dsimp only at h
          cases hcp : vm.create_and_push_new_frame closure lf.return_position true with
          | error e => rw [hcp] at h; simp at h
          | ok vm1 =>
              rw [hcp] at h
              simp at h
              rw [← h]
              exact (old_create_and_push_tail_length _ _ _ _ hcp).le
      | String s => simp at h
  | Number n => simp at h
  | Bool b => simp at h
  | Nil => simp at h
  | Uninit => simp at h
  | List l => simp at h

end Old

/-- C1: executing a tail call never increases the frame-stack depth, in
both VM iterations.  Old iteration (`tail_call` together with
`transform_last_frame_for_tail_call`): a closure callee transforms the
current frame in place, a native callee pops at most one frame, so a
self-recursive tail call runs in O(1) frame-stack depth regardless of the
recursion count.  New iteration (`run_tail_call`): the current frame is
popped before the callee is installed by the in-place transform. -/
theorem C1_tail_call_never_grows_frame_stack :
    (∀ (vm : Old.VM) (r : Nat) (res : Option Old.Value × Old.VM),
        vm.tail_call r = .ok res → res.2.frames.length ≤ vm.frames.length) ∧
    (∀ (vm : VM) (vi : ValueIndex) (res : Option Value × VM),
        vm.run_tail_call vi = .ok res → res.2.frames.length ≤ vm.frames.length) :=
  ⟨Old.tail_call_never_grows, run_tail_call_never_grows⟩

/-- The old-iteration witness state for C1: a frame about to tail-call,
via register 0, a 1-ary closure with register 1 as argument. -/
def c1_old_vm : Old.VM :=
  { frames := [{ pointer := 0, register_offset := 0, return_position := 0,
                 function := { opcodes := [.TailCall 0, .CallArgument 1], arity := 0,
                               num_registers := 2, capture_offset := 0 } }],
    storage := { register_storage :=
                   [.Object (.Closure (.mk { opcodes := [], arity := 1, num_registers := 1,
                                             capture_offset := 0 } [] [])),
                    .Number 7],
                 temporary_storage := [] } }

/-- The new-iteration witness state for C1: two frames, the top one about
to tail-call a 0-ary closure held in its register 0. -/
def c1_new_vm : VM :=
  { frames := [{ pointer := 0, inside_call := Option.none, registers := [],
                 function := .mk [] [] [] 0 0 0, captures := [], return_position := 0 },
               { pointer := 0, inside_call := Option.none,
                 registers := [.Value (.Object (.Closure (.mk (.Function (.mk [] [] [] 0 0 0)) [] [])))],
                 function := .mk [] [] [] 0 0 1, captures := [], return_position := 0 }],
    cells := [] }

/-- Witness for C1: both tail calls above succeed without growing the
frame stack. -/
theorem C1_tail_call_never_grows_frame_stack_witness :
    (∃ res, c1_old_vm.tail_call 0 = .ok res ∧
       res.2.frames.length ≤ c1_old_vm.frames.length) ∧
    (∃ res, c1_new_vm.run_tail_call (.Register ⟨0⟩) = .ok res ∧
       res.2.frames.length ≤ c1_new_vm.frames.length) :=
  ⟨⟨_, rfl, C1_tail_call_never_grows_frame_stack.1 c1_old_vm 0 _ rfl⟩,
   ⟨_, rfl, C1_tail_call_never_grows_frame_stack.2 c1_new_vm (.Register ⟨0⟩) _ rfl⟩⟩

end Maxlang

namespace Maxlang

/-- An opcode list with no Crash placeholder left in it. -/
def CrashFree (ops : List OpCode) : Prop := OpCode.Crash ∉ ops

instance : DecidablePred CrashFree := fun ops => by
  unfold CrashFree
  infer_instance

/-- Frames strictly below the top of the compiler stack keep their opcode
lists and function tables (only their capture lists may change). -/
def belowPreserved (c c' : Compiler) : Prop :=
  ∀ i, i + 1 < c.frames.length →
    ((c.frames.get? i).map CompilerFrame.opcodes = (c'.frames.get? i).map CompilerFrame.opcodes) ∧
    ((c.frames.get? i).map CompilerFrame.functions = (c'.frames.get? i).map CompilerFrame.functions)

/-- The frame-discipline invariant of one compilation step: the stack
height is unchanged, frames below the top are preserved, and the top
frame's opcode list has only been extended, by a Crash-free suffix. -/
def Progress (c c' : Compiler) : Prop :=
  c'.frames.length = c.frames.length ∧ belowPreserved c c' ∧
  ∀ lf, c.frames.getLast? = some lf →
    ∃ lf' suffix, c'.frames.getLast? = some lf' ∧
      lf'.opcodes = lf.opcodes ++ suffix ∧ CrashFree suffix

theorem Progress.refl (c : Compiler) : Progress c c := by
  refine ⟨rfl, fun i hi => ⟨rfl, rfl⟩, fun lf hlf => ⟨lf, [], hlf, by simp, by simp [CrashFree]⟩⟩

theorem Progress.trans {a b c : Compiler} (h1 : Progress a b) (h2 : Progress b c) :
    Progress a c := by
  obtain ⟨hl1, hb1, ho1⟩ := h1
  obtain ⟨hl2, hb2, ho2⟩ := h2
  refine ⟨hl2.trans hl1, ?_, ?_⟩
  · intro i hi
    have hi2 : i + 1 < b.frames.length := by omega
    exact ⟨(hb1 i hi).1.trans (hb2 i hi2).1, (hb1 i hi).2.trans (hb2 i hi2).2⟩
  · intro lf hlf
    obtain ⟨lf1, s1, hlf1, hop1, hcf1⟩ := ho1 lf hlf
    obtain ⟨lf2, s2, hlf2, hop2, hcf2⟩ := ho2 lf1 hlf1
    refine ⟨lf2, s1 ++ s2, hlf2, by rw [hop2, hop1, List.append_assoc], ?_⟩
    unfold CrashFree at *
    simp only [List.mem_append]
    rintro (h | h)
    · exact hcf1 h
    · exact hcf2 h

end Maxlang

namespace Maxlang

theorem getLast?_eq_some_iff {l : List α} {a : α} :
    l.getLast? = some a ↔ ∃ l0, l = l0 ++ [a] := by
  constructor
  · intro h
    have hne : l ≠ [] := by
      intro hnil
      rw [hnil] at h
      simp at h
    refine ⟨l.dropLast, ?_⟩
    have h2 := List.dropLast_append_getLast hne
    rw [List.getLast?_eq_getLast _ hne] at h
    rw [Option.some_inj.mp h] at h2
    exact h2.symm
  · rintro ⟨l0, rfl⟩
    simp

theorem set_last_frame_shape (c : Compiler) (f : CompilerFrame) (c' : Compiler)
    (h : c.set_last_frame f = .ok c') : c'.frames = c.frames.dropLast ++ [f] := by
  unfold Compiler.set_last_frame at h
  split at h
  · cases h
  · cases h; rfl

theorem last_frame_unwrap_eq (c : Compiler) (f : CompilerFrame)
    (h : c.last_frame_unwrap = .ok f) : c.frames.getLast? = some f := by
  unfold Compiler.last_frame_unwrap at h
  cases hgl : c.frames.getLast? with
  | none => rw [hgl] at h; cases h
  | some f0 => rw [hgl] at h; cases h; rfl

theorem last_frame_or_no_frames_eq (c : Compiler) (f : CompilerFrame)
    (h : c.last_frame_or_no_frames = .ok f) : c.frames.getLast? = some f := by
  unfold Compiler.last_frame_or_no_frames at h
  cases hgl : c.frames.getLast? with
  | none => rw [hgl] at h; cases h
  | some f0 => rw [hgl] at h; cases h; rfl

/-- After replacing the last frame, positions strictly below the top are
unchanged. -/
theorem dropLast_append_get? (l : List α) (a b : α) (l0 : List α) (hl : l = l0 ++ [a])
    (i : Nat) (hi : i + 1 < l.length) : (l.dropLast ++ [b]).get? i = l.get? i := by
  subst hl
  rw [List.dropLast_concat]
  simp only [List.length_append, List.length_singleton] at hi
  rw [List.get?_eq_getElem?, List.get?_eq_getElem?, List.getElem?_append_left (by omega), List.getElem?_append_left (by omega)]

/-- Progress from a pure last-frame update that extends the opcode list by
a Crash-free suffix and keeps the function table. -/
theorem progress_of_replace_last (c c' : Compiler) (lf f : CompilerFrame)
    (hlf : c.frames.getLast? = some lf)
    (hfr : c'.frames = c.frames.dropLast ++ [f])
    (hops : ∃ suffix, f.opcodes = lf.opcodes ++ suffix ∧ CrashFree suffix) :
    Progress c c' := by
  obtain ⟨l0, hl0⟩ := getLast?_eq_some_iff.mp hlf
  refine ⟨?_, ?_, ?_⟩
  · rw [hfr, hl0]
    simp
  · intro i hi
    rw [hfr, dropLast_append_get? c.frames lf f l0 hl0 i hi]
    exact ⟨rfl, rfl⟩
  · intro lf0 hlf0
    rw [hlf0] at hlf
    cases Option.some_inj.mp hlf
    exact ⟨f, hops.choose, by rw [hfr]; simp, hops.choose_spec.1, hops.choose_spec.2⟩

theorem push_opcode_spec (c : Compiler) (op : OpCode) (p : Nat) (c' : Compiler)
    (h : c.push_opcode op = .ok (p, c')) :
    ∃ lf, c.frames.getLast? = some lf ∧ p = lf.opcodes.length ∧
      c'.frames = c.frames.dropLast ++ [{ lf with opcodes := lf.opcodes ++ [op] }] := by
  unfold Compiler.push_opcode at h
  cases hlf : c.last_frame_unwrap with
  | error e => rw [hlf] at h; simp [Bind.bind, Except.bind] at h
  | ok f =>
  rw [hlf] at h
  simp only [Bind.bind, Except.bind] at h
  cases hs : c.set_last_frame { f with opcodes := f.opcodes ++ [op] } with
  | error e => rw [hs] at h; simp at h
  | ok c1 =>
      rw [hs] at h
      simp at h
      obtain ⟨rfl, rfl⟩ := h
      exact ⟨f, last_frame_unwrap_eq c f hlf, rfl, set_last_frame_shape _ _ _ hs⟩

theorem push_opcode_progress (c : Compiler) (op : OpCode) (p : Nat) (c' : Compiler)
    (hop : op ≠ .Crash) (h : c.push_opcode op = .ok (p, c')) : Progress c c' := by
  obtain ⟨lf, hlf, hp, hfr⟩ := push_opcode_spec c op p c' h
  exact progress_of_replace_last c c' lf _ hlf hfr
    ⟨[op], rfl, by simpa [CrashFree] using fun heq => hop heq.symm⟩

theorem patch_opcode_spec (c : Compiler) (p : Nat) (op : OpCode) (c' : Compiler)
    (h : c.patch_opcode p op = .ok c') :
    ∃ lf, c.frames.getLast? = some lf ∧ p < lf.opcodes.length ∧
      c'.frames = c.frames.dropLast ++ [{ lf with opcodes := lf.opcodes.set p op }] := by
  unfold Compiler.patch_opcode at h
  cases hlf : c.last_frame_unwrap with
  | error e => rw [hlf] at h; simp [Bind.bind, Except.bind] at h
  | ok f =>
  rw [hlf] at h
  simp only [Bind.bind, Except.bind] at h
  split at h
  · exact ⟨f, last_frame_unwrap_eq c f hlf, by assumption, set_last_frame_shape _ _ _ h⟩
  · cases h

/-- Progress from a last-frame update that changes neither the opcode
list nor (necessarily) anything observable by `Progress`. -/
theorem progress_of_replace_last_same_ops (c c' : Compiler) (lf f : CompilerFrame)
    (hlf : c.frames.getLast? = some lf)
    (hfr : c'.frames = c.frames.dropLast ++ [f])
    (hops : f.opcodes = lf.opcodes) :
    Progress c c' :=
  progress_of_replace_last c c' lf f hlf hfr ⟨[], by simp [hops], by simp [CrashFree]⟩

end Maxlang

namespace Maxlang

theorem unwrapC_ok (r : CRes α) (a : α) (h : unwrapC r = .ok a) : r = .ok a := by
  cases r with
  | ok b => rw [Except.ok.inj h]
  | error e => exact absurd h (by simp [unwrapC])

/-- The state-reading helpers succeed only by returning the last frame. -/
theorem clear_unused_locals_progress (c c' : Compiler)
    (h : c.clear_unused_locals = .ok c') : Progress c c' := by
  unfold Compiler.clear_unused_locals at h
  cases hlf : c.last_frame_or_no_frames with
  | error e => rw [hlf] at h; simp [Bind.bind, Except.bind] at h
  | ok f =>
      rw [hlf] at h
      simp only [Bind.bind, Except.bind] at h
      exact progress_of_replace_last_same_ops c c' f _ (last_frame_or_no_frames_eq c f hlf)
        (set_last_frame_shape _ _ _ h) rfl

theorem drop_register_progress (c : Compiler) (i : ValueIndex) (c' : Compiler)
    (h : c.drop_register i = .ok c') : Progress c c' := by
  unfold Compiler.drop_register at h
  cases i with
  | Register r =>
      simp only [Bind.bind, Except.bind] at h
      cases hlf : c.last_frame_unwrap with
      | error e => rw [hlf] at h; simp at h
      | ok f =>
      rw [hlf] at h
      dsimp only at h
      cases hget : f.locals.get? r.val with
      | none => rw [hget] at h; simp at h
      | some l =>
          rw [hget] at h
          dsimp only at h
          split at h
          · exact progress_of_replace_last_same_ops c c' f _
              (last_frame_unwrap_eq c f hlf) (set_last_frame_shape _ _ _ h) rfl
          · cases h; exact Progress.refl c
  | Constant con => cases h; exact Progress.refl c
  | Capture cap => cases h; exact Progress.refl c

theorem increase_scope_progress (c c' : Compiler)
    (h : c.increase_scope = .ok c') : Progress c c' := by
  unfold Compiler.increase_scope at h
  cases hlf : c.last_frame_unwrap with
  | error e => rw [hlf] at h; simp [Bind.bind, Except.bind] at h
  | ok f =>
      rw [hlf] at h
      simp only [Bind.bind, Except.bind] at h
      exact progress_of_replace_last_same_ops c c' f _ (last_frame_unwrap_eq c f hlf)
        (set_last_frame_shape _ _ _ h) rfl

theorem reduce_scope_progress (c c' : Compiler)
    (h : c.reduce_scope = .ok c') : Progress c c' := by
  unfold Compiler.reduce_scope at h
  cases hlf : c.last_frame_unwrap with
  | error e => rw [hlf] at h; simp [Bind.bind, Except.bind] at h
  | ok f =>
      rw [hlf] at h
      simp only [Bind.bind, Except.bind] at h
      exact progress_of_replace_last_same_ops c c' f _ (last_frame_unwrap_eq c f hlf)
        (set_last_frame_shape _ _ _ h) rfl

theorem assign_name_progress (c : Compiler) (s : String) (r : ValueIndex) (c' : Compiler)
    (h : c.assign_name s r = .ok c') : Progress c c' := by
  unfold Compiler.assign_name at h
  cases hlf : c.last_frame_or_no_frames with
  | error e => rw [hlf] at h; simp [Bind.bind, Except.bind] at h
  | ok f =>
      rw [hlf] at h
      simp only [Bind.bind, Except.bind] at h
      exact progress_of_replace_last_same_ops c c' f _ (last_frame_or_no_frames_eq c f hlf)
        (set_last_frame_shape _ _ _ h) rfl

theorem reserve_next_free_register_progress (c : Compiler) (r : RegisterIndex) (c' : Compiler)
    (h : c.reserve_next_free_register = .ok (r, c')) : Progress c c' := by
  unfold Compiler.reserve_next_free_register at h
  cases hlf : c.last_frame_or_no_frames with
  | error e => rw [hlf] at h; simp [Bind.bind, Except.bind] at h
  | ok f =>
  rw [hlf] at h
  simp only [Bind.bind, Except.bind] at h
  cases hs : c.set_last_frame (f.reserve_next_free_register).2 with
  | error e => rw [hs] at h; simp at h
  | ok c1 =>
      rw [hs] at h
      simp at h
      obtain ⟨rfl, rfl⟩ := h
      refine progress_of_replace_last_same_ops c _ f _ (last_frame_or_no_frames_eq c f hlf)
        (set_last_frame_shape _ _ _ hs) ?_
      unfold CompilerFrame.reserve_next_free_register
      cases hidx : f.locals.findIdx? (fun l => l == Local.None) <;> rfl

theorem compile_literal_progress (c : Compiler) (pos : Option RegisterIndex) (lit : Literal)
    (vi : ValueIndex) (c' : Compiler)
    (h : c.compile_literal pos lit = .ok (vi, c')) : Progress c c' := by
  unfold Compiler.compile_literal at h
  cases hlf : c.last_frame_unwrap with
  | error e => rw [hlf] at h; simp [Bind.bind, Except.bind] at h
  | ok f =>
  rw [hlf] at h
  simp only [Bind.bind, Except.bind] at h
  cases hcl : f.compile_literal pos lit with
  | error e => rw [hcl] at h; simp at h
  | ok p =>
  rw [hcl] at h
  dsimp only at h
  cases hs : c.set_last_frame p.2 with
  | error e => rw [hs] at h; simp at h
  | ok c1 =>
  rw [hs] at h
  simp at h
  obtain ⟨rfl, rfl⟩ := h
  refine progress_of_replace_last c _ f _ (last_frame_unwrap_eq c f hlf)
    (set_last_frame_shape _ _ _ hs) ?_
  unfold CompilerFrame.compile_literal CompilerFrame.add_literal at hcl
  cases hv : valueFromLiteral lit with
  | error e => rw [hv] at hcl; simp [Bind.bind, Except.bind] at hcl
  | ok v =>
      rw [hv] at hcl
      simp only [Bind.bind, Except.bind] at hcl
      cases pos with
      | some p0 =>
          simp at hcl
          obtain ⟨-, rfl⟩ := hcl
          exact ⟨[.CopyValue (.Constant ⟨toU8 f.constants.length⟩) p0], rfl, by simp [CrashFree]⟩
      | none =>
          simp at hcl
          obtain ⟨-, rfl⟩ := hcl
          exact ⟨[], by simp, by simp [CrashFree]⟩

end Maxlang

namespace Maxlang

/-- resolve_capture changes only the capture list of a frame. -/
theorem resolve_capture_preserves (f : CompilerFrame) (i : ValueIndex) :
    (f.resolve_capture i).2.opcodes = f.opcodes ∧
    (f.resolve_capture i).2.functions = f.functions ∧
    (f.resolve_capture i).2.names = f.names ∧
    (f.resolve_capture i).2.locals = f.locals ∧
    (f.resolve_capture i).2.depth = f.depth ∧
    (f.resolve_capture i).2.constants = f.constants := by
  unfold CompilerFrame.resolve_capture
  cases hidx : f.captures.findIdx? (fun c => c == i) <;> exact ⟨rfl, rfl, rfl, rfl, rfl, rfl⟩

theorem progress_of_set_captures (c : Compiler) (i : Nat) (f0 f1 : CompilerFrame)
    (hget : c.frames.get? i = some f0)
    (hops : f1.opcodes = f0.opcodes) (hfns : f1.functions = f0.functions) :
    Progress c { frames := c.frames.set i f1 } := by
  have hilt : i < c.frames.length := by
    rw [List.get?_eq_getElem?] at hget
    exact (List.getElem?_eq_some.mp hget).1
  refine ⟨by simp, ?_, ?_⟩
  · intro j hj
    by_cases hij : i = j
    · subst hij
      simp only [List.get?_eq_getElem?]
      rw [List.getElem?_set_eq_of_lt f1 hilt]
      rw [List.get?_eq_getElem?] at hget
      rw [hget]
      simp [hops, hfns]
    · simp only [List.get?_eq_getElem?]
      rw [List.getElem?_set_ne (fun hh => hij hh)]
      exact ⟨rfl, rfl⟩
  · intro lf hlf
    have hlen0 : c.frames.length ≠ 0 := by
      intro h0
      rw [getLast?_eq_some_iff] at hlf
      obtain ⟨l0, hl0⟩ := hlf
      rw [hl0] at h0
      simp at h0
    have hgl : c.frames.getLast? = c.frames.get? (c.frames.length - 1) := by
      rw [List.getLast?_eq_getElem?, List.get?_eq_getElem?]
    have hgl' : (c.frames.set i f1).getLast? = (c.frames.set i f1).get? (c.frames.length - 1) := by
      rw [List.getLast?_eq_getElem?, List.get?_eq_getElem?]
      simp
    by_cases hij : i = c.frames.length - 1
    · subst hij
      refine ⟨f1, [], ?_, ?_, by simp [CrashFree]⟩
      · rw [hgl']
        simp only [List.get?_eq_getElem?]
        rw [List.getElem?_set_eq_of_lt f1 hilt]
      · rw [hgl, hget] at hlf
        cases Option.some_inj.mp hlf
        simp [hops]
    · refine ⟨lf, [], ?_, by simp, by simp [CrashFree]⟩
      rw [hgl']
      simp only [List.get?_eq_getElem?]
      rw [List.getElem?_set_ne (fun hh => hij hh)]
      rw [hgl] at hlf
      rw [List.get?_eq_getElem?] at hlf
      exact hlf

theorem resolve_capture_at_progress (c : Compiler) (i : Nat) (vi : ValueIndex) :
    Progress c (c.resolve_capture_at i vi).2 := by
  unfold Compiler.resolve_capture_at
  cases hget : c.frames.get? i with
  | none => exact Progress.refl c
  | some f =>
      dsimp only
      have hp := resolve_capture_preserves f vi
      exact progress_of_set_captures c i f _ hget hp.1 hp.2.1

theorem find_nonlocal_symbol_progress (symbol : String) :
    ∀ (frame : Nat) (c : Compiler), Progress c (c.find_nonlocal_symbol frame symbol).2 := by
  intro frame
  induction frame with
  | zero => intro c; exact Progress.refl c
  | succ parent ih =>
      intro c
      unfold Compiler.find_nonlocal_symbol
      cases hfl : c.find_local_symbol parent symbol with
      | some i =>
          dsimp only
          exact resolve_capture_at_progress c (parent + 1) i
      | none =>
          dsimp only
          cases hfn : c.find_nonlocal_symbol parent symbol with
          | mk oi c1 =>
              cases oi with
              | some i =>
                  dsimp only
                  have h1 : Progress c c1 := by
                    have := ih c
                    rw [hfn] at this
                    exact this
                  exact h1.trans (resolve_capture_at_progress c1 (parent + 1) i)
              | none =>
                  dsimp only
                  have := ih c
                  rw [hfn] at this
                  exact this

theorem resolve_symbol_progress (c : Compiler) (symbol : String) :
    Progress c (c.resolve_symbol symbol).2 := by
  unfold Compiler.resolve_symbol
  dsimp only
  cases hfl : c.find_local_symbol (c.frames.length - 1) symbol with
  | some i => exact Progress.refl c
  | none => exact find_nonlocal_symbol_progress symbol (c.frames.length - 1) c

theorem resolve_native_symbol_progress (c : Compiler) (pos : Option RegisterIndex)
    (symbol : String) (r : RegisterIndex) (c' : Compiler)
    (h : c.resolve_native_symbol pos symbol = .ok (r, c')) : Progress c c' := by
  unfold Compiler.resolve_native_symbol at h
  cases hns : NativeFunction.resolve_symbol symbol with
  | none => rw [hns] at h; simp at h
  | some func =>
  rw [hns] at h
  simp only [Bind.bind, Except.bind] at h
  cases pos with
  | some p =>
      dsimp only at h
      cases hpo : c.push_opcode (.InsertNativeFunction func p) with
      | error e => rw [hpo] at h; simp at h
      | ok p2 =>
          obtain ⟨a2, b2⟩ := p2
          rw [hpo] at h
          simp at h
          obtain ⟨rfl, rfl⟩ := h
          exact push_opcode_progress c _ a2 _ (by simp) hpo
  | none =>
      dsimp only at h
      cases hres : unwrapC c.reserve_next_free_register with
      | error e => rw [hres] at h; simp at h
      | ok pr =>
      obtain ⟨r0, c1⟩ := pr
      rw [hres] at h
      dsimp only at h
      have hp1 : Progress c c1 := reserve_next_free_register_progress c r0 c1 (unwrapC_ok _ _ hres)
      cases hpo : c1.push_opcode (.InsertNativeFunction func r0) with
      | error e => rw [hpo] at h; simp at h
      | ok p2 =>
          obtain ⟨a2, b2⟩ := p2
          rw [hpo] at h
          simp at h
          obtain ⟨rfl, rfl⟩ := h
          exact hp1.trans (push_opcode_progress c1 _ a2 _ (by simp) hpo)

end Maxlang

namespace Maxlang

theorem compile_symbol_progress (c : Compiler) (pos : Option RegisterIndex)
    (symbol : String) (vi : ValueIndex) (c' : Compiler)
    (h : c.compile_symbol pos symbol = .ok (vi, c')) : Progress c c' := by
  unfold Compiler.compile_symbol at h
  cases hrs : c.resolve_symbol symbol with
  | mk oi c1 =>
  have hp1 : Progress c c1 := by
    have := resolve_symbol_progress c symbol
    rw [hrs] at this
    exact this
  rw [hrs] at h
  cases oi with
  | some i =>
      dsimp only at h
      cases pos with
      | some p =>
          dsimp only at h
          split at h
          · simp at h
            obtain ⟨rfl, rfl⟩ := h
            exact hp1
          · simp only [Bind.bind, Except.bind] at h
            cases hpo : c1.push_opcode (.CopyValue i p) with
            | error e => rw [hpo] at h; simp at h
            | ok p2 =>
                obtain ⟨a2, b2⟩ := p2
                rw [hpo] at h
                simp at h
                obtain ⟨rfl, rfl⟩ := h
                exact hp1.trans (push_opcode_progress c1 _ a2 _ (by simp) hpo)
      | none =>
          simp at h
          obtain ⟨rfl, rfl⟩ := h
          exact hp1
  | none =>
      dsimp only at h
      simp only [Bind.bind, Except.bind] at h
      cases hrn : c1.resolve_native_symbol pos symbol with
      | error e => rw [hrn] at h; simp at h
      | ok p2 =>
          obtain ⟨a2, b2⟩ := p2
          rw [hrn] at h
          simp at h
          obtain ⟨rfl, rfl⟩ := h
          exact hp1.trans (resolve_native_symbol_progress c1 pos symbol a2 _ hrn)

theorem compile_literal_c_progress (c : Compiler) (pos : Option RegisterIndex)
    (lit : Literal) (vi : ValueIndex) (c' : Compiler)
    (h : c.compile_literal pos lit = .ok (vi, c')) : Progress c c' :=
  compile_literal_progress c pos lit vi c' h

theorem declare_recursive_symbol_progress (c : Compiler) (pos : Option RegisterIndex)
    (symbol : String) (r : RegisterIndex) (c' : Compiler)
    (h : c.declare_recursive_symbol pos symbol = .ok (r, c')) : Progress c c' := by
  unfold Compiler.declare_recursive_symbol at h
  simp only [Bind.bind, Except.bind] at h
  cases pos with
  | some p =>
      dsimp only at h
      cases hpo : c.push_opcode (.DeclareRecursive p) with
      | error e => rw [hpo] at h; simp at h
      | ok p2 =>
      obtain ⟨a2, c2⟩ := p2
      rw [hpo] at h
      dsimp only at h
      cases han : unwrapC (c2.assign_name symbol (.Register p)) with
      | error e => rw [han] at h; simp at h
      | ok c3 =>
          rw [han] at h
          simp at h
          obtain ⟨rfl, rfl⟩ := h
          exact (push_opcode_progress c _ a2 c2 (by simp) hpo).trans
            (assign_name_progress c2 symbol (.Register p) _ (unwrapC_ok _ _ han))
  | none =>
      dsimp only at h
      cases hres : unwrapC c.reserve_next_free_register with
      | error e => rw [hres] at h; simp at h
      | ok pr =>
      obtain ⟨r0, c1⟩ := pr
      rw [hres] at h
      dsimp only at h
      have hp1 : Progress c c1 := reserve_next_free_register_progress c r0 c1 (unwrapC_ok _ _ hres)
      cases hpo : c1.push_opcode (.DeclareRecursive r0) with
      | error e => rw [hpo] at h; simp at h
      | ok p2 =>
      obtain ⟨a2, c2⟩ := p2
      rw [hpo] at h
      dsimp only at h
      cases han : unwrapC (c2.assign_name symbol (.Register r0)) with
      | error e => rw [han] at h; simp at h
      | ok c3 =>
          rw [han] at h
          simp at h
          obtain ⟨rfl, rfl⟩ := h
          exact (hp1.trans (push_opcode_progress c1 _ a2 c2 (by simp) hpo)).trans
            (assign_name_progress c2 symbol (.Register r0) _ (unwrapC_ok _ _ han))

theorem declare_recursive_symbols_progress :
    ∀ (symbols : List String) (c : Compiler) (rs : List RegisterIndex) (c' : Compiler),
      c.declare_recursive_symbols symbols = .ok (rs, c') → Progress c c' := by
  intro symbols
  induction symbols with
  | nil =>
      intro c rs c' h
      unfold Compiler.declare_recursive_symbols at h
      simp at h
      obtain ⟨rfl, rfl⟩ := h
      exact Progress.refl c
  | cons s rest ih =>
      intro c rs c' h
      unfold Compiler.declare_recursive_symbols at h
      simp only [Bind.bind, Except.bind] at h
      cases hd : c.declare_recursive_symbol Option.none s with
      | error e => rw [hd] at h; simp at h
      | ok p1 =>
      obtain ⟨r1, c1⟩ := p1
      rw [hd] at h
      dsimp only at h
      cases hrest : c1.declare_recursive_symbols rest with
      | error e => rw [hrest] at h; simp at h
      | ok p2 =>
          obtain ⟨rs2, c2⟩ := p2
          rw [hrest] at h
          simp at h
          obtain ⟨rfl, rfl⟩ := h
          exact (declare_recursive_symbol_progress c Option.none s r1 c1 hd).trans
            (ih c1 rs2 _ hrest)

theorem push_call_arguments_progress :
    ∀ (indices : List ValueIndex) (c : Compiler) (c' : Compiler),
      c.push_call_arguments indices = .ok c' → Progress c c' := by
  intro indices
  induction indices with
  | nil =>
      intro c c' h
      unfold Compiler.push_call_arguments at h
      simp at h
      rw [h]
      exact Progress.refl c'
  | cons i rest ih =>
      intro c c' h
      unfold Compiler.push_call_arguments at h
      simp only [Bind.bind, Except.bind] at h
      cases hpo : c.push_opcode (.CallArgument i) with
      | error e => rw [hpo] at h; simp at h
      | ok p1 =>
          obtain ⟨a1, c1⟩ := p1
          rw [hpo] at h
          dsimp only at h
          exact (push_opcode_progress c _ a1 c1 (by simp) hpo).trans (ih c1 c' h)

theorem push_capture_values_progress :
    ∀ (captures : List ValueIndex) (c : Compiler) (c' : Compiler),
      c.push_capture_values captures = .ok c' → Progress c c' := by
  intro captures
  induction captures with
  | nil =>
      intro c c' h
      unfold Compiler.push_capture_values at h
      simp at h
      rw [h]
      exact Progress.refl c'
  | cons i rest ih =>
      intro c c' h
      unfold Compiler.push_capture_values at h
      simp only [Bind.bind, Except.bind] at h
      cases hpo : c.push_opcode (.CaptureValue i) with
      | error e => rw [hpo] at h; simp at h
      | ok p1 =>
          obtain ⟨a1, c1⟩ := p1
          rw [hpo] at h
          dsimp only at h
          exact (push_opcode_progress c _ a1 c1 (by simp) hpo).trans (ih c1 c' h)

theorem drop_registers_progress :
    ∀ (indices : List ValueIndex) (c : Compiler) (c' : Compiler),
      c.drop_registers indices = .ok c' → Progress c c' := by
  intro indices
  induction indices with
  | nil =>
      intro c c' h
      unfold Compiler.drop_registers at h
      simp at h
      rw [h]
      exact Progress.refl c'
  | cons i rest ih =>
      intro c c' h
      unfold Compiler.drop_registers at h
      simp only [Bind.bind, Except.bind] at h
      cases hdr : c.drop_register i with
      | error e => rw [hdr] at h; simp at h
      | ok c1 =>
          rw [hdr] at h
          dsimp only at h
          exact (drop_register_progress c i c1 hdr).trans (ih c1 c' h)

end Maxlang

namespace Maxlang

/-- The effect of the final backpatch loop of compile_condition: stack
height and lower frames unchanged; in the top frame, positions outside
the patch list are unchanged and every position in the patch list holds
an unconditional `Jump` afterwards. -/
theorem patch_end_jumps_spec :
    ∀ (jep : List Nat) (c c' : Compiler), c.patch_end_jumps jep = .ok c' →
      c'.frames.length = c.frames.length ∧ belowPreserved c c' ∧
      ∀ lf, c.frames.getLast? = some lf →
        ∃ lf', c'.frames.getLast? = some lf' ∧
          lf'.functions = lf.functions ∧
          lf'.opcodes.length = lf.opcodes.length ∧
          (∀ j, j ∉ jep → lf'.opcodes.get? j = lf.opcodes.get? j) ∧
          (∀ j, j ∈ jep → ∃ off, lf'.opcodes.get? j = some (.Jump off)) := by
  intro jep
  induction jep with
  | nil =>
      intro c c' h
      unfold Compiler.patch_end_jumps at h
      simp at h
      subst h
      refine ⟨rfl, fun i hi => ⟨rfl, rfl⟩, fun lf hlf => ⟨lf, hlf, rfl, rfl, fun j _ => rfl, fun j hj => absurd hj (List.not_mem_nil j)⟩⟩
  | cons p rest ih =>
      intro c c' h
      unfold Compiler.patch_end_jumps at h
      simp only [Bind.bind, Except.bind] at h
      cases hlfu : c.last_frame_unwrap with
      | error e => rw [hlfu] at h; simp at h
      | ok f =>
      rw [hlfu] at h
      dsimp only at h
      cases hpa : c.patch_opcode p (.Jump (toI16 (f.opcodes.length - p))) with
      | error e => rw [hpa] at h; simp at h
      | ok c1 =>
      rw [hpa] at h
      dsimp only at h
      obtain ⟨lf, hlf, hplt, hshape⟩ := patch_opcode_spec c p _ c1 hpa
      have hlf_eq : f = lf := by
        rw [last_frame_unwrap_eq c f hlfu] at hlf
        exact Option.some_inj.mp hlf.symm |>.symm
      subst hlf_eq
      obtain ⟨l0, hl0⟩ := getLast?_eq_some_iff.mp hlf
      have hlen1 : c1.frames.length = c.frames.length := by
        rw [hshape, hl0]
        simp
      have hlast1 : c1.frames.getLast? = some { f with opcodes := f.opcodes.set p (.Jump (toI16 (f.opcodes.length - p))) } := by
        rw [hshape]
        simp
      obtain ⟨hlen2, hbelow2, hlast2⟩ := ih c1 c' h
      refine ⟨hlen2.trans hlen1, ?_, ?_⟩
      · intro i hi
        have hb1 : (c.frames.get? i).map CompilerFrame.opcodes = (c1.frames.get? i).map CompilerFrame.opcodes ∧ (c.frames.get? i).map CompilerFrame.functions = (c1.frames.get? i).map CompilerFrame.functions := by
          rw [hshape, dropLast_append_get? c.frames f _ l0 hl0 i hi]
          exact ⟨rfl, rfl⟩
        have hi1 : i + 1 < c1.frames.length := by omega
        exact ⟨hb1.1.trans (hbelow2 i hi1).1, hb1.2.trans (hbelow2 i hi1).2⟩
      · intro lf0 hlf0
        rw [hlf0] at hlf
        cases Option.some_inj.mp hlf
        obtain ⟨lf', hlf', hfns, hlen', hout, hin⟩ := hlast2 _ hlast1
        refine ⟨lf', hlf', hfns, by simpa using hlen', ?_, ?_⟩
        · intro j hj
          have hjp : j ≠ p := fun hh => hj (by rw [hh]; exact List.mem_cons_self p rest)
          have hjr : j ∉ rest := fun hh => hj (List.mem_cons_of_mem p hh)
          rw [hout j hjr]
          dsimp only
          rw [List.get?_eq_getElem?, List.get?_eq_getElem?, List.getElem?_set_ne (fun hh => hjp hh.symm)]
        · intro j hj
          rcases List.mem_cons.mp hj with rfl | hjr
          · by_cases hjr2 : j ∈ rest
            · exact hin j hjr2
            · refine ⟨toI16 (f.opcodes.length - j), ?_⟩
              rw [hout j hjr2]
              dsimp only
              rw [List.get?_eq_getElem?, List.getElem?_set_eq_of_lt _ hplt]
          · exact hin j hjr

end Maxlang

namespace Maxlang

/-- Opcode-list evolution during the clause loop of compile_condition:
`B` extends `A`, and any Crash sitting at or beyond `A`'s end lies at one
of the allowed (recorded, to-be-patched) positions. -/
def ExtCrashIn (A B : List OpCode) (allowed : List Nat) : Prop :=
  (∃ S, B = A ++ S) ∧ ∀ j, A.length ≤ j → B.get? j = some .Crash → j ∈ allowed

theorem ExtCrashIn.of_crash_free (A : List OpCode) (S : List OpCode) (hcf : CrashFree S)
    (allowed : List Nat) : ExtCrashIn A (A ++ S) allowed := by
  refine ⟨⟨S, rfl⟩, fun j hj hget => ?_⟩
  rw [List.get?_eq_getElem?] at hget
  rcases List.getElem?_eq_some.mp hget with ⟨hlt, hval⟩
  rw [List.getElem_append_right hj] at hval
  exact absurd (hval ▸ List.getElem_mem _) hcf

theorem ExtCrashIn.chain {A B C : List OpCode} {allowed : List Nat}
    (h1 : ExtCrashIn A B allowed) (h2 : ExtCrashIn B C allowed) :
    ExtCrashIn A C allowed := by
  obtain ⟨⟨S1, hS1⟩, hc1⟩ := h1
  obtain ⟨⟨S2, hS2⟩, hc2⟩ := h2
  refine ⟨⟨S1 ++ S2, by rw [hS2, hS1, List.append_assoc]⟩, fun j hj hget => ?_⟩
  by_cases hjb : j < B.length
  · have : C.get? j = B.get? j := by
      rw [hS2, List.get?_eq_getElem?, List.get?_eq_getElem?, List.getElem?_append_left hjb]
    exact hc1 j hj (this ▸ hget)
  · exact hc2 j (by omega) hget

theorem ExtCrashIn.mono {A B : List OpCode} {al al' : List Nat}
    (h : ExtCrashIn A B al) (hsub : ∀ p ∈ al, p ∈ al') : ExtCrashIn A B al' :=
  ⟨h.1, fun j hj hget => hsub j (h.2 j hj hget)⟩

theorem ExtCrashIn.push_crash {A B : List OpCode} {allowed : List Nat}
    (h : ExtCrashIn A B allowed) (hmem : B.length ∈ allowed) :
    ExtCrashIn A (B ++ [OpCode.Crash]) allowed := by
  obtain ⟨⟨S, hS⟩, hc⟩ := h
  refine ⟨⟨S ++ [OpCode.Crash], by rw [hS, List.append_assoc]⟩, fun j hj hget => ?_⟩
  by_cases hjb : j < B.length
  · have : (B ++ [OpCode.Crash]).get? j = B.get? j := by
      rw [List.get?_eq_getElem?, List.get?_eq_getElem?, List.getElem?_append_left hjb]
    exact hc j hj (this ▸ hget)
  · rw [List.get?_eq_getElem?] at hget
    rcases List.getElem?_eq_some.mp hget with ⟨hlt, hval⟩
    simp only [List.length_append, List.length_singleton] at hlt
    have hjeq : j = B.length := by omega
    rw [hjeq]
    exact hmem

theorem ExtCrashIn.set_non_crash {A B : List OpCode} {allowed : List Nat}
    (h : ExtCrashIn A B allowed) (p : Nat) (op : OpCode) (hop : op ≠ .Crash)
    (hp : A.length ≤ p) : ExtCrashIn A (B.set p op) allowed := by
  obtain ⟨⟨S, hS⟩, hc⟩ := h
  refine ⟨⟨S.set (p - A.length) op, by rw [hS, List.set_append_right _ _ hp]⟩, fun j hj hget => ?_⟩
  by_cases hjp : j = p
  · subst hjp
    by_cases hjlt : j < B.length
    · rw [List.get?_eq_getElem?, List.getElem?_set_eq_of_lt op hjlt] at hget
      exact absurd (Option.some_inj.mp hget) hop
    · rw [List.get?_eq_getElem?] at hget
      rcases List.getElem?_eq_some.mp hget with ⟨hlt, -⟩
      simp at hlt
      omega
  · have : (B.set p op).get? j = B.get? j := by
      rw [List.get?_eq_getElem?, List.get?_eq_getElem?, List.getElem?_set_ne (fun hh => hjp hh.symm)]
    exact hc j hj (this ▸ hget)

/-- Extract an append decomposition from pointwise prefix agreement. -/
theorem exists_suffix_of_prefix_agree (base F : List OpCode) (hlen : base.length ≤ F.length)
    (hagree : ∀ j, j < base.length → F.get? j = base.get? j) : ∃ S, F = base ++ S := by
  refine ⟨F.drop base.length, ?_⟩
  have htake : F.take base.length = base := by
    apply List.ext_get?
    intro j
    by_cases hj : j < base.length
    · rw [List.get?_eq_getElem?, List.getElem?_take, if_pos hj]
      rw [← List.get?_eq_getElem?, hagree j hj]
    · rw [List.get?_eq_getElem?, List.getElem?_take, if_neg hj,
        List.get?_eq_getElem?, List.getElem?_eq_none (by omega)]
  conv_lhs => rw [← List.take_append_drop base.length F]
  rw [htake]

end Maxlang

namespace Maxlang

def P_expr (fuel : Nat) : Prop :=
  ∀ c pos e tail r c', compile_expression fuel c pos e tail = .ok (r, c') → Progress c c'

def P_args (fuel : Nat) : Prop :=
  ∀ c args r c', compile_arguments fuel c args = .ok (r, c') → Progress c c'

def P_call (fuel : Nat) : Prop :=
  ∀ c pos f args tail r c', compile_call fuel c pos f args tail = .ok (r, c') → Progress c c'

def P_fun (fuel : Nat) : Prop :=
  ∀ c pos args body r c', compile_function fuel c pos args body = .ok (r, c') → Progress c c'

def P_clauses (fuel : Nat) : Prop :=
  ∀ c rp clauses tail jep r c',
    compile_condition_clauses fuel c rp clauses tail jep = .ok (r, c') →
    c'.frames.length = c.frames.length ∧ belowPreserved c c' ∧
    (∃ pre, r = jep ++ pre) ∧
    ∀ lf, c.frames.getLast? = some lf →
      ∃ lf', c'.frames.getLast? = some lf' ∧
        ExtCrashIn lf.opcodes lf'.opcodes r ∧
        ∀ p, p ∈ r → p ∈ jep ∨ lf.opcodes.length ≤ p

def P_cond (fuel : Nat) : Prop :=
  ∀ c pos clauses otherwise tail r c',
    compile_condition fuel c pos clauses otherwise tail = .ok (r, c') → Progress c c'

def P_recb (fuel : Nat) : Prop :=
  ∀ c items c', compile_rec_bindings fuel c items = .ok c' → Progress c c'

def P_reclet (fuel : Nat) : Prop :=
  ∀ c pos pairs tail r c',
    compile_recursive_let fuel c pos pairs tail = .ok (r, c') → Progress c c'

def P_nrign (fuel : Nat) : Prop :=
  ∀ c pairs c', compile_nonrec_ignored fuel c pairs = .ok c' → Progress c c'

def P_nrlet (fuel : Nat) : Prop :=
  ∀ c pos pairs tail r c',
    compile_non_recursive_let fuel c pos pairs tail = .ok (r, c') → Progress c c'

def P_let (fuel : Nat) : Prop :=
  ∀ c recursive pos pairs tail r c',
    compile_let fuel c recursive pos pairs tail = .ok (r, c') → Progress c c'

def P_ign (fuel : Nat) : Prop :=
  ∀ c es c', compile_and_ignore_expressions fuel c es = .ok c' → Progress c c'

def P_blk (fuel : Nat) : Prop :=
  ∀ c si pos ign last tail r c',
    compile_block fuel c si pos ign last tail = .ok (r, c') → Progress c c'

def MasterStmt (fuel : Nat) : Prop :=
  P_expr fuel ∧ P_args fuel ∧ P_call fuel ∧ P_fun fuel ∧ P_clauses fuel ∧ P_cond fuel ∧
  P_recb fuel ∧ P_reclet fuel ∧ P_nrign fuel ∧ P_nrlet fuel ∧ P_let fuel ∧ P_ign fuel ∧
  P_blk fuel

theorem master_zero : MasterStmt 0 := by
  refine ⟨?_, ?_, ?_, ?_, ?_, ?_, ?_, ?_, ?_, ?_, ?_, ?_, ?_⟩
  · intro c pos e tail r c' h; exact Except.noConfusion h
  · intro c args r c' h; exact Except.noConfusion h
  · intro c pos f args tail r c' h; exact Except.noConfusion h
  · intro c pos args body r c' h; exact Except.noConfusion h
  · intro c rp clauses tail jep r c' h; exact Except.noConfusion h
  · intro c pos clauses otherwise tail r c' h; exact Except.noConfusion h
  · intro c items c' h; exact Except.noConfusion h
  · intro c pos pairs tail r c' h; exact Except.noConfusion h
  · intro c pairs c' h; exact Except.noConfusion h
  · intro c pos pairs tail r c' h; exact Except.noConfusion h
  · intro c recursive pos pairs tail r c' h; exact Except.noConfusion h
  · intro c es c' h; exact Except.noConfusion h
  · intro c si pos ign last tail r c' h; exact Except.noConfusion h

end Maxlang

namespace Maxlang

theorem step_args (n : Nat) (he : P_expr n) (ha : P_args n) : P_args (n + 1) := by
  intro c args r c' h
  unfold compile_arguments at h
  cases args with
  | nil =>
      simp at h
      obtain ⟨rfl, rfl⟩ := h
      exact Progress.refl c
  | cons a rest =>
      simp only [Bind.bind, Except.bind] at h
      cases h1 : compile_expression n c Option.none a false with
      | error e => rw [h1] at h; simp at h
      | ok p1 =>
      obtain ⟨io, c1⟩ := p1
      rw [h1] at h
      dsimp only at h
      cases io with
      | none => simp at h
      | some i =>
      dsimp only at h
      cases h2 : compile_arguments n c1 rest with
      | error e => rw [h2] at h; simp at h
      | ok p2 =>
          obtain ⟨ri, c2⟩ := p2
          rw [h2] at h
          simp at h
          obtain ⟨rfl, rfl⟩ := h
          exact (he c Option.none a false (some i) c1 h1).trans (ha c1 rest ri _ h2)

theorem step_recb (n : Nat) (he : P_expr n) (hr : P_recb n) : P_recb (n + 1) := by
  intro c items c' h
  unfold compile_rec_bindings at h
  cases items with
  | nil =>
      simp at h
      rw [h]
      exact Progress.refl c'
  | cons it rest =>
      obtain ⟨p, s, e⟩ := it
      simp only [Bind.bind, Except.bind] at h
      cases h1 : compile_expression n c Option.none e false with
      | error e2 => rw [h1] at h; simp at h
      | ok p1 =>
      obtain ⟨io, c1⟩ := p1
      rw [h1] at h
      dsimp only at h
      cases io with
      | none => simp at h
      | some i =>
      dsimp only at h
      cases h2 : c1.push_opcode (.FillRecursive i p) with
      | error e2 => rw [h2] at h; simp at h
      | ok p2 =>
      obtain ⟨a2, c2⟩ := p2
      rw [h2] at h
      dsimp only at h
      cases h3 : c2.clear_unused_locals with
      | error e2 => rw [h3] at h; simp at h
      | ok c3 =>
          rw [h3] at h
          dsimp only at h
          exact ((he c Option.none e false (some i) c1 h1).trans
            (push_opcode_progress c1 _ a2 c2 (by simp) h2)).trans
            ((clear_unused_locals_progress c2 c3 h3).trans (hr c3 rest c' h))

theorem step_nrign (n : Nat) (he : P_expr n) (hni : P_nrign n) : P_nrign (n + 1) := by
  intro c pairs c' h
  unfold compile_nonrec_ignored at h
  cases pairs with
  | nil =>
      simp at h
      rw [h]
      exact Progress.refl c'
  | cons pr rest =>
      obtain ⟨symbol, e⟩ := pr
      simp only [Bind.bind, Except.bind] at h
      cases h1 : compile_expression n c Option.none e false with
      | error e2 => rw [h1] at h; simp at h
      | ok p1 =>
      obtain ⟨io, c1⟩ := p1
      rw [h1] at h
      dsimp only at h
      cases io with
      | none => simp at h
      | some i =>
      dsimp only at h
      cases h2 : c1.assign_name symbol i with
      | error e2 => rw [h2] at h; simp at h
      | ok c2 =>
          rw [h2] at h
          dsimp only at h
          exact ((he c Option.none e false (some i) c1 h1).trans
            (assign_name_progress c1 symbol i c2 h2)).trans (hni c2 rest c' h)

theorem step_ign (n : Nat) (he : P_expr n) (hig : P_ign n) : P_ign (n + 1) := by
  intro c es c' h
  unfold compile_and_ignore_expressions at h
  cases es with
  | nil =>
      simp at h
      rw [h]
      exact Progress.refl c'
  | cons e rest =>
      simp only [Bind.bind, Except.bind] at h
      cases h1 : compile_expression n c Option.none e false with
      | error e2 => rw [h1] at h; simp at h
      | ok p1 =>
      obtain ⟨io, c1⟩ := p1
      rw [h1] at h
      dsimp only at h
      cases io with
      | none => simp at h
      | some i =>
      dsimp only at h
      cases h2 : c1.drop_register i with
      | error e2 => rw [h2] at h; simp at h
      | ok c2 =>
      rw [h2] at h
      dsimp only at h
      cases h3 : c2.clear_unused_locals with
      | error e2 => rw [h3] at h; simp at h
      | ok c3 =>
          rw [h3] at h
          dsimp only at h
          exact ((he c Option.none e false (some i) c1 h1).trans
            (drop_register_progress c1 i c2 h2)).trans
            ((clear_unused_locals_progress c2 c3 h3).trans (hig c3 rest c' h))

theorem step_let (n : Nat) (hrl : P_reclet n) (hnl : P_nrlet n) : P_let (n + 1) := by
  intro c recursive pos pairs tail r c' h
  unfold compile_let at h
  split at h
  · exact hrl c pos pairs tail r c' h
  · exact hnl c pos pairs tail r c' h

theorem step_blk (n : Nat) (he : P_expr n) (hig : P_ign n) : P_blk (n + 1) := by
  intro c si pos ign last tail r c' h
  unfold compile_block at h
  simp only [Bind.bind, Except.bind] at h
  cases si with
  | true =>
      simp only [if_true] at h
      cases hi : c.increase_scope with
      | error e => rw [hi] at h; simp at h
      | ok c1 =>
      rw [hi] at h
      dsimp only at h
      cases h2 : compile_and_ignore_expressions n c1 ign with
      | error e => rw [h2] at h; simp at h
      | ok c2 =>
      rw [h2] at h
      dsimp only at h
      cases h3 : compile_expression n c2 pos last tail with
      | error e => rw [h3] at h; simp at h
      | ok p3 =>
      obtain ⟨res, c3⟩ := p3
      rw [h3] at h
      dsimp only at h
      cases hrd : c3.reduce_scope with
      | error e => rw [hrd] at h; simp at h
      | ok c4 =>
          rw [hrd] at h
          simp at h
          obtain ⟨rfl, rfl⟩ := h
          exact ((increase_scope_progress c c1 hi).trans (hig c1 ign c2 h2)).trans
            ((he c2 pos last tail res c3 h3).trans (reduce_scope_progress c3 _ hrd))
  | false =>
      simp only [Bool.false_eq_true, if_false, pure, Except.pure] at h
      cases h2 : compile_and_ignore_expressions n c ign with
      | error e => rw [h2] at h; simp at h
      | ok c2 =>
      rw [h2] at h
      dsimp only at h
      cases h3 : compile_expression n c2 pos last tail with
      | error e => rw [h3] at h; simp at h
      | ok p3 =>
          obtain ⟨res, c3⟩ := p3
          rw [h3] at h
          simp at h
          obtain ⟨rfl, rfl⟩ := h
          exact (hig c ign c2 h2).trans (he c2 pos last tail res c3 h3)

end Maxlang

namespace Maxlang

theorem step_call (n : Nat) (he : P_expr n) (ha : P_args n) : P_call (n + 1) := by
  intro c pos f args tail r c' h
  unfold compile_call at h
  simp only [Bind.bind, Except.bind] at h
  cases h1 : compile_expression n c Option.none f false with
  | error e => rw [h1] at h; simp at h
  | ok p1 =>
  obtain ⟨fo, c1⟩ := p1
  rw [h1] at h
  dsimp only at h
  cases fo with
  | none => simp at h
  | some fi =>
  dsimp only at h
  cases h2 : compile_arguments n c1 args with
  | error e => rw [h2] at h; simp at h
  | ok p2 =>
  obtain ⟨arg_indices, c2⟩ := p2
  rw [h2] at h
  dsimp only at h
  have hp2 : Progress c c2 :=
    (he c Option.none f false (some fi) c1 h1).trans (ha c1 args arg_indices c2 h2)
  cases tail with
  | true =>
      simp only [if_true] at h
      cases h3 : c2.push_opcode (.TailCall fi) with
      | error e => rw [h3] at h; simp at h
      | ok p3 =>
      obtain ⟨a3, c3⟩ := p3
      rw [h3] at h
      dsimp only at h
      cases h4 : c3.push_call_arguments arg_indices with
      | error e => rw [h4] at h; simp at h
      | ok c4 =>
          rw [h4] at h
          simp at h
          obtain ⟨rfl, rfl⟩ := h
          exact (hp2.trans (push_opcode_progress c2 _ a3 c3 (by simp) h3)).trans
            (push_call_arguments_progress arg_indices c3 _ h4)
  | false =>
      simp only [Bool.false_eq_true, if_false] at h
      cases pos with
      | some p =>
          dsimp only at h
          cases h4 : c2.push_opcode (.Call fi p) with
          | error e => rw [h4] at h; simp at h
          | ok p4 =>
          obtain ⟨a4, c4⟩ := p4
          rw [h4] at h
          dsimp only at h
          cases h5 : c4.push_call_arguments arg_indices with
          | error e => rw [h5] at h; simp at h
          | ok c5 =>
          rw [h5] at h
          dsimp only at h
          cases h6 : c5.drop_registers (arg_indices ++ [fi]) with
          | error e => rw [h6] at h; simp at h
          | ok c6 =>
          rw [h6] at h
          dsimp only at h
          cases h7 : c6.clear_unused_locals with
          | error e => rw [h7] at h; simp at h
          | ok c7 =>
              rw [h7] at h
              simp at h
              obtain ⟨rfl, rfl⟩ := h
              exact ((hp2.trans
                (push_opcode_progress c2 _ a4 c4 (by simp) h4)).trans
                ((push_call_arguments_progress arg_indices c4 c5 h5).trans
                  (drop_registers_progress (arg_indices ++ [fi]) c5 c6 h6))).trans
                (clear_unused_locals_progress c6 _ h7)
      | none =>
          dsimp only at h
          cases hres : unwrapC c2.reserve_next_free_register with
          | error e => rw [hres] at h; simp at h
          | ok pr =>
          obtain ⟨rp, c3⟩ := pr
          rw [hres] at h
          dsimp only at h
          have hp3 : Progress c c3 :=
            hp2.trans (reserve_next_free_register_progress c2 rp c3 (unwrapC_ok _ _ hres))
          cases h4 : c3.push_opcode (.Call fi rp) with
          | error e => rw [h4] at h; simp at h
          | ok p4 =>
          obtain ⟨a4, c4⟩ := p4
          rw [h4] at h
          dsimp only at h
          cases h5 : c4.push_call_arguments arg_indices with
          | error e => rw [h5] at h; simp at h
          | ok c5 =>
          rw [h5] at h
          dsimp only at h
          cases h6 : c5.drop_registers (arg_indices ++ [fi]) with
          | error e => rw [h6] at h; simp at h
          | ok c6 =>
          rw [h6] at h
          dsimp only at h
          cases h7 : c6.clear_unused_locals with
          | error e => rw [h7] at h; simp at h
          | ok c7 =>
              rw [h7] at h
              simp at h
              obtain ⟨rfl, rfl⟩ := h
              exact ((hp3.trans
                (push_opcode_progress c3 _ a4 c4 (by simp) h4)).trans
                ((push_call_arguments_progress arg_indices c4 c5 h5).trans
                  (drop_registers_progress (arg_indices ++ [fi]) c5 c6 h6))).trans
                (clear_unused_locals_progress c6 _ h7)

theorem step_reclet (n : Nat) (he : P_expr n) (hr : P_recb n) : P_reclet (n + 1) := by
  intro c pos pairs tail r c' h
  unfold compile_recursive_let at h
  cases hlast : pairs.getLast? with
  | none => rw [hlast] at h; simp at h
  | some pr =>
  obtain ⟨last_symbol, last_exp⟩ := pr
  rw [hlast] at h
  simp only [Bind.bind, Except.bind] at h
  cases h1 : c.declare_recursive_symbols (pairs.dropLast.map (fun pr => pr.1)) with
  | error e => rw [h1] at h; simp at h
  | ok p1 =>
  obtain ⟨ignored_pointers, c1⟩ := p1
  rw [h1] at h
  dsimp only at h
  cases h2 : c1.declare_recursive_symbol pos last_symbol with
  | error e => rw [h2] at h; simp at h
  | ok p2 =>
  obtain ⟨last_pointer, c2⟩ := p2
  rw [h2] at h
  dsimp only at h
  cases h3 : compile_rec_bindings n c2 (ignored_pointers.zip pairs.dropLast) with
  | error e => rw [h3] at h; simp at h
  | ok c3 =>
  rw [h3] at h
  dsimp only at h
  cases h4 : compile_expression n c3 Option.none last_exp tail with
  | error e => rw [h4] at h; simp at h
  | ok p4 =>
  obtain ⟨po, c4⟩ := p4
  rw [h4] at h
  dsimp only at h
  have hp4 : Progress c c4 :=
    (((declare_recursive_symbols_progress _ c _ c1 h1).trans
      (declare_recursive_symbol_progress c1 pos last_symbol last_pointer c2 h2)).trans
      (hr c2 _ c3 h3)).trans (he c3 Option.none last_exp tail po c4 h4)
  cases po with
  | none =>
      simp at h
      obtain ⟨rfl, rfl⟩ := h
      exact hp4
  | some p =>
      dsimp only at h
      cases h5 : c4.push_opcode (.FillRecursive p last_pointer) with
      | error e => rw [h5] at h; simp at h
      | ok p5 =>
      obtain ⟨a5, c5⟩ := p5
      rw [h5] at h
      simp at h
      obtain ⟨rfl, rfl⟩ := h
      exact hp4.trans (push_opcode_progress c4 _ a5 _ (by simp) h5)

theorem step_nrlet (n : Nat) (he : P_expr n) (hni : P_nrign n) : P_nrlet (n + 1) := by
  intro c pos pairs tail r c' h
  unfold compile_non_recursive_let at h
  cases hlast : pairs.getLast? with
  | none => rw [hlast] at h; simp at h
  | some pr =>
  obtain ⟨last_symbol, last_expression⟩ := pr
  rw [hlast] at h
  simp only [Bind.bind, Except.bind] at h
  cases h1 : compile_nonrec_ignored n c pairs.dropLast with
  | error e => rw [h1] at h; simp at h
  | ok c1 =>
  rw [h1] at h
  dsimp only at h
  cases h2 : compile_expression n c1 pos last_expression tail with
  | error e => rw [h2] at h; simp at h
  | ok p2 =>
  obtain ⟨io, c2⟩ := p2
  rw [h2] at h
  dsimp only at h
  have hp2 : Progress c c2 :=
    (hni c pairs.dropLast c1 h1).trans (he c1 pos last_expression tail io c2 h2)
  cases io with
  | none =>
      simp at h
      obtain ⟨rfl, rfl⟩ := h
      exact hp2
  | some i =>
      dsimp only at h
      cases h3 : unwrapC (c2.assign_name last_symbol i) with
      | error e => rw [h3] at h; simp at h
      | ok c3 =>
      rw [h3] at h
      simp at h
      obtain ⟨rfl, rfl⟩ := h
      exact hp2.trans (assign_name_progress c2 last_symbol i _ (unwrapC_ok _ _ h3))

theorem step_expr (n : Nat) (hc : P_cond n) (hcall : P_call n) (hlet : P_let n)
    (hf : P_fun n) (hb : P_blk n) : P_expr (n + 1) := by
  intro c pos e tail r c' h
  unfold compile_expression at h
  simp only [Bind.bind, Except.bind] at h
  cases e with
  | Condition clauses otherwise =>
      dsimp only at h
      cases h1 : compile_condition n c pos clauses otherwise tail with
      | error e => rw [h1] at h; simp at h
      | ok p1 =>
      obtain ⟨er, c1⟩ := p1
      rw [h1] at h
      dsimp only at h
      have hp1 : Progress c c1 := hc c pos clauses otherwise tail er c1 h1
      cases er with
      | none =>
          simp at h
          obtain ⟨rfl, rfl⟩ := h
          exact hp1
      | some index =>
          dsimp only at h
          cases tail with
          | true =>
              simp only [if_true] at h
              cases hR : c1.push_opcode (.Return index) with
              | error e => rw [hR] at h; simp at h
              | ok p2 =>
              obtain ⟨a2, c2⟩ := p2
              rw [hR] at h
              simp at h
              obtain ⟨rfl, rfl⟩ := h
              exact hp1.trans (push_opcode_progress c1 _ a2 _ (by simp) hR)
          | false =>
              simp only [Bool.false_eq_true, if_false] at h
              simp at h
              obtain ⟨rfl, rfl⟩ := h
              exact hp1
  | Call f as =>
      dsimp only at h
      cases h1 : compile_call n c pos f as tail with
      | error e => rw [h1] at h; simp at h
      | ok p1 =>
      obtain ⟨er, c1⟩ := p1
      rw [h1] at h
      dsimp only at h
      have hp1 : Progress c c1 := hcall c pos f as tail er c1 h1
      cases er with
      | none =>
          simp at h
          obtain ⟨rfl, rfl⟩ := h
          exact hp1
      | some index =>
          dsimp only at h
          cases tail with
          | true =>
              simp only [if_true] at h
              cases hR : c1.push_opcode (.Return index) with
              | error e => rw [hR] at h; simp at h
              | ok p2 =>
              obtain ⟨a2, c2⟩ := p2
              rw [hR] at h
              simp at h
              obtain ⟨rfl, rfl⟩ := h
              exact hp1.trans (push_opcode_progress c1 _ a2 _ (by simp) hR)
          | false =>
              simp only [Bool.false_eq_true, if_false] at h
              simp at h
              obtain ⟨rfl, rfl⟩ := h
              exact hp1
  | Let recursive pairs =>
      dsimp only at h
      cases h1 : compile_let n c recursive pos pairs tail with
      | error e => rw [h1] at h; simp at h
      | ok p1 =>
      obtain ⟨er, c1⟩ := p1
      rw [h1] at h
      dsimp only at h
      have hp1 : Progress c c1 := hlet c recursive pos pairs tail er c1 h1
      cases er with
      | none =>
          simp at h
          obtain ⟨rfl, rfl⟩ := h
          exact hp1
      | some index =>
          dsimp only at h
          cases tail with
          | true =>
              simp only [if_true] at h
              cases hR : c1.push_opcode (.Return index) with
              | error e => rw [hR] at h; simp at h
              | ok p2 =>
              obtain ⟨a2, c2⟩ := p2
              rw [hR] at h
              simp at h
              obtain ⟨rfl, rfl⟩ := h
              exact hp1.trans (push_opcode_progress c1 _ a2 _ (by simp) hR)
          | false =>
              simp only [Bool.false_eq_true, if_false] at h
              simp at h
              obtain ⟨rfl, rfl⟩ := h
              exact hp1
  | Function args body =>
      dsimp only at h
      cases h1 : compile_function n c pos args body with
      | error e => rw [h1] at h; simp at h
      | ok p1 =>
      obtain ⟨vi, c1⟩ := p1
      rw [h1] at h
      dsimp only at h
      have hp1 : Progress c c1 := hf c pos args body vi c1 h1
      cases tail with
      | true =>
          simp only [if_true] at h
          cases hR : c1.push_opcode (.Return vi) with
          | error e => rw [hR] at h; simp at h
          | ok p2 =>
          obtain ⟨a2, c2⟩ := p2
          rw [hR] at h
          simp at h
          obtain ⟨rfl, rfl⟩ := h
          exact hp1.trans (push_opcode_progress c1 _ a2 _ (by simp) hR)
      | false =>
          simp only [Bool.false_eq_true, if_false] at h
          simp at h
          obtain ⟨rfl, rfl⟩ := h
          exact hp1
  | Block si ign last =>
      dsimp only at h
      cases h1 : compile_block n c si pos ign last tail with
      | error e => rw [h1] at h; simp at h
      | ok p1 =>
      obtain ⟨er, c1⟩ := p1
      rw [h1] at h
      dsimp only at h
      have hp1 : Progress c c1 := hb c si pos ign last tail er c1 h1
      cases er with
      | none =>
          simp at h
          obtain ⟨rfl, rfl⟩ := h
          exact hp1
      | some index =>
          dsimp only at h
          cases tail with
          | true =>
              simp only [if_true] at h
              cases hR : c1.push_opcode (.Return index) with
              | error e => rw [hR] at h; simp at h
              | ok p2 =>
              obtain ⟨a2, c2⟩ := p2
              rw [hR] at h
              simp at h
              obtain ⟨rfl, rfl⟩ := h
              exact hp1.trans (push_opcode_progress c1 _ a2 _ (by simp) hR)
          | false =>
              simp only [Bool.false_eq_true, if_false] at h
              simp at h
              obtain ⟨rfl, rfl⟩ := h
              exact hp1
  | Literal lit =>
      dsimp only at h
      cases h1 : c.compile_literal pos lit with
      | error e => rw [h1] at h; simp at h
      | ok p1 =>
      obtain ⟨vi, c1⟩ := p1
      rw [h1] at h
      dsimp only at h
      have hp1 : Progress c c1 := compile_literal_c_progress c pos lit vi c1 h1
      cases tail with
      | true =>
          simp only [if_true] at h
          cases hR : c1.push_opcode (.Return vi) with
          | error e => rw [hR] at h; simp at h
          | ok p2 =>
          obtain ⟨a2, c2⟩ := p2
          rw [hR] at h
          simp at h
          obtain ⟨rfl, rfl⟩ := h
          exact hp1.trans (push_opcode_progress c1 _ a2 _ (by simp) hR)
      | false =>
          simp only [Bool.false_eq_true, if_false] at h
          simp at h
          obtain ⟨rfl, rfl⟩ := h
          exact hp1
  | Symbol sym =>
      dsimp only at h
      cases h1 : c.compile_symbol pos sym with
      | error e => rw [h1] at h; simp at h
      | ok p1 =>
      obtain ⟨vi, c1⟩ := p1
      rw [h1] at h
      dsimp only at h
      have hp1 : Progress c c1 := compile_symbol_progress c pos sym vi c1 h1
      cases tail with
      | true =>
          simp only [if_true] at h
          cases hR : c1.push_opcode (.Return vi) with
          | error e => rw [hR] at h; simp at h
          | ok p2 =>
          obtain ⟨a2, c2⟩ := p2
          rw [hR] at h
          simp at h
          obtain ⟨rfl, rfl⟩ := h
          exact hp1.trans (push_opcode_progress c1 _ a2 _ (by simp) hR)
      | false =>
          simp only [Bool.false_eq_true, if_false] at h
          simp at h
          obtain ⟨rfl, rfl⟩ := h
          exact hp1

theorem frame_reserve_opcodes (f : CompilerFrame) :
    (CompilerFrame.reserve_next_free_register f).2.opcodes = f.opcodes := by
  unfold CompilerFrame.reserve_next_free_register
  cases f.locals.findIdx? (fun l => l == Local.None) <;> rfl

theorem get?_dropLast (l : List α) (i : Nat) (hi : i + 1 < l.length) :
    l.dropLast.get? i = l.get? i := by
  rw [List.dropLast_eq_take, List.get?_eq_getElem?, List.get?_eq_getElem?, List.getElem?_take]
  rw [if_pos (by omega)]

theorem increase_scope_shape (c c' : Compiler) (h : c.increase_scope = .ok c') :
    ∃ g, c'.frames = c.frames.dropLast ++ [g] := by
  unfold Compiler.increase_scope at h
  simp only [Bind.bind, Except.bind] at h
  cases hlf : c.last_frame_unwrap with
  | error e => rw [hlf] at h; simp at h
  | ok f =>
      rw [hlf] at h
      dsimp only at h
      exact ⟨f.increase_scope, set_last_frame_shape c _ c' h⟩

/-- The straight-line tail of compile_function: popping the child frame
and installing `CreateClosure` on the parent is one Progress step for the
outer compiler, given the body compile made Progress over the pushed
child. -/
theorem fun_finish_progress (c c2 c3 : Compiler) (g frame frame3 parent : CompilerFrame)
    (hplast : c.frames.getLast? = some parent)
    (hc2 : c2.frames = c.frames ++ [g])
    (hp23 : Progress c2 c3)
    (hfr : c3.frames.dropLast.getLast? = some frame)
    (hops3 : ∃ op, frame3.opcodes = frame.opcodes ++ [op] ∧ op ≠ OpCode.Crash)
    (c5 : Compiler)
    (h5 : Compiler.set_last_frame ⟨c3.frames.dropLast⟩ frame3 = .ok c5) :
    Progress c c5 := by
  obtain ⟨hlen3, hbp23, _⟩ := hp23
  obtain ⟨l0, hl0⟩ := getLast?_eq_some_iff.mp hplast
  obtain ⟨l4, hl4⟩ := getLast?_eq_some_iff.mp hfr
  have hl2 : c2.frames.length = c.frames.length + 1 := by rw [hc2]; simp
  have hlen3' : c3.frames.length = c.frames.length + 1 := by rw [hlen3, hl2]
  have hn1 : c.frames.length = l0.length + 1 := by rw [hl0]; simp
  have hdl : c3.frames.dropLast.length = c.frames.length := by
    rw [List.length_dropLast, hlen3']
    omega
  have hl4len : l4.length + 1 = c.frames.length := by
    rw [← hdl, hl4]; simp
  have hc5 : c5.frames = l4 ++ [frame3] := by
    have := set_last_frame_shape ⟨c3.frames.dropLast⟩ frame3 c5 h5
    rw [this]
    show (c3.frames.dropLast).dropLast ++ [frame3] = l4 ++ [frame3]
    rw [hl4, List.dropLast_concat]
  have hmap : ∀ i, i < c.frames.length →
      ((c.frames.get? i).map CompilerFrame.opcodes =
        (c3.frames.get? i).map CompilerFrame.opcodes) ∧
      ((c.frames.get? i).map CompilerFrame.functions =
        (c3.frames.get? i).map CompilerFrame.functions) := by
    intro i hi
    have hi2 : i + 1 < c2.frames.length := by omega
    have hcc2 : c2.frames.get? i = c.frames.get? i := by
      rw [hc2, List.get?_eq_getElem?, List.get?_eq_getElem?, List.getElem?_append_left hi]
    constructor
    · have hx := (hbp23 i hi2).1; rw [hcc2] at hx; exact hx
    · have hx := (hbp23 i hi2).2; rw [hcc2] at hx; exact hx
  have hframe_at : c3.frames.get? (c.frames.length - 1) = some frame := by
    have h1 : c3.frames.dropLast.get? l4.length = some frame := by
      rw [hl4, List.get?_eq_getElem?, List.getElem?_concat_length]
    have h2 : c3.frames.dropLast.get? l4.length = c3.frames.get? l4.length :=
      get?_dropLast _ _ (by omega)
    rw [h2] at h1
    have : c.frames.length - 1 = l4.length := by omega
    rw [this]
    exact h1
  have hpar_at : c.frames.get? (c.frames.length - 1) = some parent := by
    have : c.frames.length - 1 = l0.length := by omega
    rw [this, hl0, List.get?_eq_getElem?, List.getElem?_concat_length]
  have hfp : frame.opcodes = parent.opcodes := by
    have hx := (hmap (c.frames.length - 1) (by omega)).1
    rw [hpar_at, hframe_at] at hx
    exact (Option.some_inj.mp hx).symm
  refine ⟨?_, ?_, ?_⟩
  · rw [hc5]; simp; omega
  · intro i hi
    have hi4 : i < l4.length := by omega
    have hc5i : c5.frames.get? i = c3.frames.get? i := by
      rw [hc5, List.get?_eq_getElem?, List.getElem?_append_left hi4]
      have hx : c3.frames.dropLast.get? i = c3.frames.get? i :=
        get?_dropLast _ _ (by omega)
      rw [List.get?_eq_getElem?] at hx
      rw [← hx, hl4, List.getElem?_append_left hi4]
    have hm := hmap i (by omega)
    rw [hc5i]
    exact hm
  · intro lf0 hlf0
    rw [hplast] at hlf0
    cases Option.some_inj.mp hlf0
    obtain ⟨op, hop, hopc⟩ := hops3
    refine ⟨frame3, [op], ?_, ?_, ?_⟩
    · rw [hc5]; simp
    · rw [hop, hfp]
    · unfold CrashFree
      simp only [List.mem_singleton]
      intro hmem
      exact hopc hmem.symm

theorem step_fun (n : Nat) (he : P_expr n) : P_fun (n + 1) := by
  intro c pos args body r c' h
  unfold compile_function at h
  simp only [Bind.bind, Except.bind] at h
  split at h
  · simp at h
  · rename_i parent hpar
    split at h
    · simp at h
    · rename_i c2 h2
      split at h
      · simp at h
      · rename_i p3 h3
        obtain ⟨x3, c3⟩ := p3
        dsimp only at h
        have hplast : c.frames.getLast? = some parent := last_frame_unwrap_eq c parent hpar
        obtain ⟨g, hg⟩ := increase_scope_shape _ c2 h2
        have hc2 : c2.frames = c.frames ++ [g] := by
          rw [hg]; simp only [List.dropLast_concat]
        have hp23 : Progress c2 c3 := he c2 Option.none body true x3 c3 h3
        split at h
        · rename_i new_frame hnf
          split at h
          · simp at h
          · rename_i frame hfr
            have hfr2 : c3.frames.dropLast.getLast? = some frame :=
              last_frame_unwrap_eq ⟨c3.frames.dropLast⟩ frame hfr
            cases pos with
            | some p =>
                dsimp only at h
                split at h
                · simp at h
                · rename_i c5 h5
                  split at h
                  · simp at h
                  · rename_i c6 h6
                    simp at h
                    obtain ⟨rfl, rfl⟩ := h
                    refine (fun_finish_progress c c2 c3 g frame _ parent hplast hc2
                      hp23 hfr2 ?_ c5 h5).trans
                      (push_capture_values_progress _ c5 _ h6)
                    exact ⟨_, rfl, by simp⟩
            | none =>
                dsimp only at h
                cases hres : CompilerFrame.reserve_next_free_register
                    ⟨frame.names, frame.locals, frame.captures, frame.depth,
                      frame.opcodes, frame.constants,
                      frame.functions ++ [CompilerFrame.to_function new_frame args.length]⟩ with
                | mk ci f2 =>
                rw [hres] at h
                dsimp only at h
                have hf2 : f2.opcodes = frame.opcodes := by
                  have hx := frame_reserve_opcodes
                    ⟨frame.names, frame.locals, frame.captures, frame.depth,
                      frame.opcodes, frame.constants,
                      frame.functions ++ [CompilerFrame.to_function new_frame args.length]⟩
                  rw [hres] at hx
                  exact hx
                split at h
                · simp at h
                · rename_i c5 h5
                  split at h
                  · simp at h
                  · rename_i c6 h6
                    simp at h
                    obtain ⟨rfl, rfl⟩ := h
                    refine (fun_finish_progress c c2 c3 g frame _ parent hplast hc2
                      hp23 hfr2 ?_ c5 h5).trans
                      (push_capture_values_progress _ c5 _ h6)
                    dsimp only
                    rw [hf2]
                    exact ⟨_, rfl, by simp⟩
        · simp at h

/-- The part of Progress that needs no hypothesis about the last frame. -/
def FrameShape (c c' : Compiler) : Prop :=
  c'.frames.length = c.frames.length ∧ belowPreserved c c'

theorem FrameShape.comp {a b c : Compiler} (h1 : FrameShape a b) (h2 : FrameShape b c) :
    FrameShape a c := by
  obtain ⟨hl1, hb1⟩ := h1
  obtain ⟨hl2, hb2⟩ := h2
  refine ⟨hl2.trans hl1, fun i hi => ?_⟩
  have hi2 : i + 1 < b.frames.length := by omega
  exact ⟨(hb1 i hi).1.trans (hb2 i hi2).1, (hb1 i hi).2.trans (hb2 i hi2).2⟩

theorem Progress.frameShape {c c' : Compiler} (h : Progress c c') : FrameShape c c' :=
  ⟨h.1, h.2.1⟩

theorem shape_of_replace_last (c c' : Compiler) (lf f : CompilerFrame)
    (hlf : c.frames.getLast? = some lf)
    (hfr : c'.frames = c.frames.dropLast ++ [f]) :
    FrameShape c c' ∧ c'.frames.getLast? = some f := by
  obtain ⟨l0, hl0⟩ := getLast?_eq_some_iff.mp hlf
  refine ⟨⟨?_, ?_⟩, ?_⟩
  · rw [hfr, hl0]; simp
  · intro i hi
    rw [hfr, dropLast_append_get? c.frames lf f l0 hl0 i hi]
    exact ⟨rfl, rfl⟩
  · rw [hfr]; simp

theorem ExtCrashIn.same (A : List OpCode) (al : List Nat) : ExtCrashIn A A al := by
  refine ⟨⟨[], by simp⟩, fun j hj hget => ?_⟩
  rw [List.get?_eq_getElem?, List.getElem?_eq_none hj] at hget
  cases hget

theorem ExtCrashIn.drop_allowed {A B : List OpCode} {p : Nat} {al : List Nat}
    (h : ExtCrashIn A B (p :: al)) (hp : B.get? p ≠ some OpCode.Crash) :
    ExtCrashIn A B al := by
  refine ⟨h.1, fun j hj hget => ?_⟩
  rcases List.mem_cons.mp (h.2 j hj hget) with heq | hmem
  · subst heq
    exact absurd hget hp
  · exact hmem

end Maxlang

namespace Maxlang

theorem step_clauses (n : Nat) (he : P_expr n) (hcl : P_clauses n) : P_clauses (n + 1) := by
  intro c rp clauses tail jep r c' h
  unfold compile_condition_clauses at h
  cases clauses with
  | nil =>
      simp at h
      obtain ⟨rfl, rfl⟩ := h
      exact ⟨rfl, fun i hi => ⟨rfl, rfl⟩, ⟨[], by simp⟩,
        fun lf hlf => ⟨lf, hlf, ExtCrashIn.same _ _, fun p hp => Or.inl hp⟩⟩
  | cons cr rest =>
  obtain ⟨clause, result⟩ := cr
  simp only [Bind.bind, Except.bind] at h
  cases h1 : compile_expression n c Option.none clause false with
  | error e => rw [h1] at h; simp at h
  | ok p1 =>
  obtain ⟨cio, c1⟩ := p1
  rw [h1] at h
  dsimp only at h
  cases cio with
  | none => simp at h
  | some clause_index =>
  dsimp only at h
  cases h2 : c1.push_opcode OpCode.Crash with
  | error e => rw [h2] at h; simp at h
  | ok p2 =>
  obtain ⟨prev, c2⟩ := p2
  rw [h2] at h
  dsimp only at h
  cases h3 : c2.increase_scope with
  | error e => rw [h3] at h; simp at h
  | ok c3 =>
  rw [h3] at h
  dsimp only at h
  cases h4 : compile_expression n c3 (some rp) result tail with
  | error e => rw [h4] at h; simp at h
  | ok p4 =>
  obtain ⟨x4, c4⟩ := p4
  rw [h4] at h
  dsimp only at h
  cases h5 : c4.reduce_scope with
  | error e => rw [h5] at h; simp at h
  | ok c5 =>
  rw [h5] at h
  dsimp only at h
  cases h6 : c5.drop_register clause_index with
  | error e => rw [h6] at h; simp at h
  | ok c6 =>
  rw [h6] at h
  dsimp only at h
  cases h7 : c6.clear_unused_locals with
  | error e => rw [h7] at h; simp at h
  | ok c7 =>
  rw [h7] at h
  dsimp only at h
  cases h8 : c7.push_opcode OpCode.Crash with
  | error e => rw [h8] at h; simp at h
  | ok p8 =>
  obtain ⟨endp, c8⟩ := p8
  rw [h8] at h
  dsimp only at h
  cases h9 : c8.last_frame_unwrap with
  | error e => rw [h9] at h; simp at h
  | ok f =>
  rw [h9] at h
  dsimp only at h
  cases h10 : c8.patch_opcode prev
      (OpCode.JumpToPositionIfFalse clause_index (toI16 (f.opcodes.length - prev))) with
  | error e => rw [h10] at h; simp at h
  | ok c9 =>
  rw [h10] at h
  dsimp only at h
  obtain ⟨hl9, hbp9, ⟨pre1, hpre1⟩, hlast9⟩ := hcl c9 rp rest tail (jep ++ [endp]) r c' h
  have hp1 := he c Option.none clause false (some clause_index) c1 h1
  obtain ⟨lf1, hlf1, hprev, hc2fr⟩ := push_opcode_spec c1 OpCode.Crash prev c2 h2
  obtain ⟨hs12, hlast2⟩ := shape_of_replace_last c1 c2 lf1 _ hlf1 hc2fr
  have hp3 := increase_scope_progress c2 c3 h3
  have hp4 := he c3 (some rp) result tail x4 c4 h4
  have hp5 := reduce_scope_progress c4 c5 h5
  have hp6 := drop_register_progress c5 clause_index c6 h6
  have hp7 := clear_unused_locals_progress c6 c7 h7
  have hp27 : Progress c2 c7 := ((hp3.trans hp4).trans ((hp5.trans hp6).trans hp7))
  obtain ⟨lf7, hlf7, hendp, hc8fr⟩ := push_opcode_spec c7 OpCode.Crash endp c8 h8
  obtain ⟨hs78, hlast8⟩ := shape_of_replace_last c7 c8 lf7 _ hlf7 hc8fr
  obtain ⟨lf8, hlf8, hplt, hc9fr⟩ := patch_opcode_spec c8 prev _ c9 h10
  obtain ⟨hs89, hlast9'⟩ := shape_of_replace_last c8 c9 lf8 _ hlf8 hc9fr
  rw [hlast8] at hlf8
  have hB8 : lf8.opcodes = lf7.opcodes ++ [OpCode.Crash] := by
    rw [← Option.some_inj.mp hlf8]
  have hs09 : FrameShape c c9 :=
    (((hp1.frameShape.comp hs12).comp hp27.frameShape).comp hs78).comp hs89
  refine ⟨?_, ?_, ⟨endp :: pre1, by rw [hpre1]; simp⟩, ?_⟩
  · rw [hl9, hs09.1]
  · exact (hs09.comp ⟨hl9, hbp9⟩).2
  · intro lf hlf
    obtain ⟨lf1', S1, hlf1', hS1, hcf1⟩ := hp1.2.2 lf hlf
    rw [hlf1] at hlf1'
    obtain rfl := Option.some_inj.mp hlf1'
    obtain ⟨lf7', S27, hlf7', hS27, hcf27⟩ := hp27.2.2 _ hlast2
    rw [hlf7] at hlf7'
    obtain rfl := Option.some_inj.mp hlf7'
    dsimp only at hS27
    have hAprev : lf.opcodes.length ≤ prev := by
      rw [hprev, hS1]; simp
    have E1 : ExtCrashIn lf.opcodes lf1.opcodes (prev :: r) := by
      rw [hS1]; exact ExtCrashIn.of_crash_free _ S1 hcf1 _
    have E2 : ExtCrashIn lf.opcodes (lf1.opcodes ++ [OpCode.Crash]) (prev :: r) :=
      E1.push_crash (by rw [← hprev]; exact List.mem_cons_self _ _)
    have E27 : ExtCrashIn (lf1.opcodes ++ [OpCode.Crash]) lf7.opcodes (prev :: r) := by
      rw [hS27]; exact ExtCrashIn.of_crash_free _ S27 hcf27 _
    have hAendp : lf.opcodes.length ≤ endp := by
      rw [hendp, hS27, hS1]; simp
    have E8 : ExtCrashIn lf.opcodes (lf7.opcodes ++ [OpCode.Crash]) (prev :: r) :=
      (E2.chain E27).push_crash
        (by rw [← hendp]; exact List.mem_cons_of_mem _ (by rw [hpre1]; simp))
    have E8' : ExtCrashIn lf.opcodes lf8.opcodes (prev :: r) := by
      rw [hB8]; exact E8
    have E9 := E8'.set_non_crash prev
      (OpCode.JumpToPositionIfFalse clause_index (toI16 (f.opcodes.length - prev)))
      (by simp) hAprev
    have E9' : ExtCrashIn lf.opcodes
        (lf8.opcodes.set prev
          (OpCode.JumpToPositionIfFalse clause_index (toI16 (f.opcodes.length - prev)))) r :=
      E9.drop_allowed (by
        rw [List.get?_eq_getElem?,
          List.getElem?_set_eq_of_lt
            (OpCode.JumpToPositionIfFalse clause_index (toI16 (f.opcodes.length - prev))) hplt]
        simp)
    obtain ⟨lf', hlf', hE', hmem'⟩ := hlast9 _ hlast9'
    dsimp only at hE' hmem'
    refine ⟨lf', hlf', E9'.chain hE', ?_⟩
    intro p hp
    rcases hmem' p hp with hmem | hlen
    · rcases List.mem_append.mp hmem with hj | hj
      · exact Or.inl hj
      · have : p = endp := by simpa using hj
        subst this
        exact Or.inr hAendp
    · refine Or.inr (le_trans ?_ hlen)
      rw [List.length_set, hB8, hS27, hS1]
      simp

/-- The clause loop leaves Crash placeholders only at the recorded
positions, all at or above the entry opcode length; compiling the
fallback and backpatching every recorded position with a `Jump` therefore
restores a Crash-free extension of the entry opcodes. -/
theorem cond_rest_progress (n : Nat) (he : P_expr n) (hcl : P_clauses n)
    (c c2 : Compiler) (hp02 : Progress c c2) (rp : RegisterIndex)
    (clauses : List (Expression × Expression)) (otherwise : Expression) (tail : Bool)
    (jep : List Nat) (c3 : Compiler)
    (h3 : compile_condition_clauses n c2 rp clauses tail [] = .ok (jep, c3))
    (x4 : Option ValueIndex) (c4 : Compiler)
    (h4 : compile_expression n c3 (some rp) otherwise tail = .ok (x4, c4))
    (c5 : Compiler) (h5 : c4.reduce_scope = .ok c5)
    (c6 : Compiler) (h6 : c5.patch_end_jumps jep = .ok c6) :
    Progress c c6 := by
  obtain ⟨hl3, hbp3, -, hlast3⟩ := hcl c2 rp clauses tail [] jep c3 h3
  have hp34 := he c3 (some rp) otherwise tail x4 c4 h4
  have hp45 := reduce_scope_progress c4 c5 h5
  have hp35 : Progress c3 c5 := hp34.trans hp45
  obtain ⟨hl6, hbp6, hlast6⟩ := patch_end_jumps_spec jep c5 c6 h6
  refine ⟨?_, ?_, ?_⟩
  · rw [hl6, hp35.1, hl3, hp02.1]
  · exact ((((hp02.frameShape.comp ⟨hl3, hbp3⟩).comp hp35.frameShape).comp ⟨hl6, hbp6⟩)).2
  · intro lf hlf
    obtain ⟨lf2, S02, hlf2, hS02, hcf02⟩ := hp02.2.2 lf hlf
    obtain ⟨lf3, hlf3, E23, hjep⟩ := hlast3 lf2 hlf2
    obtain ⟨S23, hS23⟩ := E23.1
    obtain ⟨lf5, S35, hlf5, hS35, hcf35⟩ := hp35.2.2 lf3 hlf3
    obtain ⟨lf6, hlf6, hfun6, hlen6, hsame6, hjump6⟩ := hlast6 lf5 hlf5
    have E25 : ExtCrashIn lf2.opcodes lf5.opcodes jep := by
      refine E23.chain ?_
      rw [hS35]
      exact ExtCrashIn.of_crash_free _ S35 hcf35 _
    have hjep2 : ∀ p ∈ jep, lf2.opcodes.length ≤ p := by
      intro p hp
      rcases hjep p hp with h0 | h1
      · exact absurd h0 (List.not_mem_nil p)
      · exact h1
    have hl02 : lf.opcodes.length ≤ lf2.opcodes.length := by
      rw [hS02]; simp only [List.length_append]; omega
    have hle : lf.opcodes.length ≤ lf6.opcodes.length := by
      rw [hlen6, hS35, hS23, hS02]; simp only [List.length_append]; omega
    have hagree : ∀ j, j < lf.opcodes.length → lf6.opcodes.get? j = lf.opcodes.get? j := by
      intro j hj
      have hnotin : j ∉ jep := fun hin => absurd (hjep2 j hin) (by omega)
      rw [hsame6 j hnotin, hS35, hS23, hS02]
      have hb2 : j < (lf.opcodes ++ S02).length := by
        simp only [List.length_append]; omega
      have hb1 : j < ((lf.opcodes ++ S02) ++ S23).length := by
        simp only [List.length_append]; omega
      rw [List.get?_eq_getElem?, List.get?_eq_getElem?, List.getElem?_append_left hb1,
        List.getElem?_append_left hb2, List.getElem?_append_left hj]
    obtain ⟨S6, hS6⟩ := exists_suffix_of_prefix_agree lf.opcodes lf6.opcodes hle hagree
    refine ⟨lf6, S6, hlf6, hS6, ?_⟩
    unfold CrashFree
    intro hmem
    obtain ⟨k, hk, hval⟩ := List.mem_iff_getElem.mp hmem
    have hget6 : lf6.opcodes.get? (lf.opcodes.length + k) = some OpCode.Crash := by
      rw [hS6, List.get?_eq_getElem?, List.getElem?_append_right (by omega)]
      have hkk : lf.opcodes.length + k - lf.opcodes.length = k := by omega
      rw [hkk, List.getElem?_eq_getElem hk, hval]
    by_cases hjj : lf.opcodes.length + k ∈ jep
    · obtain ⟨off, hoff⟩ := hjump6 _ hjj
      rw [hget6] at hoff
      simp at hoff
    · have h5j : lf5.opcodes.get? (lf.opcodes.length + k) = some OpCode.Crash := by
        rw [← hsame6 _ hjj]; exact hget6
      by_cases hj2 : lf.opcodes.length + k < lf2.opcodes.length
      · have h2j : lf2.opcodes.get? (lf.opcodes.length + k) = some OpCode.Crash := by
          rw [hS35, hS23] at h5j
          have hb1 : lf.opcodes.length + k < (lf2.opcodes ++ S23).length := by
            simp only [List.length_append]; omega
          rw [List.get?_eq_getElem?, List.getElem?_append_left hb1,
            List.getElem?_append_left hj2] at h5j
          rw [List.get?_eq_getElem?]
          exact h5j
        rw [hS02, List.get?_eq_getElem?, List.getElem?_append_right (by omega)] at h2j
        rcases List.getElem?_eq_some.mp h2j with ⟨hlt, hval⟩
        exact absurd (hval ▸ List.getElem_mem _) hcf02
      · exact hjj (E25.2 _ (by omega) h5j)

theorem step_cond (n : Nat) (he : P_expr n) (hcl : P_clauses n) : P_cond (n + 1) := by
  intro c pos clauses otherwise tail r c' h
  unfold compile_condition at h
  simp only [Bind.bind, Except.bind] at h
  cases h1 : c.increase_scope with
  | error e => rw [h1] at h; simp at h
  | ok c1 =>
  rw [h1] at h
  dsimp only at h
  have hp01 := increase_scope_progress c c1 h1
  cases pos with
  | some p =>
      dsimp only at h
      cases h3 : compile_condition_clauses n c1 p clauses tail [] with
      | error e => rw [h3] at h; simp at h
      | ok p3 =>
      obtain ⟨jep, c3⟩ := p3
      rw [h3] at h
      dsimp only at h
      cases h4 : compile_expression n c3 (some p) otherwise tail with
      | error e => rw [h4] at h; simp at h
      | ok p4 =>
      obtain ⟨x4, c4⟩ := p4
      rw [h4] at h
      dsimp only at h
      cases h5 : c4.reduce_scope with
      | error e => rw [h5] at h; simp at h
      | ok c5 =>
      rw [h5] at h
      dsimp only at h
      cases h6 : c5.patch_end_jumps jep with
      | error e => rw [h6] at h; simp at h
      | ok c6 =>
      rw [h6] at h
      dsimp only at h
      have hp := cond_rest_progress n he hcl c c1 hp01 p clauses otherwise tail
        jep c3 h3 x4 c4 h4 c5 h5 c6 h6
      cases tail with
      | true =>
          simp only [if_true] at h
          simp at h
          obtain ⟨rfl, rfl⟩ := h
          exact hp
      | false =>
          simp only [Bool.false_eq_true, if_false] at h
          simp at h
          obtain ⟨rfl, rfl⟩ := h
          exact hp
  | none =>
      dsimp only at h
      cases hres : unwrapC c1.reserve_next_free_register with
      | error e => rw [hres] at h; simp at h
      | ok pr =>
      obtain ⟨rp, c2⟩ := pr
      rw [hres] at h
      dsimp only at h
      have hp02 : Progress c c2 :=
        hp01.trans (reserve_next_free_register_progress c1 rp c2 (unwrapC_ok _ _ hres))
      cases h3 : compile_condition_clauses n c2 rp clauses tail [] with
      | error e => rw [h3] at h; simp at h
      | ok p3 =>
      obtain ⟨jep, c3⟩ := p3
      rw [h3] at h
      dsimp only at h
      cases h4 : compile_expression n c3 (some rp) otherwise tail with
      | error e => rw [h4] at h; simp at h
      | ok p4 =>
      obtain ⟨x4, c4⟩ := p4
      rw [h4] at h
      dsimp only at h
      cases h5 : c4.reduce_scope with
      | error e => rw [h5] at h; simp at h
      | ok c5 =>
      rw [h5] at h
      dsimp only at h
      cases h6 : c5.patch_end_jumps jep with
      | error e => rw [h6] at h; simp at h
      | ok c6 =>
      rw [h6] at h
      dsimp only at h
      have hp := cond_rest_progress n he hcl c c2 hp02 rp clauses otherwise tail
        jep c3 h3 x4 c4 h4 c5 h5 c6 h6
      cases tail with
      | true =>
          simp only [if_true] at h
          simp at h
          obtain ⟨rfl, rfl⟩ := h
          exact hp
      | false =>
          simp only [Bool.false_eq_true, if_false] at h
          simp at h
          obtain ⟨rfl, rfl⟩ := h
          exact hp

/-- The frame discipline of every compilation function, for every fuel:
a successful compile preserves the frame-stack height and the frames
below the top, and extends the top frame's opcodes by a Crash-free
suffix (the clause loop tracks its pending Crash placeholders instead).
-/
theorem master : ∀ fuel, MasterStmt fuel := by
  intro fuel
  induction fuel with
  | zero => exact master_zero
  | succ n ih =>
      obtain ⟨he, ha, hcall, hf, hclauses, hcond, hrecb, hreclet, hnrign, hnrlet,
        hlet, hign, hblk⟩ := ih
      exact ⟨step_expr n hcond hcall hlet hf hblk, step_args n he ha, step_call n he ha,
        step_fun n he, step_clauses n he hclauses, step_cond n he hclauses,
        step_recb n he hrecb, step_reclet n he hrecb, step_nrign n he hnrign,
        step_nrlet n he hnrign, step_let n hreclet hnrlet, step_ign n he hign,
        step_blk n he hign⟩

theorem frame_reserve_functions (f : CompilerFrame) :
    (CompilerFrame.reserve_next_free_register f).2.functions = f.functions := by
  unfold CompilerFrame.reserve_next_free_register
  cases f.locals.findIdx? (fun l => l == Local.None) <;> rfl

theorem resolve_capture_idempotent (f : CompilerFrame) (i : ValueIndex) :
    ((f.resolve_capture i).2).resolve_capture i = f.resolve_capture i := by
  unfold CompilerFrame.resolve_capture
  cases hfi : f.captures.findIdx? (fun c => c == i) with
  | some p => simp [hfi]
  | none => simp [hfi]

theorem push_capture_values_spec :
    ∀ (caps : List ValueIndex) (c c' : Compiler), c.push_capture_values caps = .ok c' →
      ∀ lf, c.frames.getLast? = some lf →
        ∃ lf', c'.frames.getLast? = some lf' ∧
          lf'.opcodes = lf.opcodes ++ caps.map OpCode.CaptureValue ∧
          lf'.functions = lf.functions := by
  intro caps
  induction caps with
  | nil =>
      intro c c' h lf hlf
      unfold Compiler.push_capture_values at h
      simp at h
      subst h
      exact ⟨lf, hlf, by simp, rfl⟩
  | cons i rest ih =>
      intro c c' h lf hlf
      unfold Compiler.push_capture_values at h
      simp only [Bind.bind, Except.bind] at h
      cases h1 : c.push_opcode (OpCode.CaptureValue i) with
      | error e => rw [h1] at h; simp at h
      | ok p1 =>
      obtain ⟨a1, c1⟩ := p1
      rw [h1] at h
      dsimp only at h
      obtain ⟨lf1, hlf1, hp1, hc1fr⟩ := push_opcode_spec c _ a1 c1 h1
      rw [hlf] at hlf1
      obtain rfl := Option.some_inj.mp hlf1
      have hlast1 : c1.frames.getLast? =
          some { lf with opcodes := lf.opcodes ++ [OpCode.CaptureValue i] } := by
        rw [hc1fr]; simp
      obtain ⟨lf', hlf', hops, hfuns⟩ := ih c1 c' h _ hlast1
      refine ⟨lf', hlf', ?_, ?_⟩
      · rw [hops]; dsimp only; simp
      · rw [hfuns]

theorem child_frame_functions_opcodes (c c2 c3 : Compiler) (g frame parent : CompilerFrame)
    (hplast : c.frames.getLast? = some parent)
    (hc2 : c2.frames = c.frames ++ [g])
    (hp23 : Progress c2 c3)
    (hfr : c3.frames.dropLast.getLast? = some frame) :
    frame.opcodes = parent.opcodes ∧ frame.functions = parent.functions := by
  obtain ⟨hlen3, hbp23, -⟩ := hp23
  obtain ⟨l0, hl0⟩ := getLast?_eq_some_iff.mp hplast
  obtain ⟨l4, hl4⟩ := getLast?_eq_some_iff.mp hfr
  have hl2 : c2.frames.length = c.frames.length + 1 := by rw [hc2]; simp
  have hlen3' : c3.frames.length = c.frames.length + 1 := by rw [hlen3, hl2]
  have hn1 : c.frames.length = l0.length + 1 := by rw [hl0]; simp
  have hdl : c3.frames.dropLast.length = c.frames.length := by
    rw [List.length_dropLast, hlen3']
    omega
  have hl4len : l4.length + 1 = c.frames.length := by
    rw [← hdl, hl4]; simp
  have hframe_at : c3.frames.get? (c.frames.length - 1) = some frame := by
    have h1 : c3.frames.dropLast.get? l4.length = some frame := by
      rw [hl4, List.get?_eq_getElem?, List.getElem?_concat_length]
    have h2 : c3.frames.dropLast.get? l4.length = c3.frames.get? l4.length :=
      get?_dropLast _ _ (by omega)
    rw [h2] at h1
    have heq : c.frames.length - 1 = l4.length := by omega
    rw [heq]
    exact h1
  have hpar_at : c.frames.get? (c.frames.length - 1) = some parent := by
    have heq : c.frames.length - 1 = l0.length := by omega
    rw [heq, hl0, List.get?_eq_getElem?, List.getElem?_concat_length]
  have hi2 : (c.frames.length - 1) + 1 < c2.frames.length := by omega
  have hcc2 : c2.frames.get? (c.frames.length - 1) = c.frames.get? (c.frames.length - 1) := by
    rw [hc2, List.get?_eq_getElem?, List.get?_eq_getElem?,
      List.getElem?_append_left (by omega)]
  constructor
  · have hx := (hbp23 _ hi2).1
    rw [hcc2, hpar_at, hframe_at] at hx
    exact (Option.some_inj.mp hx).symm
  · have hx := (hbp23 _ hi2).2
    rw [hcc2, hpar_at, hframe_at] at hx
    exact (Option.some_inj.mp hx).symm

/-- The exact emission contract of compile_function: on success the
parent frame gains exactly the child's function, and the opcodes gain
`CreateClosure` followed by one `CaptureValue` per entry of the child's
capture list, in capture-list order. -/
theorem compile_function_emission (fuel : Nat) (c : Compiler) (pos : Option RegisterIndex)
    (args : List String) (body : Expression) (vi : ValueIndex) (c' : Compiler)
    (h : compile_function fuel c pos args body = .ok (vi, c'))
    (lf : CompilerFrame) (hlf : c.frames.getLast? = some lf) :
    ∃ (lf' child : CompilerFrame) (fidx : FunctionIndex) (cidx : RegisterIndex),
      c'.frames.getLast? = some lf' ∧
      lf'.opcodes = lf.opcodes ++ [OpCode.CreateClosure fidx cidx]
        ++ List.map OpCode.CaptureValue child.captures ∧
      lf'.functions = lf.functions ++ [child.to_function args.length] := by
  cases fuel with
  | zero => exact absurd h (by unfold compile_function; simp)
  | succ n =>
  unfold compile_function at h
  simp only [Bind.bind, Except.bind] at h
  split at h
  · simp at h
  · rename_i parent hpar
    split at h
    · simp at h
    · rename_i c2 h2
      split at h
      · simp at h
      · rename_i p3 h3
        obtain ⟨x3, c3⟩ := p3
        dsimp only at h
        have hplast : c.frames.getLast? = some parent := last_frame_unwrap_eq c parent hpar
        rw [hlf] at hplast
        obtain rfl := Option.some_inj.mp hplast
        obtain ⟨g, hg⟩ := increase_scope_shape _ c2 h2
        have hc2 : c2.frames = c.frames ++ [g] := by
          rw [hg]; simp only [List.dropLast_concat]
        have hp23 : Progress c2 c3 := (master n).1 c2 Option.none body true x3 c3 h3
        split at h
        · rename_i new_frame hnf
          split at h
          · simp at h
          · rename_i frame hfr
            have hfr2 : c3.frames.dropLast.getLast? = some frame :=
              last_frame_unwrap_eq ⟨c3.frames.dropLast⟩ frame hfr
            obtain ⟨hfo, hff⟩ :=
              child_frame_functions_opcodes c c2 c3 g frame lf hlf hc2 hp23 hfr2
            cases pos with
            | some p =>
                dsimp only at h
                split at h
                · simp at h
                · rename_i c5 h5
                  split at h
                  · simp at h
                  · rename_i c6 h6
                    simp at h
                    obtain ⟨rfl, rfl⟩ := h
                    obtain ⟨hs5, hlast5⟩ := shape_of_replace_last ⟨c3.frames.dropLast⟩ c5
                      frame _ hfr2 (set_last_frame_shape _ _ _ h5)
                    obtain ⟨lf', hlf', hops, hfuns⟩ :=
                      push_capture_values_spec new_frame.captures c5 _ h6 _ hlast5
                    refine ⟨lf', new_frame,
                      ⟨toU8 ((frame.functions ++
                        [CompilerFrame.to_function new_frame args.length]).length - 1)⟩,
                      p, hlf', ?_, ?_⟩
                    · rw [hops]; dsimp only; rw [hfo, List.append_assoc]
                    · rw [hfuns]; dsimp only; rw [hff]
            | none =>
                dsimp only at h
                cases hres : CompilerFrame.reserve_next_free_register
                    ⟨frame.names, frame.locals, frame.captures, frame.depth,
                      frame.opcodes, frame.constants,
                      frame.functions ++ [CompilerFrame.to_function new_frame args.length]⟩ with
                | mk ci f2 =>
                rw [hres] at h
                dsimp only at h
                have hf2o : f2.opcodes = frame.opcodes := by
                  have hx := frame_reserve_opcodes
                    ⟨frame.names, frame.locals, frame.captures, frame.depth,
                      frame.opcodes, frame.constants,
                      frame.functions ++ [CompilerFrame.to_function new_frame args.length]⟩
                  rw [hres] at hx
                  exact hx
                have hf2f : f2.functions =
                    frame.functions ++ [CompilerFrame.to_function new_frame args.length] := by
                  have hx := frame_reserve_functions
                    ⟨frame.names, frame.locals, frame.captures, frame.depth,
                      frame.opcodes, frame.constants,
                      frame.functions ++ [CompilerFrame.to_function new_frame args.length]⟩
                  rw [hres] at hx
                  exact hx
                split at h
                · simp at h
                · rename_i c5 h5
                  split at h
                  · simp at h
                  · rename_i c6 h6
                    simp at h
                    obtain ⟨rfl, rfl⟩ := h
                    obtain ⟨hs5, hlast5⟩ := shape_of_replace_last ⟨c3.frames.dropLast⟩ c5
                      frame _ hfr2 (set_last_frame_shape _ _ _ h5)
                    obtain ⟨lf', hlf', hops, hfuns⟩ :=
                      push_capture_values_spec new_frame.captures c5 _ h6 _ hlast5
                    refine ⟨lf', new_frame,
                      ⟨toU8 ((frame.functions ++
                        [CompilerFrame.to_function new_frame args.length]).length - 1)⟩,
                      ci, hlf', ?_, ?_⟩
                    · rw [hops]; dsimp only; rw [hf2o, hfo, List.append_assoc]
                    · rw [hfuns]; dsimp only; rw [hf2f, hff]
        · simp at h

/-- C9: every `Crash` opcode that compile_condition pushes as a jump
placeholder is overwritten during backpatching (`JumpToPositionIfFalse`
for each clause test, `Jump` past the fallback for each clause end): a
successful compile_condition takes a Crash-free last-frame opcode list to
a Crash-free last-frame opcode list, so no Crash remains in the emitted
instruction sequence. -/
theorem C9_condition_leaves_no_crash_opcode
    (fuel : Nat) (c : Compiler) (pos : Option RegisterIndex)
    (clauses : List (Expression × Expression)) (otherwise : Expression) (tail : Bool)
    (r : Option ValueIndex) (c' : Compiler) (lf : CompilerFrame)
    (hlf : c.frames.getLast? = some lf) (hcf : CrashFree lf.opcodes)
    (h : compile_condition fuel c pos clauses otherwise tail = .ok (r, c')) :
    ∃ lf', c'.frames.getLast? = some lf' ∧ CrashFree lf'.opcodes := by
  have hp : Progress c c' := (master fuel).2.2.2.2.2.1 c pos clauses otherwise tail r c' h
  obtain ⟨lf', S, hlf', hS, hcfS⟩ := hp.2.2 lf hlf
  refine ⟨lf', hlf', ?_⟩
  unfold CrashFree at hcf hcfS ⊢
  rw [hS]
  simp only [List.mem_append]
  rintro (hmem | hmem)
  · exact hcf hmem
  · exact hcfS hmem

theorem C9_condition_leaves_no_crash_opcode_witness :
    ∃ (r : Option ValueIndex) (c' : Compiler) (lf' : CompilerFrame),
      compile_condition 3 Compiler.new Option.none
        [(Expression.Literal (Literal.Bool true), Expression.Literal (Literal.Number 1))]
        (Expression.Literal (Literal.Number 2)) false = .ok (r, c') ∧
      c'.frames.getLast? = some lf' ∧ CrashFree lf'.opcodes := by
  have e1 : Compiler.new.increase_scope = .ok ⟨[⟨[], [], [], 2, [], [], []⟩]⟩ := rfl
  have e2 : unwrapC (Compiler.mk [⟨[], [], [], 2, [], [], []⟩]).reserve_next_free_register =
      .ok (⟨0⟩, ⟨[⟨[], [Local.Reserved], [], 2, [], [], []⟩]⟩) := rfl
  have e3 : compile_condition_clauses 2 ⟨[⟨[], [Local.Reserved], [], 2, [], [], []⟩]⟩ ⟨0⟩
      [(Expression.Literal (Literal.Bool true), Expression.Literal (Literal.Number 1))]
      false [] =
      .ok ([2], ⟨[⟨[], [Local.Reserved], [], 2,
        [OpCode.JumpToPositionIfFalse (ValueIndex.Constant ⟨0⟩) 3,
         OpCode.CopyValue (ValueIndex.Constant ⟨1⟩) ⟨0⟩, OpCode.Crash],
        [Value.Bool true, Value.Number 1], []⟩]⟩) := rfl
  have e4 : compile_expression 2
      ⟨[⟨[], [Local.Reserved], [], 2,
        [OpCode.JumpToPositionIfFalse (ValueIndex.Constant ⟨0⟩) 3,
         OpCode.CopyValue (ValueIndex.Constant ⟨1⟩) ⟨0⟩, OpCode.Crash],
        [Value.Bool true, Value.Number 1], []⟩]⟩
      (some ⟨0⟩) (Expression.Literal (Literal.Number 2)) false =
      .ok (some (ValueIndex.Register ⟨0⟩),
        ⟨[⟨[], [Local.Reserved], [], 2,
          [OpCode.JumpToPositionIfFalse (ValueIndex.Constant ⟨0⟩) 3,
           OpCode.CopyValue (ValueIndex.Constant ⟨1⟩) ⟨0⟩, OpCode.Crash,
           OpCode.CopyValue (ValueIndex.Constant ⟨2⟩) ⟨0⟩],
          [Value.Bool true, Value.Number 1, Value.Number 2], []⟩]⟩) := rfl
  have e5 : Compiler.reduce_scope
      ⟨[⟨[], [Local.Reserved], [], 2,
        [OpCode.JumpToPositionIfFalse (ValueIndex.Constant ⟨0⟩) 3,
         OpCode.CopyValue (ValueIndex.Constant ⟨1⟩) ⟨0⟩, OpCode.Crash,
         OpCode.CopyValue (ValueIndex.Constant ⟨2⟩) ⟨0⟩],
        [Value.Bool true, Value.Number 1, Value.Number 2], []⟩]⟩ =
      .ok ⟨[⟨[], [Local.Reserved], [], 1,
        [OpCode.JumpToPositionIfFalse (ValueIndex.Constant ⟨0⟩) 3,
         OpCode.CopyValue (ValueIndex.Constant ⟨1⟩) ⟨0⟩, OpCode.Crash,
         OpCode.CopyValue (ValueIndex.Constant ⟨2⟩) ⟨0⟩],
        [Value.Bool true, Value.Number 1, Value.Number 2], []⟩]⟩ := rfl
  have e6 : Compiler.patch_end_jumps
      ⟨[⟨[], [Local.Reserved], [], 1,
        [OpCode.JumpToPositionIfFalse (ValueIndex.Constant ⟨0⟩) 3,
         OpCode.CopyValue (ValueIndex.Constant ⟨1⟩) ⟨0⟩, OpCode.Crash,
         OpCode.CopyValue (ValueIndex.Constant ⟨2⟩) ⟨0⟩],
        [Value.Bool true, Value.Number 1, Value.Number 2], []⟩]⟩ [2] =
      .ok ⟨[⟨[], [Local.Reserved], [], 1,
        [OpCode.JumpToPositionIfFalse (ValueIndex.Constant ⟨0⟩) 3,
         OpCode.CopyValue (ValueIndex.Constant ⟨1⟩) ⟨0⟩, OpCode.Jump 2,
         OpCode.CopyValue (ValueIndex.Constant ⟨2⟩) ⟨0⟩],
        [Value.Bool true, Value.Number 1, Value.Number 2], []⟩]⟩ := rfl
  have h : compile_condition 3 Compiler.new Option.none
      [(Expression.Literal (Literal.Bool true), Expression.Literal (Literal.Number 1))]
      (Expression.Literal (Literal.Number 2)) false =
      .ok (some (ValueIndex.Register ⟨0⟩),
        ⟨[⟨[], [Local.Reserved], [], 1,
          [OpCode.JumpToPositionIfFalse (ValueIndex.Constant ⟨0⟩) 3,
           OpCode.CopyValue (ValueIndex.Constant ⟨1⟩) ⟨0⟩, OpCode.Jump 2,
           OpCode.CopyValue (ValueIndex.Constant ⟨2⟩) ⟨0⟩],
          [Value.Bool true, Value.Number 1, Value.Number 2], []⟩]⟩) := by
    unfold compile_condition
    simp only [Bind.bind, Except.bind]
    rw [e1]
    dsimp only
    rw [e2]
    dsimp only
    rw [e3]
    dsimp only
    rw [e4]
    dsimp only
    rw [e5]
    dsimp only
    rw [e6]
    rfl
  obtain ⟨lf', h1, h2⟩ := C9_condition_leaves_no_crash_opcode 3 Compiler.new Option.none
    [(Expression.Literal (Literal.Bool true), Expression.Literal (Literal.Number 1))]
    (Expression.Literal (Literal.Number 2)) false _ _ (CompilerFrame.new [] 0)
    rfl (by decide) h
  exact ⟨_, _, lf', h, h1, h2⟩

/-- C7: the per-function capture list is deduplicated — resolving the
same enclosing value as a capture twice yields the same capture index
and leaves the frame unchanged — and a successful compile_function emits
`CreateClosure` followed immediately by one `CaptureValue` per entry of
the nested function's capture list, in capture-list order, so their
number equals the nested Function's declared num_captures. -/
theorem C7_capture_dedup_and_capture_value_emission :
    (∀ (f : CompilerFrame) (i : ValueIndex),
        (f.resolve_capture i).2.resolve_capture i = f.resolve_capture i) ∧
    (∀ (fuel : Nat) (c : Compiler) (pos : Option RegisterIndex) (args : List String)
        (body : Expression) (vi : ValueIndex) (c' : Compiler) (lf : CompilerFrame),
        compile_function fuel c pos args body = .ok (vi, c') →
        c.frames.getLast? = some lf →
        ∃ (lf' child : CompilerFrame) (fidx : FunctionIndex) (cidx : RegisterIndex),
          c'.frames.getLast? = some lf' ∧
          lf'.opcodes = lf.opcodes ++ [OpCode.CreateClosure fidx cidx]
            ++ List.map OpCode.CaptureValue child.captures ∧
          lf'.functions = lf.functions ++ [child.to_function args.length] ∧
          (child.to_function args.length).num_captures = child.captures.length) := by
  constructor
  · exact resolve_capture_idempotent
  · intro fuel c pos args body vi c' lf h hlf
    obtain ⟨lf', child, fidx, cidx, h1, h2, h3⟩ :=
      compile_function_emission fuel c pos args body vi c' h lf hlf
    exact ⟨lf', child, fidx, cidx, h1, h2, h3, rfl⟩

theorem C7_capture_dedup_and_capture_value_emission_witness :
    (((⟨[((0, "a"), ValueIndex.Register ⟨0⟩)], [Local.Reserved], [], 1, [], [], []⟩ :
        CompilerFrame).resolve_capture
          (ValueIndex.Register ⟨0⟩)).2.resolve_capture (ValueIndex.Register ⟨0⟩) =
      (⟨[((0, "a"), ValueIndex.Register ⟨0⟩)], [Local.Reserved], [], 1, [], [], []⟩ :
        CompilerFrame).resolve_capture (ValueIndex.Register ⟨0⟩)) ∧
    ∃ (vi : ValueIndex) (c' : Compiler) (lf' child : CompilerFrame)
        (fidx : FunctionIndex) (cidx : RegisterIndex),
      compile_function 2
        ⟨[⟨[((0, "a"), ValueIndex.Register ⟨0⟩)], [Local.Reserved], [], 1, [], [], []⟩]⟩
        Option.none [] (Expression.Symbol "a") = .ok (vi, c') ∧
      c'.frames.getLast? = some lf' ∧
      lf'.opcodes = [] ++ [OpCode.CreateClosure fidx cidx]
        ++ List.map OpCode.CaptureValue child.captures ∧
      lf'.functions = [] ++ [child.to_function 0] ∧
      (child.to_function 0).num_captures = child.captures.length := by
  constructor
  · exact C7_capture_dedup_and_capture_value_emission.1 _ _
  · obtain ⟨lf', child, fidx, cidx, h1, h2, h3, h4⟩ :=
      C7_capture_dedup_and_capture_value_emission.2 2
        ⟨[⟨[((0, "a"), ValueIndex.Register ⟨0⟩)], [Local.Reserved], [], 1, [], [], []⟩]⟩
        Option.none [] (Expression.Symbol "a") _ _
        ⟨[((0, "a"), ValueIndex.Register ⟨0⟩)], [Local.Reserved], [], 1, [], [], []⟩
        rfl rfl
    exact ⟨_, _, lf', child, fidx, cidx, rfl, h1, h2, h3, h4⟩

end Maxlang
